import Mathlib

/-!
Verification of the DATA-GUARDIAN secure link lifecycle core.

This file embeds the TypeScript source of the repository into Lean:
pure functions become Lean functions, the durable store (Prisma) and the
ephemeral store (Redis) become explicit state values, and fallible code
returns Option or Except.  Machine integers are modelled as Nat with
explicit reductions where overflow matters.  Timestamps are candidate
milliseconds since the epoch, as produced by Date.now in the source.
-/

set_option maxRecDepth 10000

namespace DataGuardian

/-! ## Masking utilities (src/lib/masking: maskEmail, maskPhone) -/

/-- Model of masking.ts maskEmail.  JS split('@') splits on every '@';
the destructuring takes the first two parts; empty strings are falsy. -/
def maskEmail (email : String) : String :=
  let parts := email.splitOn "@"
  let localPart := parts.getD 0 ""
  let domain? := parts.get? 1
  match domain? with
  | none => "***@***"
  | some domain =>
    if localPart = "" || domain = "" then "***@***"
    else if localPart.length ≤ 1 then localPart ++ "***@" ++ domain
    else (localPart.take 1) ++ "***@" ++ domain

/-- Model of masking.ts maskPhone.  The source removes every character
that is neither a digit nor '+', returns a fixed placeholder when fewer
than 4 characters remain, and otherwise matches the greedy regular
expression for a leading '+' followed by one to three digits. -/
def maskPhone (phone : String) : String :=
  let cleaned := phone.toList.filter (fun c => c.isDigit || c == '+')
  if cleaned.length < 4 then "****"
  else
    let defaultMask :=
      "****" ++ String.mk (cleaned.drop (cleaned.length - 4))
    match cleaned with
    | '+' :: rest =>
      let ds := (rest.takeWhile Char.isDigit).take 3
      if ds.isEmpty then defaultMask
      else
        let cc := String.mk ('+' :: ds)
        let tail0 := rest.drop ds.length
        let lastFour := String.mk (tail0.drop (tail0.length - 4))
        cc ++ " ****" ++ lastFour
    | _ => defaultMask

/-! ## JSON values, JSON.stringify and JSON.parse

Structured payloads are passed to JSON.stringify before encryption and
to JSON.parse after decryption.  JSON numbers are modelled as integers
(the repository only stores integral numbers); objects are association
lists in source order. -/

inductive Json where
  | jnull : Json
  | jbool (b : Bool) : Json
  | jnum (n : Int) : Json
  | jstr (s : String) : Json
  | jarr (elems : List Json) : Json
  | jobj (fields : List (String × Json)) : Json
deriving Repr

/-- Left brace character, written via its code point. -/
def lbrace : Char := Char.ofNat 123

/-- Right brace character, written via its code point. -/
def rbrace : Char := Char.ofNat 125

/-- Decimal digit character for a value below 10. -/
def digitChar (n : Nat) : Char := Char.ofNat (48 + n)

/-- Decimal digits of a natural number, most significant first. -/
def natDigits (n : Nat) : List Char :=
  if _h : n < 10 then [digitChar n]
  else natDigits (n / 10) ++ [digitChar (n % 10)]
decreasing_by
  exact Nat.div_lt_self (by omega) (by omega)

/-- Decimal rendering of an integer, as JSON.stringify prints integral
numbers. -/
def intDigits (n : Int) : List Char :=
  if n < 0 then '-' :: natDigits n.natAbs else natDigits n.natAbs

/-- Lowercase hexadecimal digit character for a value below 16. -/
def hexDigitChar (n : Nat) : Char :=
  Char.ofNat (if n < 10 then 48 + n else 87 + n)

/-- JSON.stringify escaping of one character inside a string literal. -/
def escChar (c : Char) : List Char :=
  if c = '"' then ['\\', '"']
  else if c = '\\' then ['\\', '\\']
  else if c.toNat = 8 then ['\\', 'b']
  else if c.toNat = 9 then ['\\', 't']
  else if c.toNat = 10 then ['\\', 'n']
  else if c.toNat = 12 then ['\\', 'f']
  else if c.toNat = 13 then ['\\', 'r']
  else if c.toNat < 32 then
    ['\\', 'u', '0', '0', hexDigitChar (c.toNat / 16), hexDigitChar (c.toNat % 16)]
  else [c]

/-- Concatenated image of a function over a list. -/
def concatMap (f : α → List β) : List α → List β
  | [] => []
  | x :: xs => f x ++ concatMap f xs

/-- JSON string literal for the given character content, quotes included. -/
def strLit (s : String) : List Char :=
  '"' :: concatMap escChar s.toList ++ ['"']

mutual

/-- Model of JSON.stringify (without space argument, as the source calls
it): characters of the serialization of one JSON value. -/
def jVal : Json → List Char
  | .jnull => ['n', 'u', 'l', 'l']
  | .jbool true => ['t', 'r', 'u', 'e']
  | .jbool false => ['f', 'a', 'l', 's', 'e']
  | .jnum n => intDigits n
  | .jstr s => strLit s
  | .jarr [] => ['[', ']']
  | .jarr (x :: xs) => '[' :: (jVal x ++ jArrTail xs) ++ [']']
  | .jobj [] => [lbrace, rbrace]
  | .jobj (f :: fs) =>
      lbrace :: (strLit f.1 ++ ':' :: jVal f.2 ++ jObjTail fs) ++ [rbrace]

/-- Comma-separated serialization of the remaining array elements. -/
def jArrTail : List Json → List Char
  | [] => []
  | x :: xs => ',' :: jVal x ++ jArrTail xs

/-- Comma-separated serialization of the remaining object fields. -/
def jObjTail : List (String × Json) → List Char
  | [] => []
  | f :: fs => ',' :: strLit f.1 ++ ':' :: jVal f.2 ++ jObjTail fs

end

/-- The JSON text JSON.stringify produces for a value. -/
def jsonStringify (j : Json) : String := String.mk (jVal j)

/-- Whitespace characters skipped by JSON.parse. -/
def isJsonWs (c : Char) : Bool :=
  c = ' ' || c.toNat = 9 || c.toNat = 10 || c.toNat = 13

/-- Numeric value of a hexadecimal digit character, if any. -/
def hexCharVal? (c : Char) : Option Nat :=
  if 48 ≤ c.toNat ∧ c.toNat ≤ 57 then some (c.toNat - 48)
  else if 97 ≤ c.toNat ∧ c.toNat ≤ 102 then some (c.toNat - 87)
  else if 65 ≤ c.toNat ∧ c.toNat ≤ 70 then some (c.toNat - 55)
  else none

/-- Unescaped character for a single-character JSON escape. -/
def unescChar? (c : Char) : Option Char :=
  if c = '"' then some '"'
  else if c = '\\' then some '\\'
  else if c = '/' then some '/'
  else if c = 'b' then some (Char.ofNat 8)
  else if c = 'f' then some (Char.ofNat 12)
  else if c = 'n' then some (Char.ofNat 10)
  else if c = 'r' then some (Char.ofNat 13)
  else if c = 't' then some (Char.ofNat 9)
  else none

/-- Parses the body of a JSON string literal after the opening quote,
returning the content and the input after the closing quote. -/
def parseStrChars : List Char → Option (List Char × List Char)
  | [] => none
  | '"' :: r => some ([], r)
  | '\\' :: r =>
      match r with
      | 'u' :: h1 :: h2 :: h3 :: h4 :: r2 =>
          match hexCharVal? h1, hexCharVal? h2, hexCharVal? h3, hexCharVal? h4 with
          | some a, some b, some c, some d =>
              let v := a * 4096 + b * 256 + c * 16 + d
              if 55296 ≤ v ∧ v < 57344 then none
              else
                match parseStrChars r2 with
                | some (cs, rest) => some (Char.ofNat v :: cs, rest)
                | none => none
          | _, _, _, _ => none
      | e :: r2 =>
          match unescChar? e with
          | some c =>
              match parseStrChars r2 with
              | some (cs, rest) => some (c :: cs, rest)
              | none => none
          | none => none
      | [] => none
  | c :: r =>
      if c.toNat < 32 then none
      else
        match parseStrChars r with
        | some (cs, rest) => some (c :: cs, rest)
        | none => none

/-- Decimal value of a list of digit characters, most significant first. -/
def digitsVal (ds : List Char) : Nat :=
  ds.foldl (fun a c => a * 10 + (c.toNat - 48)) 0

/-- Parses a JSON integer numeral (sign and digits); fractional or
exponent forms are outside the integral model and fail. -/
def parseNum (s : List Char) : Option (Json × List Char) :=
  let s1 := if s.head? = some '-' then s.tail else s
  let ds := s1.takeWhile Char.isDigit
  if ds.isEmpty then none
  else
    let rest := s1.drop ds.length
    if rest.head? = some '.' ∨ rest.head? = some 'e' ∨ rest.head? = some 'E' then none
    else
      let v : Int := Int.ofNat (digitsVal ds)
      some (.jnum (if s.head? = some '-' then -v else v), rest)

mutual

/-- Fuelled model of JSON.parse on one value: returns the value and the
unconsumed input. -/
def parseVal : Nat → List Char → Option (Json × List Char)
  | 0, _ => none
  | fuel + 1, s =>
    match s.dropWhile isJsonWs with
    | 'n' :: 'u' :: 'l' :: 'l' :: r => some (.jnull, r)
    | 't' :: 'r' :: 'u' :: 'e' :: r => some (.jbool true, r)
    | 'f' :: 'a' :: 'l' :: 's' :: 'e' :: r => some (.jbool false, r)
    | '"' :: r =>
        match parseStrChars r with
        | some (cs, rest) => some (.jstr (String.mk cs), rest)
        | none => none
    | '[' :: r =>
        match r.dropWhile isJsonWs with
        | ']' :: rest => some (.jarr [], rest)
        | r1 =>
          match parseVal fuel r1 with
          | some (x, r2) =>
              match parseElems fuel r2 with
              | some (xs, rest) => some (.jarr (x :: xs), rest)
              | none => none
          | none => none
    | c :: r =>
        if c = lbrace then
          match r.dropWhile isJsonWs with
          | c1 :: rest =>
              if c1 = rbrace then some (.jobj [], rest)
              else
                match parseField fuel (c1 :: rest) with
                | some (f, r2) =>
                    match parseFields fuel r2 with
                    | some (fs, rest2) => some (.jobj (f :: fs), rest2)
                    | none => none
                | none => none
          | [] => none
        else parseNum (c :: r)
    | [] => none

/-- Parses the remaining elements of an array: a comma-prefixed value
repeated, then the closing bracket. -/
def parseElems : Nat → List Char → Option (List Json × List Char)
  | 0, _ => none
  | fuel + 1, s =>
    match s.dropWhile isJsonWs with
    | ']' :: rest => some ([], rest)
    | ',' :: r =>
        match parseVal fuel r with
        | some (x, r2) =>
            match parseElems fuel r2 with
            | some (xs, rest) => some (x :: xs, rest)
            | none => none
        | none => none
    | _ => none

/-- Parses one object field: quoted key, colon, value. -/
def parseField : Nat → List Char → Option ((String × Json) × List Char)
  | 0, _ => none
  | fuel + 1, s =>
    match s.dropWhile isJsonWs with
    | '"' :: r =>
        match parseStrChars r with
        | some (cs, r2) =>
            match r2.dropWhile isJsonWs with
            | ':' :: r3 =>
                match parseVal fuel r3 with
                | some (v, rest) => some ((String.mk cs, v), rest)
                | none => none
            | _ => none
        | none => none
    | _ => none

/-- Parses the remaining fields of an object: a comma-prefixed field
repeated, then the closing brace. -/
def parseFields : Nat → List Char → Option (List (String × Json) × List Char)
  | 0, _ => none
  | fuel + 1, s =>
    match s.dropWhile isJsonWs with
    | ',' :: r =>
        match parseField fuel r with
        | some (f, r2) =>
            match parseFields fuel r2 with
            | some (fs, rest) => some (f :: fs, rest)
            | none => none
        | none => none
    | c :: rest => if c = rbrace then some ([], rest) else none
    | [] => none

end

/-- Model of JSON.parse: parse one value and require only whitespace to
remain. -/
def jsonParse (s : String) : Option Json :=
  match parseVal (s.length + 1) s.toList with
  | some (j, rest) => if (rest.dropWhile isJsonWs).isEmpty then some j else none
  | none => none

/-- Heads that terminate a JSON numeral: neither digit nor '.', 'e', 'E'. -/
def numSafe (rest : List Char) : Prop :=
  ∀ c, rest.head? = some c → c.isDigit = false ∧ c ≠ '.' ∧ c ≠ 'e' ∧ c ≠ 'E'

/-! ## Hexadecimal and UTF-8 codecs -/

/-- Hex encoding of a byte list, as Buffer.toString with hex encoding. -/
def bytesToHex (bs : List Nat) : List Char :=
  concatMap (fun b => [hexDigitChar (b / 16), hexDigitChar (b % 16)]) bs

/-- Hex decoding to a byte list, as Buffer.from with hex encoding on
well-formed input (the source always length-checks the result). -/
def hexToBytes? : List Char → Option (List Nat)
  | [] => some []
  | [_] => none
  | c1 :: c2 :: r =>
      match hexCharVal? c1, hexCharVal? c2 with
      | some h, some l =>
          match hexToBytes? r with
          | some bs => some ((h * 16 + l) :: bs)
          | none => none
      | _, _ => none

/-- UTF-8 bytes of one code point. -/
def utf8EncodeNat (n : Nat) : List Nat :=
  if n < 128 then [n]
  else if n < 2048 then [192 + n / 64, 128 + n % 64]
  else if n < 65536 then [224 + n / 4096, 128 + (n / 64) % 64, 128 + n % 64]
  else [240 + n / 262144, 128 + (n / 4096) % 64, 128 + (n / 64) % 64, 128 + n % 64]

/-- UTF-8 encoding of a string, as Buffer.from with utf8 encoding. -/
def utf8Encode (s : String) : List Nat :=
  concatMap (fun c => utf8EncodeNat c.toNat) s.toList

/-- Whether a byte is a UTF-8 continuation byte. -/
def isCont (b : Nat) : Bool := 128 ≤ b && b < 192

/-- Decodes one UTF-8 sequence from the head of a byte list: the code
point's character and the remaining bytes, or none on malformed input
(overlong form, surrogate, out-of-range, truncation, bad lead byte). -/
def decodeOne : List Nat → Option (Char × List Nat)
  | [] => none
  | b :: r =>
    if b < 128 then some (Char.ofNat b, r)
    else if b < 192 then none
    else if b < 224 then
      match r with
      | b1 :: r2 =>
          if isCont b1 then
            let v := (b - 192) * 64 + (b1 - 128)
            if v < 128 then none else some (Char.ofNat v, r2)
          else none
      | [] => none
    else if b < 240 then
      match r with
      | b1 :: b2 :: r2 =>
          if isCont b1 && isCont b2 then
            let v := (b - 224) * 4096 + (b1 - 128) * 64 + (b2 - 128)
            if v < 2048 then none
            else if 55296 ≤ v ∧ v < 57344 then none
            else some (Char.ofNat v, r2)
          else none
      | _ => none
    else if b < 248 then
      match r with
      | b1 :: b2 :: b3 :: r2 =>
          if isCont b1 && isCont b2 && isCont b3 then
            let v := (b - 240) * 262144 + (b1 - 128) * 4096 + (b2 - 128) * 64 + (b3 - 128)
            if v < 65536 then none
            else if 1114112 ≤ v then none
            else some (Char.ofNat v, r2)
          else none
      | _ => none
    else none

/-- Fuelled decoding loop; one unit of fuel is spent per decoded
character, and a byte-length budget always suffices. -/
def utf8DecodeLoop : Nat → List Nat → Option (List Char)
  | _, [] => some []
  | 0, _ :: _ => none
  | fuel + 1, b :: r =>
    match decodeOne (b :: r) with
    | some (c, r2) =>
        match utf8DecodeLoop fuel r2 with
        | some cs => some (c :: cs)
        | none => none
    | none => none

/-- Strict UTF-8 decoding of a byte list (the source only decodes bytes
it produced itself, which are always valid UTF-8). -/
def utf8Decode? (l : List Nat) : Option (List Char) :=
  utf8DecodeLoop l.length l

/-! ## Carry-less (GF(2)[x]) arithmetic on Nat

A natural number stands for the polynomial over GF(2) whose coefficient
of x^i is bit i.  These operations underlie the GHASH field
GF(2^128) = GF(2)[x] / (x^128 + x^7 + x^2 + x + 1) used by AES-GCM. -/

/-- Carry-less (polynomial) product of two naturals viewed as
polynomials over GF(2). -/
def clmul (a b : Nat) : Nat :=
  if _h : a = 0 then 0
  else (if a % 2 = 1 then b else 0) ^^^ 2 * clmul (a / 2) b
decreasing_by
  exact Nat.div_lt_self (Nat.pos_of_ne_zero _h) (by omega)

/-- The GCM modulus x^128 + x^7 + x^2 + x + 1 as a natural number. -/
def gcmP : Nat := 2 ^ 128 + 135

/-- One reduction step: clear bit 128 + k by xoring the shifted modulus. -/
def pmodStep (c k : Nat) : Nat :=
  if c.testBit (128 + k) then c ^^^ (gcmP <<< k) else c

/-- Reduce bits 128+k-1 … 128 of c, highest first. -/
def pmodAux : Nat → Nat → Nat
  | 0, c => c
  | k + 1, c => pmodAux k (pmodStep c k)

/-- Remainder of a polynomial of degree below 256 modulo the GCM
modulus. -/
def pmodP (c : Nat) : Nat := pmodAux 128 c

/-- The low w bits of x in reversed bit order. -/
def revBits : Nat → Nat → Nat
  | 0, _ => 0
  | w + 1, x => (x % 2) * 2 ^ w + revBits w (x / 2)

/-- Bit reversal of a 128-bit block: GCM's GHASH treats the most
significant bit of a block as the coefficient of x^0. -/
def rev128 (x : Nat) : Nat := revBits 128 x

/-- Fuel-bounded structural mirror of clmul, used to evaluate carry-less
products inside the kernel. -/
def clmulF : Nat → Nat → Nat → Nat
  | 0, _, _ => 0
  | fuel + 1, a, b =>
      if a = 0 then 0 else (if a % 2 = 1 then b else 0) ^^^ 2 * clmulF fuel (a / 2) b

/-- GHASH multiplication in GF(2^128) on blocks in GCM bit order. -/
def gfmul (x y : Nat) : Nat := rev128 (pmodP (clmul (rev128 x) (rev128 y)))

/-! ## AES-256 (encryption direction only, as used by GCM) -/

/-- The AES S-box. -/
def sbox : List Nat := [
  99, 124, 119, 123, 242, 107, 111, 197, 48, 1, 103, 43, 254, 215, 171, 118,
  202, 130, 201, 125, 250, 89, 71, 240, 173, 212, 162, 175, 156, 164, 114, 192,
  183, 253, 147, 38, 54, 63, 247, 204, 52, 165, 229, 241, 113, 216, 49, 21,
  4, 199, 35, 195, 24, 150, 5, 154, 7, 18, 128, 226, 235, 39, 178, 117,
  9, 131, 44, 26, 27, 110, 90, 160, 82, 59, 214, 179, 41, 227, 47, 132,
  83, 209, 0, 237, 32, 252, 177, 91, 106, 203, 190, 57, 74, 76, 88, 207,
  208, 239, 170, 251, 67, 77, 51, 133, 69, 249, 2, 127, 80, 60, 159, 168,
  81, 163, 64, 143, 146, 157, 56, 245, 188, 182, 218, 33, 16, 255, 243, 210,
  205, 12, 19, 236, 95, 151, 68, 23, 196, 167, 126, 61, 100, 93, 25, 115,
  96, 129, 79, 220, 34, 42, 144, 136, 70, 238, 184, 20, 222, 94, 11, 219,
  224, 50, 58, 10, 73, 6, 36, 92, 194, 211, 172, 98, 145, 149, 228, 121,
  231, 200, 55, 109, 141, 213, 78, 169, 108, 86, 244, 234, 101, 122, 174, 8,
  186, 120, 37, 46, 28, 166, 180, 198, 232, 221, 116, 31, 75, 189, 139, 138,
  112, 62, 181, 102, 72, 3, 246, 14, 97, 53, 87, 185, 134, 193, 29, 158,
  225, 248, 152, 17, 105, 217, 142, 148, 155, 30, 135, 233, 206, 85, 40, 223,
  140, 161, 137, 13, 191, 230, 66, 104, 65, 153, 45, 15, 176, 84, 187, 22]

/-- S-box lookup of a byte. -/
def sub1 (b : Nat) : Nat := sbox.getD b 0

/-- Big-endian bytes of a 32-bit word. -/
def wordBytes (w : Nat) : List Nat :=
  [w / 2 ^ 24 % 256, w / 2 ^ 16 % 256, w / 2 ^ 8 % 256, w % 256]

/-- 32-bit word from four big-endian bytes. -/
def bytesWord (bs : List Nat) : Nat :=
  bs.foldl (fun a b => a * 256 + b) 0

/-- Byte rotation of a word, as in the AES key schedule. -/
def rotWord (w : Nat) : Nat := (w % 2 ^ 24) * 256 + w / 2 ^ 24

/-- S-box applied to each byte of a word. -/
def subWord (w : Nat) : Nat := bytesWord ((wordBytes w).map sub1)

/-- AES round constants for AES-256 (indices 1 … 7 used). -/
def rconW (j : Nat) : Nat := ([0, 1, 2, 4, 8, 16, 32, 64].getD j 0) * 2 ^ 24

/-- Appends the remaining words of the AES-256 key schedule. -/
def expandAux : Nat → List Nat → List Nat
  | 0, ws => ws
  | n + 1, ws =>
      let i := ws.length
      let t0 := ws.getD (i - 1) 0
      let t :=
        if i % 8 = 0 then (subWord (rotWord t0)) ^^^ rconW (i / 8)
        else if i % 8 = 4 then subWord t0
        else t0
      expandAux n (ws ++ [ws.getD (i - 8) 0 ^^^ t])

/-- AES-256 key schedule: 60 words from a 32-byte key. -/
def expandKey (key : List Nat) : List Nat :=
  expandAux 52 ((List.range 8).map (fun i => bytesWord ((key.drop (4 * i)).take 4)))

/-- Round-key bytes for round r (columns are consecutive words). -/
def roundKey (ws : List Nat) (r : Nat) : List Nat :=
  concatMap wordBytes ((ws.drop (4 * r)).take 4)

/-- Pointwise xor of two byte lists. -/
def zipXor (a b : List Nat) : List Nat := List.zipWith (· ^^^ ·) a b

/-- SubBytes on a 16-byte state. -/
def subBytes (st : List Nat) : List Nat := st.map sub1

/-- ShiftRows on a 16-byte state in column-major order. -/
def shiftRows (st : List Nat) : List Nat :=
  [0, 5, 10, 15, 4, 9, 14, 3, 8, 13, 2, 7, 12, 1, 6, 11].map (fun i => st.getD i 0)

/-- Multiplication by x in GF(2^8) modulo x^8 + x^4 + x^3 + x + 1. -/
def xtime (b : Nat) : Nat := (b * 2 % 256) ^^^ (if 128 ≤ b then 27 else 0)

/-- Multiplication by x + 1 in GF(2^8). -/
def mul3 (b : Nat) : Nat := xtime b ^^^ b

/-- MixColumns on one 4-byte column. -/
def mixCol (c : List Nat) : List Nat :=
  let a0 := c.getD 0 0
  let a1 := c.getD 1 0
  let a2 := c.getD 2 0
  let a3 := c.getD 3 0
  [xtime a0 ^^^ mul3 a1 ^^^ a2 ^^^ a3,
   a0 ^^^ xtime a1 ^^^ mul3 a2 ^^^ a3,
   a0 ^^^ a1 ^^^ xtime a2 ^^^ mul3 a3,
   mul3 a0 ^^^ a1 ^^^ a2 ^^^ xtime a3]

/-- MixColumns on a 16-byte state. -/
def mixColumns (st : List Nat) : List Nat :=
  mixCol (st.take 4) ++ mixCol ((st.drop 4).take 4) ++
  mixCol ((st.drop 8).take 4) ++ mixCol (st.drop 12)

/-- AES-256 block encryption of 16 bytes under a 32-byte key. -/
def aesEncryptBlock (key block : List Nat) : List Nat :=
  let ws := expandKey key
  let st0 := zipXor block (roundKey ws 0)
  let stMid := (List.range 13).foldl
    (fun st i => zipXor (mixColumns (shiftRows (subBytes st))) (roundKey ws (i + 1)))
    st0
  zipXor (shiftRows (subBytes stMid)) (roundKey ws 14)

/-! ## AES-256-GCM (createCipheriv / createDecipheriv with aes-256-gcm) -/

/-- 128-bit block value from 16 big-endian bytes. -/
def bytesToBlock (bs : List Nat) : Nat :=
  bs.foldl (fun a b => a * 256 + b) 0

/-- 16 big-endian bytes of a 128-bit block value. -/
def blockToBytes (n : Nat) : List Nat :=
  (List.range 16).map (fun i => n / 2 ^ (8 * (15 - i)) % 256)

/-- Splits a byte string into 128-bit blocks, zero-padding the last. -/
def toBlocks : List Nat → List Nat
  | [] => []
  | b :: bs =>
      let chunk := (b :: bs).take 16
      bytesToBlock (chunk ++ List.replicate (16 - chunk.length) 0) ::
        toBlocks ((b :: bs).drop 16)
termination_by l => l.length
decreasing_by
  simp [List.length_drop]
  omega

/-- GHASH over a block sequence. -/
def ghash (h : Nat) (blocks : List Nat) : Nat :=
  blocks.foldl (fun y b => gfmul (y ^^^ b) h) 0

/-- GHASH length block for AAD-free GCM: 64-bit zero then the bit length
of the ciphertext. -/
def lenBlock (ctLen : Nat) : Nat := ctLen * 8 % 2 ^ 64

/-- The GCM hash subkey: AES encryption of the zero block. -/
def gcmH (key : List Nat) : Nat :=
  bytesToBlock (aesEncryptBlock key (List.replicate 16 0))

/-- The pre-counter block J0; a 12-byte IV is used directly, any other
length (the source uses 16 bytes) is GHASHed. -/
def gcmJ0 (key iv : List Nat) : Nat :=
  if iv.length = 12 then bytesToBlock (iv ++ [0, 0, 0, 1])
  else ghash (gcmH key) (toBlocks iv ++ [lenBlock iv.length])

/-- The counter block i steps after J0 (32-bit wrapping increment). -/
def ctrAt (j0 i : Nat) : Nat := j0 / 2 ^ 32 * 2 ^ 32 + (j0 + i) % 2 ^ 32

/-- Keystream bytes for n blocks starting at counter J0 + 1. -/
def ctrStream (key : List Nat) (j0 n : Nat) : List Nat :=
  concatMap (fun i => aesEncryptBlock key (blockToBytes (ctrAt j0 (i + 1))))
    (List.range n)

/-- Number of 16-byte blocks covering len bytes. -/
def numBlocks (len : Nat) : Nat := (len + 15) / 16

/-- The GCM authentication tag over a ciphertext. -/
def gcmTag (key iv ct : List Nat) : List Nat :=
  let h := gcmH key
  let j0 := gcmJ0 key iv
  blockToBytes
    (ghash h (toBlocks ct ++ [lenBlock ct.length]) ^^^
      bytesToBlock (aesEncryptBlock key (blockToBytes j0)))

/-- AES-256-GCM encryption: ciphertext and 16-byte tag. -/
def gcmEncrypt (key iv pt : List Nat) : List Nat × List Nat :=
  let j0 := gcmJ0 key iv
  let ct := zipXor pt (ctrStream key j0 (numBlocks pt.length))
  (ct, gcmTag key iv ct)

/-- AES-256-GCM decryption: recompute the tag over the presented
ciphertext and fail closed unless it matches the presented tag. -/
def gcmDecrypt (key iv ct tag : List Nat) : Option (List Nat) :=
  if gcmTag key iv ct = tag then
    some (zipXor ct (ctrStream key (gcmJ0 key iv) (numBlocks ct.length)))
  else none

/-! ## SHA-256 and HMAC-SHA256 (createHash / createHmac) -/

/-- SHA-256 round constants. -/
def shaK : List Nat := [
  1116352408, 1899447441, 3049323471, 3921009573, 961987163, 1508970993, 2453635748, 2870763221,
  3624381080, 310598401, 607225278, 1426881987, 1925078388, 2162078206, 2614888103, 3248222580,
  3835390401, 4022224774, 264347078, 604807628, 770255983, 1249150122, 1555081692, 1996064986,
  2554220882, 2821834349, 2952996808, 3210313671, 3336571891, 3584528711, 113926993, 338241895,
  666307205, 773529912, 1294757372, 1396182291, 1695183700, 1986661051, 2177026350, 2456956037,
  2730485921, 2820302411, 3259730800, 3345764771, 3516065817, 3600352804, 4094571909, 275423344,
  430227734, 506948616, 659060556, 883997877, 958139571, 1322822218, 1537002063, 1747873779,
  1955562222, 2024104815, 2227730452, 2361852424, 2428436474, 2756734187, 3204031479, 3329325298]

/-- SHA-256 working state: eight 32-bit words. -/
structure Sha8 where
  a : Nat
  b : Nat
  c : Nat
  d : Nat
  e : Nat
  f : Nat
  g : Nat
  h : Nat

/-- Initial SHA-256 state. -/
def shaInit : Sha8 :=
  ⟨1779033703, 3144134277, 1013904242, 2773480762,
   1359893119, 2600822924, 528734635, 1541459225⟩

/-- Right rotation of a 32-bit word. -/
def rotr32 (x n : Nat) : Nat := x / 2 ^ n + x % 2 ^ n * 2 ^ (32 - n)

/-- SHA-256 message schedule: 64 words from a 64-byte chunk. -/
def shaSchedule (chunk : List Nat) : List Nat :=
  let w0 := (List.range 16).map (fun i => bytesWord ((chunk.drop (4 * i)).take 4))
  (List.range 48).foldl
    (fun w _ =>
      let i := w.length
      let w15 := w.getD (i - 15) 0
      let w2 := w.getD (i - 2) 0
      let s0 := rotr32 w15 7 ^^^ rotr32 w15 18 ^^^ w15 / 2 ^ 3
      let s1 := rotr32 w2 17 ^^^ rotr32 w2 19 ^^^ w2 / 2 ^ 10
      w ++ [(w.getD (i - 16) 0 + s0 + w.getD (i - 7) 0 + s1) % 2 ^ 32])
    w0

/-- One SHA-256 compression round. -/
def shaRound (st : Sha8) (kw : Nat) : Sha8 :=
  let s1 := rotr32 st.e 6 ^^^ rotr32 st.e 11 ^^^ rotr32 st.e 25
  let ch := st.e &&& st.f ^^^ (st.e ^^^ 4294967295) &&& st.g
  let t1 := (st.h + s1 + ch + kw) % 2 ^ 32
  let s0 := rotr32 st.a 2 ^^^ rotr32 st.a 13 ^^^ rotr32 st.a 22
  let mj := st.a &&& st.b ^^^ st.a &&& st.c ^^^ st.b &&& st.c
  let t2 := (s0 + mj) % 2 ^ 32
  ⟨(t1 + t2) % 2 ^ 32, st.a, st.b, st.c, (st.d + t1) % 2 ^ 32, st.e, st.f, st.g⟩

/-- SHA-256 compression of one 64-byte chunk into the running state. -/
def shaCompress (st : Sha8) (chunk : List Nat) : Sha8 :=
  let ws := shaSchedule chunk
  let r := (List.range 64).foldl (fun s i => shaRound s ((shaK.getD i 0 + ws.getD i 0) % 2 ^ 32)) st
  ⟨(st.a + r.a) % 2 ^ 32, (st.b + r.b) % 2 ^ 32, (st.c + r.c) % 2 ^ 32,
   (st.d + r.d) % 2 ^ 32, (st.e + r.e) % 2 ^ 32, (st.f + r.f) % 2 ^ 32,
   (st.g + r.g) % 2 ^ 32, (st.h + r.h) % 2 ^ 32⟩

/-- Splits a padded message into 64-byte chunks. -/
def chunks64 : List Nat → List (List Nat)
  | [] => []
  | b :: bs => ((b :: bs).take 64) :: chunks64 ((b :: bs).drop 64)
termination_by l => l.length
decreasing_by
  simp [List.length_drop]
  omega

/-- SHA-256 padding: 0x80, zeros, then the 64-bit big-endian bit length. -/
def shaPad (msg : List Nat) : List Nat :=
  let l := msg.length
  let zeros := (119 - l % 64) % 64
  msg ++ 128 :: List.replicate zeros 0 ++
    (List.range 8).map (fun i => l * 8 / 2 ^ (8 * (7 - i)) % 256)

/-- SHA-256 digest (32 bytes) of a byte message. -/
def sha256 (msg : List Nat) : List Nat :=
  let st := (chunks64 (shaPad msg)).foldl shaCompress shaInit
  concatMap wordBytes [st.a, st.b, st.c, st.d, st.e, st.f, st.g, st.h]

/-- HMAC-SHA256 digest (32 bytes) of a message under a byte key. -/
def hmacSha256 (key msg : List Nat) : List Nat :=
  let k0 := if 64 < key.length then sha256 key else key
  let kp := k0 ++ List.replicate (64 - k0.length) 0
  let ipad := kp.map (· ^^^ 54)
  let opad := kp.map (· ^^^ 92)
  sha256 (opad ++ sha256 (ipad ++ msg))

/-! ## crypto.ts: encryptData / decryptData / encryptBuffer / decryptBuffer

The encryption key comes from configuration; functions take it as an
explicit parameter.  The fresh random IV drawn inside encryptData and
encryptBuffer is likewise passed in explicitly. -/

/-- Failure cases of decryptData (the source throws an Error for each). -/
inductive DecErr where
  | badFormat
  | badHex
  | badIvLen
  | badTagLen
  | authFail
  | badUtf8
  | badJson
deriving Repr, DecidableEq

/-- Model of crypto.ts encryptData: JSON.stringify, UTF-8 encode,
AES-256-GCM, then the string iv:authTag:ciphertext, all hex. -/
def encryptData (key iv : List Nat) (data : Json) : String :=
  let pt := utf8Encode (jsonStringify data)
  let (ct, tag) := gcmEncrypt key iv pt
  String.mk (bytesToHex iv ++ ':' :: bytesToHex tag ++ ':' :: bytesToHex ct)

/-- JS String.split on a single separator character: the (possibly
empty) chunks between separator occurrences. -/
def splitOnChar (sep : Char) : List Char → List (List Char)
  | [] => [[]]
  | c :: r =>
      if c = sep then [] :: splitOnChar sep r
      else
        match splitOnChar sep r with
        | g :: gs => (c :: g) :: gs
        | [] => [[c]]

/-- Model of crypto.ts decryptData: split on ':', expect exactly three
parts, hex-decode, check IV and tag lengths, authenticated decryption,
UTF-8 decode, JSON.parse.  Every throwing path of the source becomes an
error value. -/
def decryptData (key : List Nat) (s : String) : Except DecErr Json :=
  match splitOnChar ':' s.toList with
  | [p0, p1, p2] =>
    match hexToBytes? p0, hexToBytes? p1, hexToBytes? p2 with
    | some iv, some tag, some ct =>
      if iv.length ≠ 16 then .error .badIvLen
      else if tag.length ≠ 16 then .error .badTagLen
      else
        match gcmDecrypt key iv ct tag with
        | none => .error .authFail
        | some pt =>
          match utf8Decode? pt with
          | none => .error .badUtf8
          | some cs =>
            match jsonParse (String.mk cs) with
            | none => .error .badJson
            | some j => .ok j
    | _, _, _ => .error .badHex
  | _ => .error .badFormat

/-- Model of crypto.ts encryptBuffer: AES-256-GCM over raw bytes,
returning hex iv, hex authTag and the raw ciphertext. -/
def encryptBuffer (key iv buf : List Nat) :
    String × String × List Nat :=
  let (ct, tag) := gcmEncrypt key iv buf
  (String.mk (bytesToHex iv), String.mk (bytesToHex tag), ct)

/-- Model of crypto.ts decryptBuffer: hex-decode iv and authTag and
perform authenticated decryption; any throwing path is none. -/
def decryptBuffer (key : List Nat) (encryptedContent : List Nat)
    (ivHex authTagHex : String) : Option (List Nat) :=
  match hexToBytes? ivHex.toList, hexToBytes? authTagHex.toList with
  | some iv, some tag => gcmDecrypt key iv encryptedContent tag
  | _, _ => none

/-! ## crypto.ts: hashOTP / verifyOTPHash -/

/-- Model of crypto.ts hashOTP: hex HMAC-SHA256 digest of the OTP under
the configured secret. -/
def hashOTP (secret otp : String) : String :=
  String.mk (bytesToHex (hmacSha256 (utf8Encode secret) (utf8Encode otp)))

/-- Failure of crypto.timingSafeEqual on buffers of unequal length (the
source does not catch it, so verifyOTPHash throws). -/
inductive VerifyErr where
  | lengthMismatch
deriving Repr, DecidableEq

/-- Whether the stored hash starts with the bcrypt marker "$2"
(hash.startsWith of the source). -/
def bcryptFormat (hash : String) : Bool :=
  match hash.toList with
  | '$' :: '2' :: _ => true
  | _ => false

/-- Model of crypto.ts verifyOTPHash.  A stored hash starting with "$2"
is delegated to bcrypt.compare (an external library, passed in as the
comparator bcmp); otherwise the keyed digest is recomputed and compared
byte-for-byte by crypto.timingSafeEqual, which throws when the UTF-8
byte lengths differ. -/
def verifyOTPHash (bcmp : String → String → Bool) (secret otp hash : String) :
    Except VerifyErr Bool :=
  if bcryptFormat hash then .ok (bcmp otp hash)
  else
    let computedHash := hashOTP secret otp
    if (utf8Encode computedHash).length ≠ (utf8Encode hash).length then
      .error .lengthMismatch
    else .ok ((utf8Encode computedHash) == (utf8Encode hash))

/-! ## Ephemeral store (src/lib/redis.ts)

Redis is a key-value store whose entries carry an absolute expiry time;
every write in the source supplies a TTL.  Operations take the current
time in milliseconds. -/

/-- One live Redis entry. -/
structure RedisEntry where
  key : String
  value : String
  expiresAt : Nat
deriving Repr, DecidableEq

/-- GET: the value, if present and not yet expired. -/
def redisGet (rs : List RedisEntry) (k : String) (now : Nat) : Option String :=
  match rs.find? (fun e => e.key == k) with
  | some e => if now < e.expiresAt then some e.value else none
  | none => none

/-- DEL. -/
def redisDel (rs : List RedisEntry) (k : String) : List RedisEntry :=
  rs.filter (fun e => !(e.key == k))

/-- SET with EX seconds. -/
def redisSet (rs : List RedisEntry) (k v : String) (ex now : Nat) : List RedisEntry :=
  ⟨k, v, now + ex * 1000⟩ :: redisDel rs k

/-- EXISTS as a Boolean. -/
def redisExists (rs : List RedisEntry) (k : String) (now : Nat) : Bool :=
  (redisGet rs k now).isSome

/-- TTL in seconds: -2 when the key is absent or expired (every key in
this model has an expiry). -/
def redisTtlSec (rs : List RedisEntry) (k : String) (now : Nat) : Int :=
  match rs.find? (fun e => e.key == k) with
  | some e => if now < e.expiresAt then ((e.expiresAt - now) / 1000 : Nat) else -2
  | none => -2

/-- Key of the session record for a token and session id. -/
def sessionKey (token sid : String) : String := "session:" ++ token ++ ":" ++ sid

/-- Key of the active-session marker for a token. -/
def activeKey (token : String) : String := "active:" ++ token

/-- Key of the revoked marker for a token. -/
def revokedKey (token : String) : String := "revoked:" ++ token

/-- JSON.stringify of the SessionData object stored by createSession
(an undefined deviceFingerprint is omitted by JSON.stringify). -/
def sessionDataStr (token sid : String) (now ttl : Nat) (fp : Option String) : String :=
  jsonStringify (.jobj
    ([("sessionId", .jstr sid), ("token", .jstr token),
      ("createdAt", .jnum (now : Int)), ("expiresAt", .jnum ((now + ttl * 1000 : Nat) : Int))] ++
      match fp with
      | some f => [("deviceFingerprint", .jstr f)]
      | none => []))

/-- Model of redis.ts createSession: read the active marker, delete the
session record it names, then write the new session record and the
active marker, both with the TTL. -/
def createSession (rs : List RedisEntry) (token sid : String) (ttl : Nat)
    (fp : Option String) (now : Nat) : List RedisEntry :=
  let rs1 :=
    match redisGet rs (activeKey token) now with
    | some existing => redisDel rs (sessionKey token existing)
    | none => rs
  let rs2 := redisSet rs1 (sessionKey token sid) (sessionDataStr token sid now ttl fp) ttl now
  redisSet rs2 (activeKey token) sid ttl now

/-- Model of redis.ts validateSession: false when the revoked marker is
set, when the presented id is not the active session id (or there is no
active marker), or when the session record itself is gone. -/
def validateSession (rs : List RedisEntry) (token sid : String) (now : Nat) : Bool :=
  if redisExists rs (revokedKey token) now then false
  else
    match redisGet rs (activeKey token) now with
    | some activeSid => if activeSid ≠ sid then false else redisExists rs (sessionKey token sid) now
    | none => false

/-- Model of redis.ts invalidateSession: delete the active marker and
the session record it names; a permanent revoke also writes the revoked
marker with a 24-hour TTL. -/
def invalidateSession (rs : List RedisEntry) (token : String)
    (permanentRevoke : Bool) (now : Nat) : List RedisEntry :=
  let a := redisGet rs (activeKey token) now
  let rs1 := redisDel rs (activeKey token)
  let rs2 :=
    match a with
    | some aid => redisDel rs1 (sessionKey token aid)
    | none => rs1
  if permanentRevoke then redisSet rs2 (revokedKey token) "1" 86400 now else rs2

/-- Model of redis.ts isTokenRevoked. -/
def isTokenRevoked (rs : List RedisEntry) (token : String) (now : Nat) : Bool :=
  redisExists rs (revokedKey token) now

/-- Model of redis.ts getSessionTTL. -/
def getSessionTTL (rs : List RedisEntry) (token sid : String) (now : Nat) : Int :=
  redisTtlSec rs (sessionKey token sid) now

/-! ## Durable store (prisma schema and migrations) -/

/-- A SecureLink row. -/
structure SecureLink where
  id : String
  token : String
  ownerToken : String
  otpHash : String
  expiresAt : Nat
  isUsed : Bool
  isRevoked : Bool
  userId : String
deriving Repr, DecidableEq

/-- A UserData row (ciphertext plus integrity hash only). -/
structure UserDataRow where
  id : String
  encryptedData : String
  dataHash : String
deriving Repr, DecidableEq

/-- An encrypted file row's metadata (the fields the read paths select). -/
structure FileRow where
  id : String
  fileName : String
  fileType : String
  fileSize : Nat
  linkId : String
deriving Repr, DecidableEq

/-- An AuditLog row: the link reference is nullable and is cleared when
the link is deleted (ON DELETE SET NULL). -/
structure AuditEntry where
  action : String
  linkId : Option String
  reason : Option String
deriving Repr, DecidableEq

/-- The durable store.  SecureLink.userId references UserData.id with
ON DELETE CASCADE, so deleting a UserData row deletes its SecureLink;
deleting a SecureLink clears AuditLog.linkId. -/
structure DB where
  links : List SecureLink
  userDatas : List UserDataRow
  files : List FileRow
  audits : List AuditEntry
deriving Repr, DecidableEq

/-- findUnique on SecureLink by token (token is unique). -/
def findLink (db : DB) (token : String) : Option SecureLink :=
  db.links.find? (fun l => l.token == token)

/-- findUnique on SecureLink by owner token (ownerToken is unique). -/
def findLinkByOwner (db : DB) (ownerToken : String) : Option SecureLink :=
  db.links.find? (fun l => l.ownerToken == ownerToken)

/-- The included userData relation of a link. -/
def findUserData (db : DB) (userId : String) : Option UserDataRow :=
  db.userDatas.find? (fun u => u.id == userId)

/-- The included files relation of a link. -/
def linkFiles (db : DB) (linkId : String) : List FileRow :=
  db.files.filter (fun f => f.linkId == linkId)

/-- Appends one audit row. -/
def addAudit (db : DB) (e : AuditEntry) : DB :=
  { db with audits := db.audits ++ [e] }

/-- Sets the isRevoked flag of the link with the given id. -/
def markRevoked (db : DB) (linkId : String) : DB :=
  { db with links := db.links.map (fun l => if l.id == linkId then { l with isRevoked := true } else l) }

/-- Clears audit references to the given link ids (ON DELETE SET NULL). -/
def nullAudits (audits : List AuditEntry) (ids : List String) : List AuditEntry :=
  audits.map (fun a =>
    match a.linkId with
    | some lid => if lid ∈ ids then { a with linkId := none } else a
    | none => a)

/-- deleteMany on SecureLink by ids, with the SET NULL audit action. -/
def deleteLinks (db : DB) (ids : List String) : DB :=
  { db with
    links := db.links.filter (fun l => l.id ∉ ids),
    audits := nullAudits db.audits ids }

/-- deleteMany on UserData by ids: the owning SecureLink rows cascade,
which in turn clears audit references to them. -/
def deleteUserDatas (db : DB) (ids : List String) : DB :=
  let deadLinkIds := (db.links.filter (fun l => l.userId ∈ ids)).map (fun l => l.id)
  { db with
    userDatas := db.userDatas.filter (fun u => u.id ∉ ids),
    links := db.links.filter (fun l => l.userId ∉ ids),
    audits := nullAudits db.audits deadLinkIds }

/-! ## src/actions/get-user.ts -/

/-- The errorType values of GetUserDataResult. -/
inductive ErrType where
  | EXPIRED
  | NOT_FOUND
  | NOT_VERIFIED
  | SESSION_INVALID
  | REVOKED
deriving Repr, DecidableEq

/-- The masked response data.  firstName, lastName, gender and age are
copied from the decrypted JSON without a type check (an absent field is
undefined, modelled as none); email and phone flow through the masking
functions. -/
structure MaskedUserData where
  firstName : Option Json
  lastName : Option Json
  maskedEmail : String
  maskedPhone : String
  gender : Option Json
  age : Option Json
  expiresAt : Nat
  remainingSeconds : Nat
  files : List FileRow
deriving Repr

/-- GetUserDataResult: success with data, or an error message with an
optional errorType. -/
inductive GetUserResult where
  | ok (d : MaskedUserData)
  | err (msg : String) (errorType : Option ErrType)
deriving Repr

/-- Whether the result is a success. -/
def GetUserResult.success : GetUserResult → Bool
  | .ok _ => true
  | .err _ _ => false

/-- Property read on the decrypted JSON object, as JS member access on
the JSON.parse result (a duplicated key resolves to its last value). -/
def jGet (j : Json) (k : String) : Option Json :=
  match j with
  | .jobj fs => fs.foldl (fun acc f => if f.1 == k then some f.2 else acc) none
  | _ => none

/-- Model of get-user.ts getUserData.  The cache argument is the Redis
state when Redis is configured and reachable, none otherwise (the
source maps both an unconfigured client and a thrown call to null). -/
def getUserData (key : List Nat) (db : DB) (cache : Option (List RedisEntry))
    (sessionId? : Option String) (token : String) (now : Nat) : GetUserResult :=
  let revokedInRedis : Option Bool := cache.map (fun rs => isTokenRevoked rs token now)
  if revokedInRedis = some true then
    .err "Access has been revoked by the data owner." (some .REVOKED)
  else
    let sessionRejected :=
      match sessionId?, cache with
      | some sid, some rs => !validateSession rs token sid now
      | _, _ => false
    if sessionRejected then
      .err "Your session has expired or been invalidated." (some .SESSION_INVALID)
    else
      match findLink db token with
      | none => .err "This link is invalid or has been deleted." (some .NOT_FOUND)
      | some link =>
        match findUserData db link.userId with
        | none => .err "This link is invalid or has been deleted." (some .NOT_FOUND)
        | some ud =>
          if link.isRevoked then
            .err "Access has been revoked by the data owner." (some .REVOKED)
          else if !link.isUsed then
            .err "Please verify with OTP first." (some .NOT_VERIFIED)
          else if link.expiresAt < now then
            .err "This link has expired. The data is no longer accessible." (some .EXPIRED)
          else
            let remainingSeconds := (link.expiresAt - now) / 1000
            match decryptData key ud.encryptedData with
            | .error _ =>
                .err "Failed to decrypt data. The encryption key may have changed." (some .NOT_FOUND)
            | .ok j =>
              match jGet j "email", jGet j "phone" with
              | some (.jstr em), some (.jstr ph) =>
                .ok
                  { firstName := jGet j "firstName"
                    lastName := jGet j "lastName"
                    maskedEmail := maskEmail em
                    maskedPhone := maskPhone ph
                    gender := jGet j "gender"
                    age := jGet j "age"
                    expiresAt := link.expiresAt
                    remainingSeconds := remainingSeconds
                    files := linkFiles db link.id }
              | _, _ => .err "Failed to retrieve data. Please try again." none

/-- Result of get-user.ts getFullUserData. -/
inductive FullResult where
  | ok (data : Json) (expiresAt : Nat) (remainingSeconds : Nat)
  | err (msg : String)
deriving Repr

/-- Whether the full-data result is a success. -/
def FullResult.success : FullResult → Bool
  | .ok _ _ _ => true
  | .err _ => false

/-- Model of get-user.ts getFullUserData (used by the SSE route). -/
def getFullUserData (key : List Nat) (db : DB) (cache : Option (List RedisEntry))
    (token sid : String) (now : Nat) : FullResult :=
  let revokedInRedis : Option Bool := cache.map (fun rs => isTokenRevoked rs token now)
  if revokedInRedis = some true then .err "Revoked"
  else
    let isValid : Option Bool := cache.map (fun rs => validateSession rs token sid now)
    if isValid = some false then .err "Invalid session"
    else
      match findLink db token with
      | none => .err "Not accessible"
      | some link =>
        match findUserData db link.userId with
        | none => .err "Not accessible"
        | some ud =>
          if !link.isUsed || link.isRevoked then .err "Not accessible"
          else if link.expiresAt < now then .err "Expired"
          else
            match decryptData key ud.encryptedData with
            | .error _ => .err "Failed to get data"
            | .ok j => .ok j link.expiresAt ((link.expiresAt - now) / 1000)

/-! ## src/app/api/stream/[token]/route.ts (connection gate) -/

/-- Response of the SSE GET endpoint at connection time: either an HTTP
error response, or an open stream whose first event carries the
decrypted payload. -/
inductive StreamRes where
  | resp (status : Nat) (body : String)
  | stream (userData : Json) (expiresAt : Nat) (remainingSeconds : Nat)
deriving Repr

/-- Whether the GET response rejects the request (no stream opened). -/
def StreamRes.isReject : StreamRes → Bool
  | .resp _ _ => true
  | .stream _ _ _ => false

/-- Model of the SSE route GET handler up to opening the stream. -/
def streamGET (key : List Nat) (db : DB) (cache : Option (List RedisEntry))
    (sessionId? : Option String) (token : String) (now : Nat) : StreamRes :=
  match sessionId? with
  | none => .resp 401 "Unauthorized: No session"
  | some sid =>
    let revokedInRedis : Option Bool := cache.map (fun rs => isTokenRevoked rs token now)
    if revokedInRedis = some true then .resp 403 "Access revoked"
    else
      let sessionValid : Option Bool := cache.map (fun rs => validateSession rs token sid now)
      if sessionValid = some false then .resp 401 "Session invalid or expired"
      else
        match findLink db token with
        | none => .resp 404 "Not accessible"
        | some link =>
          match findUserData db link.userId with
          | none => .resp 404 "Not accessible"
          | some ud =>
            if !link.isUsed || link.isRevoked then .resp 404 "Not accessible"
            else if link.expiresAt < now then .resp 410 "Expired"
            else
              match decryptData key ud.encryptedData with
              | .error _ => .resp 500 "Decryption failed"
              | .ok j => .stream j link.expiresAt ((link.expiresAt - now) / 1000)

/-! ## Revocation (revokeAccess) -/

/-- Result of revokeAccess. -/
inductive RevokeResult where
  | ok (message : String)
  | err (error : String)
deriving Repr, DecidableEq

/-- Whether revocation succeeded. -/
def RevokeResult.success : RevokeResult → Bool
  | .ok _ => true
  | .err _ => false

/-- Model of revokeAccess: find by owner token; fail if unknown or
already revoked; invalidate the ephemeral session (permanent revoke);
then in one transaction set the revoked flag, write the REVOKED audit
row, and on immediate deletion write the DATA_DELETED audit row first
and delete the payload row afterwards. -/
def revokeAccess (db : DB) (cache : Option (List RedisEntry))
    (ownerToken : String) (deleteDataImmediately : Bool) (now : Nat) :
    RevokeResult × DB × Option (List RedisEntry) :=
  match findLinkByOwner db ownerToken with
  | none => (.err "Invalid owner token. This link may not exist.", db, cache)
  | some link =>
    if link.isRevoked then
      (.err "This link has already been revoked.", db, cache)
    else
      let cache1 := cache.map (fun rs => invalidateSession rs link.token true now)
      let ud? := findUserData db link.userId
      let db1 := markRevoked db link.id
      let db2 := addAudit db1 ⟨"REVOKED", some link.id, some "Owner requested manual revocation"⟩
      let db3 :=
        match deleteDataImmediately, ud? with
        | true, some ud =>
            deleteUserDatas (addAudit db2 ⟨"DATA_DELETED", some link.id, none⟩) [ud.id]
        | _, _ => db2
      let msg :=
        if deleteDataImmediately then "Access revoked and data deleted immediately."
        else "Access revoked. Data will be deleted on cleanup."
      (.ok msg, db3, cache1)

/-! ## src/actions/cleanup.ts -/

/-- Result of cleanupExpiredData. -/
structure CleanupResult where
  success : Bool
  deletedLinks : Nat
  deletedUsers : Nat
deriving Repr, DecidableEq

/-- The cleanup selection predicate: expired or revoked. -/
def cleanupPred (now : Nat) (l : SecureLink) : Bool :=
  l.expiresAt < now || l.isRevoked

/-- Model of cleanupExpiredData: select expired-or-revoked links, and
when any exist, write one CLEANUP audit row per link, then delete the
links and then their payload rows, all in one transaction. -/
def cleanupExpiredData (db : DB) (now : Nat) : CleanupResult × DB :=
  let linksToClean := db.links.filter (cleanupPred now)
  if linksToClean.isEmpty then (⟨true, 0, 0⟩, db)
  else
    let userIds := linksToClean.map (fun l => l.userId)
    let linkIds := linksToClean.map (fun l => l.id)
    let db1 := { db with audits := db.audits ++ linkIds.map (fun lid => ⟨"CLEANUP", some lid, none⟩) }
    let nLinks := (db1.links.filter (fun l => l.id ∈ linkIds)).length
    let db2 := deleteLinks db1 linkIds
    let nUsers := (db2.userDatas.filter (fun u => u.id ∈ userIds)).length
    let db3 := deleteUserDatas db2 userIds
    (⟨true, nLinks, nUsers⟩, db3)

/-! ## src/lib/fingerprint.ts (checkRateLimit) -/

/-- A rate-limit counter entry; INCR on a fresh key stores 1 with no
expiry, EXPIRE then attaches one. -/
structure RLEntry where
  key : String
  count : Nat
  expiresAt : Option Nat
deriving Repr, DecidableEq

/-- The rate limiter's backing store: not configured, reachable but
throwing, or available with its current state. -/
inductive RLBackend where
  | unavailable
  | failing
  | avail (s : List RLEntry)
deriving Repr, DecidableEq

/-- The RateLimitResult record of the source. -/
structure RateLimitResult where
  allowed : Bool
  remaining : Nat
  resetAt : Int
  retryAfter : Option Int
deriving Repr, DecidableEq

/-- INCR at the current time: an absent or expired key restarts at 1
(with no expiry until EXPIRE is called); otherwise the count rises. -/
def rlIncr (s : List RLEntry) (k : String) (now : Nat) : Nat × List RLEntry :=
  match s.find? (fun e => e.key == k) with
  | some e =>
      match e.expiresAt with
      | some t =>
          if t ≤ now then (1, ⟨k, 1, none⟩ :: s.filter (fun e2 => !(e2.key == k)))
          else (e.count + 1, s.map (fun e2 => if e2.key == k then { e2 with count := e.count + 1 } else e2))
      | none => (e.count + 1, s.map (fun e2 => if e2.key == k then { e2 with count := e.count + 1 } else e2))
  | none => (1, ⟨k, 1, none⟩ :: s)

/-- EXPIRE seconds from now. -/
def rlExpire (s : List RLEntry) (k : String) (sec now : Nat) : List RLEntry :=
  s.map (fun e => if e.key == k then { e with expiresAt := some (now + sec * 1000) } else e)

/-- TTL in seconds: -2 for absent or expired, -1 for no expiry. -/
def rlTtl (s : List RLEntry) (k : String) (now : Nat) : Int :=
  match s.find? (fun e => e.key == k) with
  | some e =>
      match e.expiresAt with
      | some t => if now < t then ((t - now) / 1000 : Nat) else -2
      | none => -1
  | none => -2

/-- The entry list held by an available backend (empty otherwise). -/
def rlStateOf : RLBackend → List RLEntry
  | .avail s => s
  | _ => []

/-- The count a live (unexpired) entry currently holds, 0 otherwise. -/
def rlLiveCount (s : List RLEntry) (k : String) (now : Nat) : Nat :=
  match s.find? (fun e => e.key == k) with
  | some e =>
      match e.expiresAt with
      | some t => if t ≤ now then 0 else e.count
      | none => e.count
  | none => 0

/-- Model of fingerprint.ts checkRateLimit: increment, set the window
TTL on the first increment, allow while the count is within the limit,
and fail open when the store is unavailable or the call throws. -/
def checkRateLimit (backend : RLBackend) (k : String) (limit windowSeconds now : Nat) :
    RateLimitResult × RLBackend :=
  let failOpen : RateLimitResult :=
    ⟨true, limit, (now : Int) + windowSeconds * 1000, none⟩
  match backend with
  | .unavailable => (failOpen, .unavailable)
  | .failing => (failOpen, .failing)
  | .avail s =>
    let (current, s1) := rlIncr s k now
    let s2 := if current = 1 then rlExpire s1 k windowSeconds now else s1
    let ttl := rlTtl s2 k now
    let allowed := current ≤ limit
    (⟨allowed, limit - current, (now : Int) + ttl * 1000,
      if allowed then none else some ttl⟩, .avail s2)

/-! ## Supporting lemmas -/

theorem redisGet_set_self (rs : List RedisEntry) (k v : String) (ex now now2 : Nat) :
    redisGet (redisSet rs k v ex now) k now2 =
      if now2 < now + ex * 1000 then some v else none := by
  simp [redisGet, redisSet, List.find?]

/-! ## Claims -/

/-- C5: maskPhone on the spec's own example keeps three digits of the
country code, not two: the greedy prefix match contradicts the
documented result "+91 ****3210". -/
theorem maskPhone_countryCode_greedy :
    maskPhone "+919876543210" = "+919 ****3210" := by decide

/-- C6: at most one session is active per access token: after
createSession writes session s2 for a token, validateSession rejects
every other session identifier s1 at every later (or earlier) instant,
whatever the prior state contained. -/
theorem createSession_single_active
    (rs : List RedisEntry) (token s1 s2 : String) (ttl : Nat)
    (fp : Option String) (now now2 : Nat) (h : s1 ≠ s2) :
    validateSession (createSession rs token s2 ttl fp now) token s1 now2 = false := by
  have hget : redisGet (createSession rs token s2 ttl fp now) (activeKey token) now2 =
      if now2 < now + ttl * 1000 then some s2 else none := by
    unfold createSession
    exact redisGet_set_self _ _ _ _ _ _
  simp only [validateSession, hget]
  split
  · rfl
  · by_cases hlt : now2 < now + ttl * 1000
    · simp [hlt, Ne.symm h]
    · simp [hlt]

/-- C6 witness. -/
theorem createSession_single_active_witness :
    validateSession (createSession [] "tok" "s2" 300 none 1000) "tok" "s1" 1000 = false :=
  createSession_single_active [] "tok" "s1" "s2" 300 none 1000 1000 (by decide)

/-- C7: revokeAccess on an already-revoked link fails and leaves the
durable store and the cache untouched; on a non-revoked link it returns
success, the final durable state is the one obtained by setting the
revoked flag then appending the REVOKED audit row, and — when immediate
deletion is requested and a payload exists — the payload deletion is
applied to a state that already contains the DATA_DELETED audit row. -/
theorem revokeAccess_spec (db : DB) (cache : Option (List RedisEntry))
    (ownerToken : String) (deleteNow : Bool) (now : Nat) (link : SecureLink)
    (hfind : findLinkByOwner db ownerToken = some link) :
    (link.isRevoked = true →
      revokeAccess db cache ownerToken deleteNow now =
        (.err "This link has already been revoked.", db, cache)) ∧
    (link.isRevoked = false →
      revokeAccess db cache ownerToken deleteNow now =
        (.ok (if deleteNow then "Access revoked and data deleted immediately."
              else "Access revoked. Data will be deleted on cleanup."),
         (match deleteNow, findUserData db link.userId with
          | true, some ud =>
              deleteUserDatas
                (addAudit
                  (addAudit (markRevoked db link.id)
                    ⟨"REVOKED", some link.id, some "Owner requested manual revocation"⟩)
                  ⟨"DATA_DELETED", some link.id, none⟩) [ud.id]
          | _, _ =>
              addAudit (markRevoked db link.id)
                ⟨"REVOKED", some link.id, some "Owner requested manual revocation"⟩),
         cache.map (fun rs => invalidateSession rs link.token true now))) := by
  constructor
  · intro hrev
    unfold revokeAccess
    rw [hfind]
    simp [hrev]
  · intro hrev
    unfold revokeAccess
    rw [hfind]
    simp [hrev]

/-- C7 witness: a store with one already-revoked link and one with a
fresh link, exercised through the theorem. -/
theorem revokeAccess_spec_witness :
    revokeAccess ⟨[⟨"L1", "tok", "own", "h", 1000, true, true, "U1"⟩], [], [], []⟩
        none "own" true 5 =
      (.err "This link has already been revoked.",
       ⟨[⟨"L1", "tok", "own", "h", 1000, true, true, "U1"⟩], [], [], []⟩, none) ∧
    revokeAccess ⟨[⟨"L1", "tok", "own", "h", 1000, true, false, "U1"⟩], [], [], []⟩
        none "own" false 5 =
      (.ok "Access revoked. Data will be deleted on cleanup.",
       addAudit
         (markRevoked ⟨[⟨"L1", "tok", "own", "h", 1000, true, false, "U1"⟩], [], [], []⟩ "L1")
         ⟨"REVOKED", some "L1", some "Owner requested manual revocation"⟩, none) :=
  ⟨(revokeAccess_spec ⟨[⟨"L1", "tok", "own", "h", 1000, true, true, "U1"⟩], [], [], []⟩
      none "own" true 5 ⟨"L1", "tok", "own", "h", 1000, true, true, "U1"⟩ rfl).1 rfl,
   (revokeAccess_spec ⟨[⟨"L1", "tok", "own", "h", 1000, true, false, "U1"⟩], [], [], []⟩
      none "own" false 5 ⟨"L1", "tok", "own", "h", 1000, true, false, "U1"⟩ rfl).2 rfl⟩

/-- C8: cleanupExpiredData is idempotent at a fixed instant: a second
invocation deletes no further rows, writes no further audit rows, and
leaves the store exactly as the first invocation left it. -/
theorem cleanup_idempotent (db : DB) (now : Nat) :
    (cleanupExpiredData (cleanupExpiredData db now).2 now).1 = ⟨true, 0, 0⟩ ∧
    (cleanupExpiredData (cleanupExpiredData db now).2 now).2 =
      (cleanupExpiredData db now).2 := by
  set db1 := (cleanupExpiredData db now).2 with hdb1
  have hclean : ∀ l ∈ db1.links, ¬(cleanupPred now l = true) := by
    intro l hl
    rw [hdb1] at hl
    unfold cleanupExpiredData at hl
    by_cases hemp : (db.links.filter (cleanupPred now)).isEmpty
    · simp only [hemp, if_pos] at hl
      exact List.filter_eq_nil_iff.mp (List.isEmpty_iff.mp hemp) l hl
    · simp only [hemp, Bool.false_eq_true, if_false] at hl
      simp only [deleteUserDatas, deleteLinks, List.mem_filter,
        decide_eq_true_eq] at hl
      intro hpred
      obtain ⟨⟨hmem, hid⟩, _himp⟩ := hl
      exact hid (List.mem_map_of_mem _ (List.mem_filter.mpr ⟨hmem, hpred⟩))
  have hempty2 : (db1.links.filter (cleanupPred now)).isEmpty := by
    rw [List.isEmpty_iff, List.filter_eq_nil_iff]
    exact hclean
  constructor
  · conv_lhs => unfold cleanupExpiredData
    simp only [hempty2, if_pos]
  · conv_lhs => unfold cleanupExpiredData
    simp only [hempty2, if_pos]




theorem find?_keyMapP (s : List RLEntry) (k : String) (g : RLEntry → RLEntry)
    (hg : ∀ e, (g e).key = e.key) :
    ((s.map (fun e2 => if e2.key = k then g e2 else e2)).find?
        (fun e => e.key == k)) =
      (s.find? (fun e => e.key == k)).map
        (fun e2 => if e2.key = k then g e2 else e2) := by
  induction s with
  | nil => rfl
  | cons e s ih =>
    by_cases hk : e.key = k
    · have hgk : ((g e).key == k) = true := by
        rw [hg e]; exact beq_iff_eq.mpr hk
      simp [List.find?, hk, hgk, beq_iff_eq.mpr hk]
    · have hk2 : (e.key == k) = false := by
        simpa using hk
      simp only [List.map_cons, List.find?]
      rw [if_neg hk]
      simpa [hk2] using ih

/-- C9: a rate-limit check against an available store increments the
window key's live count, sets the window expiry exactly on the first
increment of a window, allows iff the incremented count is at most the
limit, reports limit minus count floored at zero plus a reset time, and
fails open with the full limit as remaining budget when the store is
unavailable or its call throws. -/
theorem checkRateLimit_spec (s : List RLEntry) (k : String)
    (limit window now : Nat) (hw : 0 < window) :
    (rlLiveCount (rlStateOf (checkRateLimit (.avail s) k limit window now).2) k now =
        rlLiveCount s k now + 1) ∧
    ((checkRateLimit (.avail s) k limit window now).1.allowed =
        decide (rlLiveCount s k now + 1 ≤ limit)) ∧
    ((checkRateLimit (.avail s) k limit window now).1.remaining =
        limit - (rlLiveCount s k now + 1)) ∧
    (rlLiveCount s k now = 0 →
      rlTtl (rlStateOf (checkRateLimit (.avail s) k limit window now).2) k now = (window : Int)) ∧
    (rlLiveCount s k now ≠ 0 →
      ((rlStateOf (checkRateLimit (.avail s) k limit window now).2).find?
          (fun e => e.key == k)).map RLEntry.expiresAt =
        (s.find? (fun e => e.key == k)).map RLEntry.expiresAt) ∧
    ((checkRateLimit (.avail s) k limit window now).1.resetAt =
      (now : Int) + rlTtl (rlStateOf (checkRateLimit (.avail s) k limit window now).2) k now * 1000) ∧
    ((checkRateLimit (.avail s) k limit window now).1.retryAfter =
      if (checkRateLimit (.avail s) k limit window now).1.allowed then none
      else some (rlTtl (rlStateOf (checkRateLimit (.avail s) k limit window now).2) k now)) ∧
    checkRateLimit .unavailable k limit window now =
      (⟨true, limit, (now : Int) + window * 1000, none⟩, .unavailable) ∧
    checkRateLimit .failing k limit window now =
      (⟨true, limit, (now : Int) + window * 1000, none⟩, .failing) := by
  have hnl : ¬(now + window * 1000 ≤ now) := by omega
  have hlt : now < now + window * 1000 := by omega
  rcases hfind : s.find? (fun e => e.key == k) with _ | e
  · -- fresh key: INCR creates the entry at 1 and EXPIRE attaches the window
    have hrl : rlIncr s k now = (1, ⟨k, 1, none⟩ :: s) := by
      simp [rlIncr, hfind]
    have hlive : rlLiveCount s k now = 0 := by simp [rlLiveCount, hfind]
    have hfind2 : (rlExpire (⟨k, 1, none⟩ :: s) k window now).find?
        (fun e => e.key == k) = some ⟨k, 1, some (now + window * 1000)⟩ := by
      simp [rlExpire, List.find?]
    simp only [checkRateLimit, hrl]
    simp only [if_true]
    refine ⟨?_, ?_, ?_, ?_, ?_, ?_, ?_, trivial, trivial⟩
    · simp [rlStateOf, rlLiveCount, hfind2, hlive, hnl, hfind]
    · simp [hlive]
    · simp [hlive]
    · intro _
      simp [rlStateOf, rlTtl, hfind2, hlt]
      try omega
    · intro hne; exact absurd hlive hne
    · simp [rlStateOf]
    · simp [rlStateOf]
  · have hkey : (e.key == k) = true := by
      have := List.find?_some hfind
      simpa using this
    have hkeyP : e.key = k := beq_iff_eq.mp hkey
    rcases he : e.expiresAt with _ | t
    · -- existing entry without expiry: INCR raises the count
      have hrl : rlIncr s k now = (e.count + 1,
          s.map (fun e2 => if e2.key == k then { e2 with count := e.count + 1 } else e2)) := by
        simp [rlIncr, hfind, he]
      have hlive : rlLiveCount s k now = e.count := by simp [rlLiveCount, hfind, he]
      simp only [checkRateLimit, hrl]
      simp only [beq_iff_eq]
      have hfind2 : ((s.map (fun e2 => if e2.key = k then { e2 with count := e.count + 1 } else e2)).find?
          (fun e => e.key == k)) = some ⟨e.key, e.count + 1, none⟩ := by
        rw [find?_keyMapP s k (fun e2 => { e2 with count := e.count + 1 }) (fun _ => rfl), hfind]
        simp [hkeyP, he]
      by_cases hc0 : e.count = 0
      · have hfind3 : (rlExpire (s.map (fun e2 => if e2.key = k then { e2 with count := e.count + 1 } else e2)) k window now).find?
            (fun e => e.key == k) = some ⟨e.key, e.count + 1, some (now + window * 1000)⟩ := by
          unfold rlExpire
          simp only [beq_iff_eq]
          rw [find?_keyMapP _ k (fun e2 => { e2 with expiresAt := some (now + window * 1000) }) (fun _ => rfl), hfind2]
          simp [hkeyP]
        rw [if_pos (by omega : e.count + 1 = 1)]
        refine ⟨?_, ?_, ?_, ?_, ?_, ?_, ?_, trivial, trivial⟩
        · simp [rlStateOf, rlLiveCount, hfind3, hlive, hnl, hfind, he]
        · simp [hlive]
        · simp [hlive]
        · intro _
          simp [rlStateOf, rlTtl, hfind3, hlt]
          try omega
        · intro hne; exact absurd (hlive.trans hc0) hne
        · simp [rlStateOf]
        · simp [rlStateOf]
      · rw [if_neg (by omega : ¬(e.count + 1 = 1))]
        refine ⟨?_, ?_, ?_, ?_, ?_, ?_, ?_, trivial, trivial⟩
        · simp [rlStateOf, rlLiveCount, hfind2, hlive, hfind, he]
        · simp [hlive]
        · simp [hlive]
        · intro h0; exact absurd (hlive.symm.trans h0) hc0
        · intro _
          simp [rlStateOf, hfind2, hfind, he]
        · simp [rlStateOf]
        · simp [rlStateOf]
    · by_cases ht : t ≤ now
      · -- expired entry: INCR restarts at 1 and EXPIRE attaches the window
        have hrl : rlIncr s k now = (1, ⟨k, 1, none⟩ :: s.filter (fun e2 => !(e2.key == k))) := by
          simp [rlIncr, hfind, he, ht]
        have hlive : rlLiveCount s k now = 0 := by simp [rlLiveCount, hfind, he, ht]
        have hfind2 : (rlExpire (⟨k, 1, none⟩ :: s.filter (fun e2 => !(e2.key == k))) k window now).find?
            (fun e => e.key == k) = some ⟨k, 1, some (now + window * 1000)⟩ := by
          simp [rlExpire, List.find?]
        simp only [checkRateLimit, hrl]
        simp only [if_true]
        refine ⟨?_, ?_, ?_, ?_, ?_, ?_, ?_, trivial, trivial⟩
        · simp [rlStateOf, rlLiveCount, hfind2, hlive, hnl, hfind, he, ht]
        · simp [hlive]
        · simp [hlive]
        · intro _
          simp [rlStateOf, rlTtl, hfind2, hlt]
          try omega
        · intro hne; exact absurd hlive hne
        · simp [rlStateOf]
        · simp [rlStateOf]
      · -- live entry with expiry: INCR raises the count, expiry untouched
        have hrl : rlIncr s k now = (e.count + 1,
            s.map (fun e2 => if e2.key == k then { e2 with count := e.count + 1 } else e2)) := by
          simp [rlIncr, hfind, he, ht]
        have hlive : rlLiveCount s k now = e.count := by simp [rlLiveCount, hfind, he, ht]
        simp only [checkRateLimit, hrl]
        simp only [beq_iff_eq]
        have hfind2 : ((s.map (fun e2 => if e2.key = k then { e2 with count := e.count + 1 } else e2)).find?
            (fun e => e.key == k)) = some ⟨e.key, e.count + 1, some t⟩ := by
          rw [find?_keyMapP s k (fun e2 => { e2 with count := e.count + 1 }) (fun _ => rfl), hfind]
          simp [hkeyP, he]
        by_cases hc0 : e.count = 0
        · have hfind3 : (rlExpire (s.map (fun e2 => if e2.key = k then { e2 with count := e.count + 1 } else e2)) k window now).find?
              (fun e => e.key == k) = some ⟨e.key, e.count + 1, some (now + window * 1000)⟩ := by
            unfold rlExpire
            simp only [beq_iff_eq]
            rw [find?_keyMapP _ k (fun e2 => { e2 with expiresAt := some (now + window * 1000) }) (fun _ => rfl), hfind2]
            simp [hkeyP]
          rw [if_pos (by omega : e.count + 1 = 1)]
          refine ⟨?_, ?_, ?_, ?_, ?_, ?_, ?_, trivial, trivial⟩
          · simp [rlStateOf, rlLiveCount, hfind3, hlive, hnl, hfind, he, ht]
          · simp [hlive]
          · simp [hlive]
          · intro _
            simp [rlStateOf, rlTtl, hfind3, hlt]
            try omega
          · intro hne; exact absurd (hlive.trans hc0) hne
          · simp [rlStateOf]
          · simp [rlStateOf]
        · rw [if_neg (by omega : ¬(e.count + 1 = 1))]
          refine ⟨?_, ?_, ?_, ?_, ?_, ?_, ?_, trivial, trivial⟩
          · simp [rlStateOf, rlLiveCount, hfind2, hlive, hfind, he, ht]
          · simp [hlive]
          · simp [hlive]
          · intro h0; exact absurd (hlive.symm.trans h0) hc0
          · intro _
            simp [rlStateOf, hfind2, hfind, he]
          · simp [rlStateOf]
          · simp [rlStateOf]

/-- C9 witness. -/
theorem checkRateLimit_spec_witness :
    (checkRateLimit (.avail []) "k" 10 60 5).1.allowed = true ∧
    (checkRateLimit (.avail []) "k" 10 60 5).1.remaining = 9 ∧
    checkRateLimit .unavailable "k" 10 60 5 =
      (⟨true, 10, 60005, none⟩, .unavailable) := by
  have h := checkRateLimit_spec [] "k" 10 60 5 (by decide)
  refine ⟨?_, ?_, ?_⟩
  · rw [h.2.1]; decide
  · rw [h.2.2.1]; decide
  · exact h.2.2.2.2.2.2.2.1


theorem mem_concatMap {α β : Type} {f : α → List β} {b : β} :
    ∀ {l : List α}, b ∈ concatMap f l → ∃ a ∈ l, b ∈ f a := by
  intro l
  induction l with
  | nil => intro h; exact absurd h (by simp [concatMap])
  | cons x xs ih =>
    intro h
    rcases List.mem_append.mp (by simpa [concatMap] using h) with h1 | h2
    · exact ⟨x, List.mem_cons_self x xs, h1⟩
    · obtain ⟨a, ha, hb⟩ := ih h2
      exact ⟨a, List.mem_cons_of_mem x ha, hb⟩

theorem wordBytes_lt (w : Nat) : ∀ b ∈ wordBytes w, b < 256 := by
  intro b hb
  simp [wordBytes] at hb
  rcases hb with rfl | rfl | rfl | rfl <;> exact Nat.mod_lt _ (by omega)

theorem sha256_length (msg : List Nat) : (sha256 msg).length = 32 := by
  simp [sha256, concatMap, wordBytes]

theorem sha256_lt (msg : List Nat) : ∀ b ∈ sha256 msg, b < 256 := by
  intro b hb
  obtain ⟨w, _, hbw⟩ := mem_concatMap (l := _) (by simpa [sha256] using hb)
  exact wordBytes_lt w b hbw

theorem hmacSha256_length (key msg : List Nat) : (hmacSha256 key msg).length = 32 :=
  sha256_length _

theorem hmacSha256_lt (key msg : List Nat) : ∀ b ∈ hmacSha256 key msg, b < 256 :=
  sha256_lt _

theorem charOfNat_toNat (n : Nat) (h : n < 55296) : (Char.ofNat n).toNat = n := by
  have hv : n.isValidChar := Or.inl h
  simp only [Char.ofNat, hv, dif_pos, Char.toNat, Char.ofNatAux]
  rfl

theorem hexDigitChar_toNat_lt (n : Nat) (h : n < 16) : (hexDigitChar n).toNat < 128 := by
  unfold hexDigitChar
  by_cases hn : n < 10
  · rw [if_pos hn, charOfNat_toNat _ (by omega)]; omega
  · rw [if_neg hn, charOfNat_toNat _ (by omega)]; omega

theorem bytesToHex_ascii (bs : List Nat) (hb : ∀ b ∈ bs, b < 256) :
    ∀ c ∈ bytesToHex bs, c.toNat < 128 := by
  induction bs with
  | nil => intro c hc; exact absurd hc (by simp [bytesToHex, concatMap])
  | cons b bs ih =>
    intro c hc
    have hblt : b < 256 := hb b (List.mem_cons_self b bs)
    rcases (by simpa [bytesToHex, concatMap] using hc :
        c = hexDigitChar (b / 16) ∨ c = hexDigitChar (b % 16) ∨ c ∈ bytesToHex bs) with
      rfl | rfl | hmem
    · exact hexDigitChar_toNat_lt _ (by omega)
    · exact hexDigitChar_toNat_lt _ (by omega)
    · exact ih (fun x hx => hb x (List.mem_cons_of_mem b hx)) c hmem

theorem utf8Encode_ascii_length (cs : List Char) (h : ∀ c ∈ cs, c.toNat < 128) :
    (concatMap (fun c => utf8EncodeNat c.toNat) cs).length = cs.length := by
  induction cs with
  | nil => rfl
  | cons c cs ih =>
    have hc : c.toNat < 128 := h c (List.mem_cons_self c cs)
    have h1 : (utf8EncodeNat c.toNat).length = 1 := by simp [utf8EncodeNat, hc]
    simp [concatMap, h1, ih (fun x hx => h x (List.mem_cons_of_mem c hx))]
    omega

theorem bytesToHex_length (bs : List Nat) : (bytesToHex bs).length = 2 * bs.length := by
  induction bs with
  | nil => rfl
  | cons b bs ih =>
    simp [bytesToHex, concatMap] at ih ⊢
    omega

theorem hashOTP_utf8_length (secret otp : String) :
    (utf8Encode (hashOTP secret otp)).length = 64 := by
  unfold hashOTP
  rw [show ∀ l : List Char, utf8Encode (String.mk l) =
      concatMap (fun c => utf8EncodeNat c.toNat) l from fun _ => rfl]
  rw [utf8Encode_ascii_length _ (bytesToHex_ascii _ (hmacSha256_lt _ _))]
  rw [bytesToHex_length, hmacSha256_length]

/-- C10: verifyOTPHash dispatches on the stored hash's format: a hash
starting with "$2" goes to bcrypt comparison; otherwise the keyed HMAC
digest (64 hex characters) is recomputed and compared by a constant-time
equality that throws — rather than returning false — whenever the
stored hash's byte length differs from 64, so a malformed or truncated
stored hash makes verification raise instead of cleanly failing. -/
theorem verifyOTPHash_spec (bcmp : String → String → Bool) (secret otp hash : String) :
    (bcryptFormat hash = true →
      verifyOTPHash bcmp secret otp hash = .ok (bcmp otp hash)) ∧
    (bcryptFormat hash = false → (utf8Encode hash).length ≠ 64 →
      verifyOTPHash bcmp secret otp hash = .error .lengthMismatch) ∧
    (bcryptFormat hash = false → (utf8Encode hash).length = 64 →
      verifyOTPHash bcmp secret otp hash =
        .ok (utf8Encode (hashOTP secret otp) == utf8Encode hash)) := by
  refine ⟨?_, ?_, ?_⟩
  · intro h
    simp [verifyOTPHash, h]
  · intro h hlen
    unfold verifyOTPHash
    rw [if_neg (by simp [h]), if_pos (by rw [hashOTP_utf8_length]; exact fun hh => hlen hh.symm)]
  · intro h hlen
    unfold verifyOTPHash
    rw [if_neg (by simp [h]), if_neg (by rw [hashOTP_utf8_length, hlen]; simp)]

/-- C10 witness. -/
theorem verifyOTPHash_spec_witness :
    verifyOTPHash (fun _ _ => true) "sec" "123456" "$2a$10$abc" = .ok true ∧
    verifyOTPHash (fun _ _ => false) "sec" "123456" "truncated" = .error .lengthMismatch :=
  ⟨(verifyOTPHash_spec (fun _ _ => true) "sec" "123456" "$2a$10$abc").1 (by decide),
   (verifyOTPHash_spec (fun _ _ => false) "sec" "123456" "truncated").2.1 (by decide) (by decide)⟩

theorem hexCharVal?_hexDigitChar (n : Nat) (h : n < 16) :
    hexCharVal? (hexDigitChar n) = some n := by
  unfold hexCharVal? hexDigitChar
  by_cases hn : n < 10
  · rw [if_pos hn, charOfNat_toNat _ (by omega), if_pos (by omega)]
    simp
  · rw [if_neg hn, charOfNat_toNat _ (by omega), if_neg (by omega), if_pos (by omega)]
    simp

theorem hexToBytes?_bytesToHex (bs : List Nat) (h : ∀ b ∈ bs, b < 256) :
    hexToBytes? (bytesToHex bs) = some bs := by
  induction bs with
  | nil => rfl
  | cons b bs ih =>
    have hb : b < 256 := h b (List.mem_cons_self b bs)
    show hexToBytes? (hexDigitChar (b / 16) :: hexDigitChar (b % 16) :: bytesToHex bs) = some (b :: bs)
    rw [hexToBytes?]
    rw [hexCharVal?_hexDigitChar _ (by omega), hexCharVal?_hexDigitChar _ (by omega)]
    rw [ih (fun x hx => h x (List.mem_cons_of_mem b hx))]
    simp
    omega

theorem concatMap_length_const {α β : Type} (f : α → List β) (m : Nat) :
    ∀ (l : List α), (∀ a ∈ l, (f a).length = m) →
      (concatMap f l).length = m * l.length := by
  intro l
  induction l with
  | nil => intro _; simp [concatMap]
  | cons x xs ih =>
    intro h
    have := h x (List.mem_cons_self x xs)
    simp [concatMap, this, ih (fun a ha => h a (List.mem_cons_of_mem x ha))]
    ring

theorem expandAux_length (n : Nat) : ∀ ws, (expandAux n ws).length = ws.length + n := by
  induction n with
  | zero => intro ws; rfl
  | succ n ih =>
    intro ws
    rw [expandAux, ih]
    simp
    omega

theorem expandKey_length (key : List Nat) : (expandKey key).length = 60 := by
  rw [expandKey, expandAux_length]
  simp

theorem roundKey_length (ws : List Nat) (r : Nat) (h : 4 * r + 4 ≤ ws.length) :
    (roundKey ws r).length = 16 := by
  rw [roundKey, concatMap_length_const wordBytes 4 _ (fun a _ => rfl)]
  simp
  omega

theorem mixColumns_length (st : List Nat) : (mixColumns st).length = 16 := by
  simp [mixColumns, mixCol]

theorem shiftRows_length (st : List Nat) : (shiftRows st).length = 16 := by
  simp [shiftRows]

theorem aesEncryptBlock_length (key block : List Nat) :
    (aesEncryptBlock key block).length = 16 := by
  unfold aesEncryptBlock
  rw [zipXor, List.length_zipWith, shiftRows_length,
    roundKey_length _ _ (by rw [expandKey_length])]
  simp

theorem blockToBytes_length (n : Nat) : (blockToBytes n).length = 16 := by
  simp [blockToBytes]

theorem blockToBytes_lt (n : Nat) : ∀ b ∈ blockToBytes n, b < 256 := by
  intro b hb
  simp [blockToBytes] at hb
  obtain ⟨i, _, rfl⟩ := hb
  exact Nat.mod_lt _ (by omega)

theorem ctrStream_length (key : List Nat) (j0 n : Nat) :
    (ctrStream key j0 n).length = 16 * n := by
  rw [ctrStream, concatMap_length_const
    (fun i => aesEncryptBlock key (blockToBytes (ctrAt j0 (i + 1)))) 16 _
    (fun a _ => aesEncryptBlock_length _ _)]
  simp

theorem zipXor_zipXor_self : ∀ (as ks : List Nat), as.length ≤ ks.length →
    zipXor (zipXor as ks) ks = as := by
  intro as
  induction as with
  | nil => intro ks _; rfl
  | cons a as ih =>
    intro ks hk
    match ks with
    | [] => simp at hk
    | k :: ks =>
      show (a ^^^ k ^^^ k) :: zipXor (zipXor as ks) ks = a :: as
      rw [Nat.xor_cancel_right, ih ks (by simpa using hk)]

theorem gcmEncrypt_ct_length (key iv pt : List Nat) :
    (gcmEncrypt key iv pt).1.length = pt.length := by
  rw [gcmEncrypt]
  simp only [zipXor, List.length_zipWith, ctrStream_length]
  have : pt.length ≤ 16 * numBlocks pt.length := by
    rw [numBlocks]; omega
  omega

theorem gcmDecrypt_gcmEncrypt (key iv pt : List Nat) :
    gcmDecrypt key iv (gcmEncrypt key iv pt).1 (gcmEncrypt key iv pt).2 =
      some pt := by
  have htag : (gcmEncrypt key iv pt).2 = gcmTag key iv (gcmEncrypt key iv pt).1 := rfl
  rw [gcmDecrypt, if_pos htag.symm, gcmEncrypt_ct_length]
  show some (zipXor (zipXor pt (ctrStream key (gcmJ0 key iv) (numBlocks pt.length)))
      (ctrStream key (gcmJ0 key iv) (numBlocks pt.length))) = some pt
  rw [zipXor_zipXor_self]
  rw [ctrStream_length, numBlocks]
  omega

theorem decryptBuffer_encryptBuffer (key iv buf : List Nat)
    (hiv : ∀ b ∈ iv, b < 256) :
    decryptBuffer key (encryptBuffer key iv buf).2.2
      (encryptBuffer key iv buf).1 (encryptBuffer key iv buf).2.1 = some buf := by
  show decryptBuffer key (gcmEncrypt key iv buf).1
      (String.mk (bytesToHex iv)) (String.mk (bytesToHex (gcmEncrypt key iv buf).2)) = some buf
  rw [decryptBuffer]
  rw [show (String.mk (bytesToHex iv)).toList = bytesToHex iv from rfl]
  rw [show (String.mk (bytesToHex (gcmEncrypt key iv buf).2)).toList =
      bytesToHex (gcmEncrypt key iv buf).2 from rfl]
  rw [hexToBytes?_bytesToHex iv hiv,
    hexToBytes?_bytesToHex _ (by
      show ∀ b ∈ (gcmEncrypt key iv buf).2, b < 256
      rw [show (gcmEncrypt key iv buf).2 = gcmTag key iv (gcmEncrypt key iv buf).1 from rfl,
        gcmTag]
      exact blockToBytes_lt _)]
  exact gcmDecrypt_gcmEncrypt key iv buf

theorem char_valid_cases (c : Char) :
    c.toNat < 55296 ∨ (57344 ≤ c.toNat ∧ c.toNat < 1114112) := by
  rcases c.valid with h | ⟨h1, h2⟩
  · left; exact h
  · right; exact ⟨h1, h2⟩

theorem decodeOne_encode (c : Char) (rest : List Nat) :
    decodeOne (utf8EncodeNat c.toNat ++ rest) = some (c, rest) := by
  have hval := char_valid_cases c
  have hofn : Char.ofNat c.toNat = c := Char.ofNat_toNat c
  set n := c.toNat with hn
  by_cases h1 : n < 128
  · rw [utf8EncodeNat, if_pos h1]
    show decodeOne (n :: rest) = _
    simp only [decodeOne.eq_def]
    rw [if_pos h1, hofn]
  · by_cases h2 : n < 2048
    · rw [utf8EncodeNat, if_neg h1, if_pos h2]
      show decodeOne ((192 + n / 64) :: (128 + n % 64) :: rest) = _
      simp only [decodeOne.eq_def]
      rw [if_neg (by omega : ¬(192 + n / 64 < 128)), if_neg (by omega : ¬(192 + n / 64 < 192)),
        if_pos (by omega : 192 + n / 64 < 224)]
      have hcont : isCont (128 + n % 64) = true := by
        simp only [isCont, Bool.and_eq_true, decide_eq_true_eq]
        omega
      rw [hcont]
      simp only [if_true]
      have hv : (192 + n / 64 - 192) * 64 + (128 + n % 64 - 128) = n := by omega
      rw [hv, if_neg (by omega), hofn]
    · by_cases h3 : n < 65536
      · rw [utf8EncodeNat, if_neg h1, if_neg h2, if_pos h3]
        show decodeOne ((224 + n / 4096) :: (128 + n / 64 % 64) :: (128 + n % 64) :: rest) = _
        simp only [decodeOne.eq_def]
        rw [if_neg (by omega : ¬(224 + n / 4096 < 128)), if_neg (by omega : ¬(224 + n / 4096 < 192)),
          if_neg (by omega : ¬(224 + n / 4096 < 224)), if_pos (by omega : 224 + n / 4096 < 240)]
        have hcont : (isCont (128 + n / 64 % 64) && isCont (128 + n % 64)) = true := by
          simp only [isCont, Bool.and_eq_true, decide_eq_true_eq]
          omega
        rw [hcont]
        simp only [if_true]
        have hv : (224 + n / 4096 - 224) * 4096 + (128 + n / 64 % 64 - 128) * 64 +
            (128 + n % 64 - 128) = n := by omega
        rw [hv, if_neg (by omega), if_neg (by simp; omega), hofn]
      · rw [utf8EncodeNat, if_neg h1, if_neg h2, if_neg h3]
        show decodeOne ((240 + n / 262144) :: (128 + n / 4096 % 64) ::
          (128 + n / 64 % 64) :: (128 + n % 64) :: rest) = _
        simp only [decodeOne.eq_def]
        rw [if_neg (by omega : ¬(240 + n / 262144 < 128)), if_neg (by omega : ¬(240 + n / 262144 < 192)),
          if_neg (by omega : ¬(240 + n / 262144 < 224)), if_neg (by omega : ¬(240 + n / 262144 < 240)),
          if_pos (by omega : 240 + n / 262144 < 248)]
        have hcont : (isCont (128 + n / 4096 % 64) && isCont (128 + n / 64 % 64) &&
            isCont (128 + n % 64)) = true := by
          simp only [isCont, Bool.and_eq_true, decide_eq_true_eq]
          omega
        rw [hcont]
        simp only [if_true]
        have hv : (240 + n / 262144 - 240) * 262144 + (128 + n / 4096 % 64 - 128) * 4096 +
            (128 + n / 64 % 64 - 128) * 64 + (128 + n % 64 - 128) = n := by omega
        rw [hv, if_neg (by omega), if_neg (by omega), hofn]

theorem utf8EncodeNat_shape (m : Nat) : ∃ b bs, utf8EncodeNat m = b :: bs := by
  unfold utf8EncodeNat
  by_cases h1 : m < 128
  · exact ⟨_, _, by rw [if_pos h1]⟩
  · by_cases h2 : m < 2048
    · exact ⟨_, _, by rw [if_neg h1, if_pos h2]⟩
    · by_cases h3 : m < 65536
      · exact ⟨_, _, by rw [if_neg h1, if_neg h2, if_pos h3]⟩
      · exact ⟨_, _, by rw [if_neg h1, if_neg h2, if_neg h3]⟩

theorem utf8DecodeLoop_concatMap :
    ∀ (cs : List Char) (fuel : Nat), cs.length ≤ fuel →
      utf8DecodeLoop fuel (concatMap (fun c => utf8EncodeNat c.toNat) cs) = some cs := by
  intro cs
  induction cs with
  | nil => intro fuel _; cases fuel <;> rfl
  | cons c cs ih =>
    intro fuel hf
    obtain ⟨f, rfl⟩ : ∃ f, fuel = f + 1 := ⟨fuel - 1, by simp at hf; omega⟩
    obtain ⟨b, bs, hshape⟩ := utf8EncodeNat_shape c.toNat
    show utf8DecodeLoop (f + 1) (utf8EncodeNat c.toNat ++ concatMap _ cs) = _
    rw [hshape]
    show utf8DecodeLoop (f + 1) (b :: (bs ++ concatMap _ cs)) = _
    rw [utf8DecodeLoop]
    rw [show b :: (bs ++ concatMap (fun c => utf8EncodeNat c.toNat) cs) =
      utf8EncodeNat c.toNat ++ concatMap (fun c => utf8EncodeNat c.toNat) cs from by
        rw [hshape]; rfl]
    rw [decodeOne_encode]
    show (match utf8DecodeLoop f (concatMap (fun c => utf8EncodeNat c.toNat) cs) with
      | some cs2 => some (c :: cs2) | none => none) = some (c :: cs)
    rw [ih f (by simp at hf; omega)]

theorem length_le_concatMap_encode (cs : List Char) :
    cs.length ≤ (concatMap (fun c => utf8EncodeNat c.toNat) cs).length := by
  induction cs with
  | nil => simp [concatMap]
  | cons c cs ih =>
    obtain ⟨b, bs, hshape⟩ := utf8EncodeNat_shape c.toNat
    simp [concatMap, hshape]
    omega

theorem utf8Decode?_utf8Encode (s : String) :
    utf8Decode? (utf8Encode s) = some s.toList := by
  rw [utf8Decode?, utf8Encode]
  exact utf8DecodeLoop_concatMap s.toList _ (length_le_concatMap_encode s.toList)

theorem utf8EncodeNat_lt (m : Nat) (h : m < 1114112) :
    ∀ b ∈ utf8EncodeNat m, b < 256 := by
  intro b hb
  unfold utf8EncodeNat at hb
  by_cases h1 : m < 128
  · rw [if_pos h1] at hb; simp at hb; omega
  · by_cases h2 : m < 2048
    · rw [if_neg h1, if_pos h2] at hb; simp at hb
      rcases hb with rfl | rfl <;> omega
    · by_cases h3 : m < 65536
      · rw [if_neg h1, if_neg h2, if_pos h3] at hb; simp at hb
        rcases hb with rfl | rfl | rfl <;> omega
      · rw [if_neg h1, if_neg h2, if_neg h3] at hb; simp at hb
        rcases hb with rfl | rfl | rfl | rfl <;> omega

theorem utf8Encode_lt (s : String) : ∀ b ∈ utf8Encode s, b < 256 := by
  intro b hb
  obtain ⟨c, _, hbc⟩ := mem_concatMap (l := s.toList) hb
  have hc : c.toNat < 1114112 := by
    rcases char_valid_cases c with h | ⟨_, h⟩ <;> omega
  exact utf8EncodeNat_lt _ hc b hbc

theorem digitChar_facts (d : Nat) (h : d < 10) :
    isJsonWs (digitChar d) = false ∧ (digitChar d).isDigit = true ∧
    digitChar d ≠ 'n' ∧ digitChar d ≠ 't' ∧ digitChar d ≠ 'f' ∧
    digitChar d ≠ '"' ∧ digitChar d ≠ '[' ∧ digitChar d ≠ lbrace ∧
    digitChar d ≠ ']' ∧ digitChar d ≠ '-' ∧ digitChar d ≠ '.' ∧
    digitChar d ≠ 'e' ∧ digitChar d ≠ 'E' := by
  interval_cases d <;> exact (by decide)

theorem natDigits_all_digit (m : Nat) : ∀ c ∈ natDigits m, c.isDigit = true := by
  induction m using Nat.strong_induction_on with
  | _ m ih =>
    intro c hc
    by_cases h : m < 10
    · rw [natDigits, dif_pos h] at hc
      simp at hc
      subst hc
      exact (digitChar_facts m h).2.1
    · rw [natDigits, dif_neg h] at hc
      rcases List.mem_append.mp hc with h1 | h2
      · exact ih (m / 10) (Nat.div_lt_self (by omega) (by omega)) c h1
      · simp at h2
        subst h2
        exact (digitChar_facts _ (Nat.mod_lt _ (by omega))).2.1

theorem natDigits_head (m : Nat) :
    ∃ d tl, natDigits m = digitChar d :: tl ∧ d < 10 := by
  induction m using Nat.strong_induction_on with
  | _ m ih =>
    by_cases h : m < 10
    · exact ⟨m, [], by rw [natDigits, dif_pos h], h⟩
    · obtain ⟨d, tl, hdt, hd⟩ := ih (m / 10) (Nat.div_lt_self (by omega) (by omega))
      exact ⟨d, tl ++ [digitChar (m % 10)], by rw [natDigits, dif_neg h, hdt]; rfl, hd⟩

theorem digitsVal_append (ds : List Char) (c : Char) :
    digitsVal (ds ++ [c]) = digitsVal ds * 10 + (c.toNat - 48) := by
  simp [digitsVal, List.foldl_append]

theorem digitChar_toNat (d : Nat) (h : d < 10) : (digitChar d).toNat = 48 + d := by
  rw [digitChar, charOfNat_toNat _ (by omega)]

theorem digitsVal_natDigits (m : Nat) : digitsVal (natDigits m) = m := by
  induction m using Nat.strong_induction_on with
  | _ m ih =>
    by_cases h : m < 10
    · rw [natDigits, dif_pos h]
      simp [digitsVal, digitChar_toNat m h]
    · rw [natDigits, dif_neg h, digitsVal_append,
        ih (m / 10) (Nat.div_lt_self (by omega) (by omega)),
        digitChar_toNat _ (Nat.mod_lt _ (by omega))]
      omega

theorem takeWhile_append_all (p : Char → Bool) :
    ∀ (xs rest : List Char), (∀ c ∈ xs, p c = true) →
      (∀ c, rest.head? = some c → p c = false) →
      (xs ++ rest).takeWhile p = xs := by
  intro xs
  induction xs with
  | nil =>
    intro rest _ hrest
    match rest with
    | [] => rfl
    | c :: r =>
      show List.takeWhile p (c :: r) = []
      rw [List.takeWhile_cons, hrest c rfl]
      simp
  | cons x xs ih =>
    intro rest hall hrest
    show List.takeWhile p (x :: (xs ++ rest)) = x :: xs
    rw [List.takeWhile_cons, hall x (List.mem_cons_self x xs)]
    simp only [if_true]
    rw [ih rest (fun c hc => hall c (List.mem_cons_of_mem x hc)) hrest]

theorem parseNum_intDigits (n : Int) (rest : List Char) (hsafe : numSafe rest) :
    parseNum (intDigits n ++ rest) = some (.jnum n, rest) := by
  have hdigits := natDigits_all_digit n.natAbs
  have htake : (natDigits n.natAbs ++ rest).takeWhile Char.isDigit = natDigits n.natAbs :=
    takeWhile_append_all _ _ _ hdigits (fun c hc => (hsafe c hc).1)
  have hdrop : (natDigits n.natAbs ++ rest).drop (natDigits n.natAbs).length = rest :=
    List.drop_left _ _
  obtain ⟨d, tl, hshape, hd⟩ := natDigits_head n.natAbs
  have hne : ¬(natDigits n.natAbs).isEmpty = true := by rw [hshape]; simp
  have hsafe2 : ¬(rest.head? = some '.' ∨ rest.head? = some 'e' ∨ rest.head? = some 'E') := by
    rcases rest with _ | ⟨c, r⟩
    · simp
    · have hc := hsafe c rfl
      simp only [List.head?_cons, Option.some.injEq]
      push_neg
      exact ⟨hc.2.1, hc.2.2.1, hc.2.2.2⟩
  by_cases hneg : n < 0
  · rw [intDigits, if_pos hneg]
    show parseNum ('-' :: (natDigits n.natAbs ++ rest)) = _
    rw [parseNum]
    simp only [List.head?_cons, List.tail_cons, eq_self_iff_true, if_true]
    rw [htake, if_neg hne, hdrop, if_neg hsafe2, digitsVal_natDigits]
    simp only [Option.some.injEq, Prod.mk.injEq, Json.jnum.injEq, Int.ofNat_eq_coe, and_true]
    omega
  · rw [intDigits, if_neg hneg]
    have hhead : ¬((natDigits n.natAbs ++ rest).head? = some '-') := by
      rw [hshape, List.cons_append, List.head?_cons]
      intro hcon
      injection hcon with h1
      exact absurd h1 (digitChar_facts d hd).2.2.2.2.2.2.2.2.2.1
    rw [parseNum]
    simp only [if_neg hhead]
    rw [htake, if_neg hne, hdrop, if_neg hsafe2, digitsVal_natDigits]
    simp only [Option.some.injEq, Prod.mk.injEq, Json.jnum.injEq, Int.ofNat_eq_coe, and_true]
    omega


theorem parseStrChars_quote (r : List Char) : parseStrChars ('"' :: r) = some ([], r) := rfl

theorem parseStrChars_esc (e : Char) (r2 : List Char) (c : Char)
    (hu : e ≠ 'u') (hc : unescChar? e = some c) :
    parseStrChars ('\\' :: e :: r2) =
      match parseStrChars r2 with
      | some (cs, rest) => some (c :: cs, rest)
      | none => none := by
  rw [parseStrChars.eq_def]
  split
  · simp_all
  · simp_all
  · rename_i r heq
    injection heq with _ hr
    subst hr
    split
    · rename_i h1 h2 h3 h4 r2a heq2
      injection heq2 with he _
      exact absurd he hu
    · rename_i e2 r2a heq2
      injection heq2 with he hr2
      subst he; subst hr2
      rw [hc]
    · rename_i heq2
      cases heq2
  · rename_i c2 r hne1 hne2 hne3
    injection hne3 with hch _
    exact absurd hch.symm (fun h => hne2 h)


theorem parseStrChars_u (h1 h2 h3 h4 : Char) (r2 : List Char) (a b c d : Nat)
    (ha : hexCharVal? h1 = some a) (hb : hexCharVal? h2 = some b)
    (hcv : hexCharVal? h3 = some c) (hd : hexCharVal? h4 = some d)
    (hs : ¬(55296 ≤ a * 4096 + b * 256 + c * 16 + d ∧ a * 4096 + b * 256 + c * 16 + d < 57344)) :
    parseStrChars ('\\' :: 'u' :: h1 :: h2 :: h3 :: h4 :: r2) =
      match parseStrChars r2 with
      | some (cs, rest) => some (Char.ofNat (a * 4096 + b * 256 + c * 16 + d) :: cs, rest)
      | none => none := by
  rw [parseStrChars.eq_def]
  split
  · simp_all
  · simp_all
  · rename_i r heq
    injection heq with _ hr
    subst hr
    split
    · rename_i g1 g2 g3 g4 r2a heq2
      injection heq2 with _ heq2; injection heq2 with e1 heq2
      injection heq2 with e2 heq2; injection heq2 with e3 heq2
      injection heq2 with e4 e5
      subst e1; subst e2; subst e3; subst e4; subst e5
      rw [ha, hb, hcv, hd]
      dsimp only
      rw [if_neg hs]
    · rename_i e2 r2a hnd heqx
      injection heqx with he hr
      exact absurd (hnd h1 h2 h3 h4 r2 he.symm hr.symm) not_false
    · rename_i heq2
      cases heq2
  · rename_i c2 r hne1 hne2 hne3
    injection hne3 with hch _
    exact absurd hch.symm (fun h => hne2 h)

theorem parseStrChars_ord (c : Char) (r : List Char)
    (hq : c ≠ '"') (hbs : c ≠ '\\') (h32 : ¬c.toNat < 32) :
    parseStrChars (c :: r) =
      match parseStrChars r with
      | some (cs, rest) => some (c :: cs, rest)
      | none => none := by
  rw [parseStrChars.eq_def]
  split
  · simp_all
  · rename_i r2 heq
    injection heq with hch _
    exact absurd hch hq
  · rename_i r2 heq
    injection heq with hch _
    exact absurd hch hbs
  · rename_i c2 r2 hne1 hne2 hne3
    injection hne3 with hch hr
    subst hch; subst hr
    rw [if_neg h32]


theorem parseStrChars_escape : ∀ (cs : List Char) (rest : List Char),
    parseStrChars (concatMap escChar cs ++ '"' :: rest) = some (cs, rest) := by
  intro cs
  induction cs with
  | nil => intro rest; exact parseStrChars_quote rest
  | cons c cs ih =>
    intro rest
    show parseStrChars ((escChar c ++ concatMap escChar cs) ++ '"' :: rest) = _
    rw [List.append_assoc]
    by_cases h1 : c = '"'
    · subst h1
      show parseStrChars ('\\' :: '"' :: (concatMap escChar cs ++ '"' :: rest)) = _
      rw [parseStrChars_esc _ _ '"' (by decide) (by decide), ih rest]
    · by_cases h2 : c = '\\'
      · subst h2
        show parseStrChars ('\\' :: '\\' :: (concatMap escChar cs ++ '"' :: rest)) = _
        rw [parseStrChars_esc _ _ '\\' (by decide) (by decide), ih rest]
      · by_cases h3 : c.toNat = 8
        · rw [show escChar c = ['\\', 'b'] by
            simp only [escChar, if_neg h1, if_neg h2, if_pos h3]]
          show parseStrChars ('\\' :: 'b' :: (concatMap escChar cs ++ '"' :: rest)) = _
          rw [parseStrChars_esc _ _ (Char.ofNat 8) (by decide) (by decide), ih rest]
          rw [← h3, Char.ofNat_toNat]
        · by_cases h4 : c.toNat = 9
          · rw [show escChar c = ['\\', 't'] by
              simp only [escChar, if_neg h1, if_neg h2, if_neg h3, if_pos h4]]
            show parseStrChars ('\\' :: 't' :: (concatMap escChar cs ++ '"' :: rest)) = _
            rw [parseStrChars_esc _ _ (Char.ofNat 9) (by decide) (by decide), ih rest]
            rw [← h4, Char.ofNat_toNat]
          · by_cases h5 : c.toNat = 10
            · rw [show escChar c = ['\\', 'n'] by
                simp only [escChar, if_neg h1, if_neg h2, if_neg h3, if_neg h4, if_pos h5]]
              show parseStrChars ('\\' :: 'n' :: (concatMap escChar cs ++ '"' :: rest)) = _
              rw [parseStrChars_esc _ _ (Char.ofNat 10) (by decide) (by decide), ih rest]
              rw [← h5, Char.ofNat_toNat]
            · by_cases h6 : c.toNat = 12
              · rw [show escChar c = ['\\', 'f'] by
                  simp only [escChar, if_neg h1, if_neg h2, if_neg h3, if_neg h4, if_neg h5,
                    if_pos h6]]
                show parseStrChars ('\\' :: 'f' :: (concatMap escChar cs ++ '"' :: rest)) = _
                rw [parseStrChars_esc _ _ (Char.ofNat 12) (by decide) (by decide), ih rest]
                rw [← h6, Char.ofNat_toNat]
              · by_cases h7 : c.toNat = 13
                · rw [show escChar c = ['\\', 'r'] by
                    simp only [escChar, if_neg h1, if_neg h2, if_neg h3, if_neg h4, if_neg h5,
                      if_neg h6, if_pos h7]]
                  show parseStrChars ('\\' :: 'r' ::
                    (concatMap escChar cs ++ '"' :: rest)) = _
                  rw [parseStrChars_esc _ _ (Char.ofNat 13) (by decide) (by decide), ih rest]
                  rw [← h7, Char.ofNat_toNat]
                · by_cases h8 : c.toNat < 32
                  · rw [show escChar c = ['\\', 'u', '0', '0', hexDigitChar (c.toNat / 16),
                      hexDigitChar (c.toNat % 16)] by
                      simp only [escChar, if_neg h1, if_neg h2, if_neg h3, if_neg h4,
                        if_neg h5, if_neg h6, if_neg h7, if_pos h8]]
                    show parseStrChars ('\\' :: 'u' :: '0' :: '0' ::
                      hexDigitChar (c.toNat / 16) :: hexDigitChar (c.toNat % 16) ::
                      (concatMap escChar cs ++ '"' :: rest)) = _
                    rw [parseStrChars_u _ _ _ _ _ 0 0 (c.toNat / 16) (c.toNat % 16)
                      (by decide) (by decide)
                      (hexCharVal?_hexDigitChar _ (by omega))
                      (hexCharVal?_hexDigitChar _ (Nat.mod_lt _ (by omega)))
                      (by omega), ih rest]
                    have hv : 0 * 4096 + 0 * 256 + c.toNat / 16 * 16 + c.toNat % 16 =
                        c.toNat := by omega
                    rw [hv, Char.ofNat_toNat]
                  · rw [show escChar c = [c] by
                      simp only [escChar, if_neg h1, if_neg h2, if_neg h3, if_neg h4,
                        if_neg h5, if_neg h6, if_neg h7, if_neg h8]]
                    show parseStrChars (c :: (concatMap escChar cs ++ '"' :: rest)) = _
                    rw [parseStrChars_ord c _ h1 h2 h8, ih rest]


theorem parseVal_null_test (fuel : Nat) (rest : List Char) :
    parseVal (fuel + 1) ('n' :: 'u' :: 'l' :: 'l' :: rest) = some (.jnull, rest) := rfl


theorem dropWhile_cons_not (c : Char) (l : List Char) (h : isJsonWs c = false) :
    (c :: l).dropWhile isJsonWs = c :: l := by
  rw [List.dropWhile_cons, h]
  simp

theorem parseVal_true_eq (fuel : Nat) (rest : List Char) :
    parseVal (fuel + 1) ('t' :: 'r' :: 'u' :: 'e' :: rest) = some (.jbool true, rest) := rfl

theorem parseVal_false_eq (fuel : Nat) (rest : List Char) :
    parseVal (fuel + 1) ('f' :: 'a' :: 'l' :: 's' :: 'e' :: rest) =
      some (.jbool false, rest) := rfl

theorem parseVal_str_eq (fuel : Nat) (r cs rest : List Char)
    (hp : parseStrChars r = some (cs, rest)) :
    parseVal (fuel + 1) ('"' :: r) = some (.jstr (String.mk cs), rest) := by
  show (match parseStrChars r with
        | some (cs, rest) => some (Json.jstr (String.mk cs), rest)
        | none => none) = _
  rw [hp]


theorem parseVal_arr_eq (fuel : Nat) (r : List Char) :
    parseVal (fuel + 1) ('[' :: r) =
      match r.dropWhile isJsonWs with
      | ']' :: rest => some (.jarr [], rest)
      | r1 =>
        match parseVal fuel r1 with
        | some (x, r2) =>
            match parseElems fuel r2 with
            | some (xs, rest) => some (.jarr (x :: xs), rest)
            | none => none
        | none => none := rfl

theorem parseVal_obj_eq (fuel : Nat) (r : List Char) :
    parseVal (fuel + 1) (lbrace :: r) =
      match r.dropWhile isJsonWs with
      | c1 :: rest =>
          if c1 = rbrace then some (.jobj [], rest)
          else
            match parseField fuel (c1 :: rest) with
            | some (f, r2) =>
                match parseFields fuel r2 with
                | some (fs, rest2) => some (.jobj (f :: fs), rest2)
                | none => none
            | none => none
      | [] => none := rfl


theorem parseElems_close (fuel : Nat) (s rest : List Char)
    (h : s.dropWhile isJsonWs = ']' :: rest) :
    parseElems (fuel + 1) s = some ([], rest) := by
  rw [parseElems, h]
  rfl

theorem parseElems_comma (fuel : Nat) (s r : List Char)
    (h : s.dropWhile isJsonWs = ',' :: r) :
    parseElems (fuel + 1) s =
      match parseVal fuel r with
      | some (x, r2) =>
          match parseElems fuel r2 with
          | some (xs, rest) => some (x :: xs, rest)
          | none => none
      | none => none := by
  rw [parseElems, h]
  rfl

theorem parseField_go (fuel : Nat) (s r : List Char)
    (h : s.dropWhile isJsonWs = '"' :: r) :
    parseField (fuel + 1) s =
      match parseStrChars r with
      | some (cs, r2) =>
          match r2.dropWhile isJsonWs with
          | ':' :: r3 =>
              match parseVal fuel r3 with
              | some (v, rest) => some ((String.mk cs, v), rest)
              | none => none
          | _ => none
      | none => none := by
  rw [parseField, h]
  rfl

theorem parseFields_close (fuel : Nat) (s rest : List Char)
    (h : s.dropWhile isJsonWs = rbrace :: rest) :
    parseFields (fuel + 1) s = some ([], rest) := by
  rw [parseFields, h]
  rfl

theorem parseFields_comma (fuel : Nat) (s r : List Char)
    (h : s.dropWhile isJsonWs = ',' :: r) :
    parseFields (fuel + 1) s =
      match parseField fuel r with
      | some (f, r2) =>
          match parseFields fuel r2 with
          | some (fs, rest) => some (f :: fs, rest)
          | none => none
      | none => none := by
  rw [parseFields, h]
  rfl


theorem parseVal_other (fuel : Nat) (c : Char) (r : List Char)
    (hws : isJsonWs c = false) (h1 : c ≠ 'n') (h2 : c ≠ 't') (h3 : c ≠ 'f')
    (h4 : c ≠ '"') (h5 : c ≠ '[') (h6 : c ≠ lbrace) :
    parseVal (fuel + 1) (c :: r) = parseNum (c :: r) := by
  rw [parseVal, dropWhile_cons_not c r hws]
  split
  · rename_i r2 heq
    injection heq with hc _
    exact absurd hc h1
  · rename_i r2 heq
    injection heq with hc _
    exact absurd hc h2
  · rename_i r2 heq
    injection heq with hc _
    exact absurd hc h3
  · rename_i r2 heq
    injection heq with hc _
    exact absurd hc h4
  · rename_i r2 heq
    injection heq with hc _
    exact absurd hc h5
  · rename_i cb rb d1 d2 d3 d4 d5 heq
    injection heq with hc hr
    subst hc; subst hr
    rw [if_neg h6]
  · rename_i heq
    cases heq


theorem stringMk_toList (s : String) : String.mk s.toList = s := by
  cases s
  rfl

theorem numSafe_nil : numSafe [] := by
  intro c hc
  cases hc

theorem numSafe_arrTail (xs : List Json) (rest : List Char) :
    numSafe (jArrTail xs ++ ']' :: rest) := by
  cases xs with
  | nil => intro c hc; injection hc with hc; subst hc; exact (by decide)
  | cons x xs =>
    intro c hc
    have : jArrTail (x :: xs) ++ ']' :: rest =
        ',' :: (jVal x ++ jArrTail xs ++ ']' :: rest) := by
      rw [jArrTail]
      simp [List.append_assoc]
    rw [this] at hc
    injection hc with hc
    subst hc
    exact (by decide)

theorem numSafe_objTail (fs : List (String × Json)) (rest : List Char) :
    numSafe (jObjTail fs ++ rbrace :: rest) := by
  cases fs with
  | nil => intro c hc; injection hc with hc; subst hc; exact (by decide)
  | cons f fs =>
    intro c hc
    have : jObjTail (f :: fs) ++ rbrace :: rest =
        ',' :: (strLit f.1 ++ ':' :: jVal f.2 ++ jObjTail fs ++ rbrace :: rest) := by
      rw [jObjTail]
      simp [List.append_assoc]
    rw [this] at hc
    injection hc with hc
    subst hc
    exact (by decide)

theorem jVal_head_shape (j : Json) :
    ∃ c tl, jVal j = c :: tl ∧ isJsonWs c = false ∧ c ≠ ']' := by
  cases j with
  | jnull => exact ⟨'n', _, rfl, by decide, by decide⟩
  | jbool b =>
    cases b
    · exact ⟨'f', _, rfl, by decide, by decide⟩
    · exact ⟨'t', _, rfl, by decide, by decide⟩
  | jnum n =>
    by_cases hn : n < 0
    · refine ⟨'-', natDigits n.natAbs, ?_, by decide, by decide⟩
      show intDigits n = _
      rw [intDigits, if_pos hn]
    · obtain ⟨d, tl, hdt, hd⟩ := natDigits_head n.natAbs
      obtain ⟨hws, _, _, _, _, _, _, _, hne, _⟩ := digitChar_facts d hd
      refine ⟨digitChar d, tl, ?_, hws, hne⟩
      show intDigits n = _
      rw [intDigits, if_neg hn, hdt]
  | jstr s => exact ⟨'"', _, rfl, by decide, by decide⟩
  | jarr xs =>
    cases xs with
    | nil => exact ⟨'[', [']'], rfl, by decide, by decide⟩
    | cons x xs => exact ⟨'[', _, rfl, by decide, by decide⟩
  | jobj fs =>
    cases fs with
    | nil => exact ⟨lbrace, [rbrace], rfl, by decide, by decide⟩
    | cons f fs => exact ⟨lbrace, _, rfl, by decide, by decide⟩

theorem jVal_length_pos (j : Json) : 1 ≤ (jVal j).length := by
  obtain ⟨c, tl, h, _, _⟩ := jVal_head_shape j
  rw [h]
  simp

theorem parseVal_arr_nil_eq (fuel : Nat) (rest : List Char) :
    parseVal (fuel + 1) ('[' :: ']' :: rest) = some (.jarr [], rest) := rfl

theorem parseVal_obj_nil_eq (fuel : Nat) (rest : List Char) :
    parseVal (fuel + 1) (lbrace :: rbrace :: rest) = some (.jobj [], rest) := rfl

theorem parseVal_arr_cons (fuel : Nat) (r : List Char) (c : Char) (tl : List Char)
    (hdrop : r.dropWhile isJsonWs = c :: tl) (hc : c ≠ ']') :
    parseVal (fuel + 1) ('[' :: r) =
      match parseVal fuel (c :: tl) with
      | some (x, r2) =>
          match parseElems fuel r2 with
          | some (xs, rest) => some (.jarr (x :: xs), rest)
          | none => none
      | none => none := by
  rw [parseVal_arr_eq, hdrop]
  split
  · rename_i rest heq
    injection heq with hc2 _
    exact absurd hc2 hc
  · rfl

theorem parseVal_obj_cons (fuel : Nat) (r : List Char) (c1 : Char) (rest0 : List Char)
    (hdrop : r.dropWhile isJsonWs = c1 :: rest0) (hc1 : c1 ≠ rbrace) :
    parseVal (fuel + 1) (lbrace :: r) =
      match parseField fuel (c1 :: rest0) with
      | some (f, r2) =>
          match parseFields fuel r2 with
          | some (fs, rest2) => some (.jobj (f :: fs), rest2)
          | none => none
      | none => none := by
  rw [parseVal_obj_eq, hdrop]
  show (if c1 = rbrace then some (Json.jobj [], rest0)
        else
          match parseField fuel (c1 :: rest0) with
          | some (f, r2) =>
              match parseFields fuel r2 with
              | some (fs, rest2) => some (.jobj (f :: fs), rest2)
              | none => none
          | none => none) = _
  rw [if_neg hc1]


theorem parse_roundtrip_main : ∀ fuel : Nat,
    (∀ j rest, (jVal j).length + 1 ≤ fuel → numSafe rest →
      parseVal fuel (jVal j ++ rest) = some (j, rest)) ∧
    (∀ xs rest, (jArrTail xs).length + 2 ≤ fuel →
      parseElems fuel (jArrTail xs ++ ']' :: rest) = some (xs, rest)) ∧
    (∀ k v rest, (strLit k).length + (jVal v).length + 2 ≤ fuel → numSafe rest →
      parseField fuel (strLit k ++ ':' :: jVal v ++ rest) = some ((k, v), rest)) ∧
    (∀ fs rest, (jObjTail fs).length + 2 ≤ fuel →
      parseFields fuel (jObjTail fs ++ rbrace :: rest) = some (fs, rest)) := by
  intro fuel
  induction fuel with
  | zero =>
    refine ⟨?_, ?_, ?_, ?_⟩
    · intro j rest hfu _; omega
    · intro xs rest hfu; omega
    · intro k v rest hfu _; omega
    · intro fs rest hfu; omega
  | succ fuel ih =>
    obtain ⟨ihP, ihQ, ihR, ihS⟩ := ih
    refine ⟨?_, ?_, ?_, ?_⟩
    · -- parseVal
      intro j rest hfu hsafe
      cases j with
      | jnull => exact parseVal_null_test fuel rest
      | jbool b =>
        cases b
        · exact parseVal_false_eq fuel rest
        · exact parseVal_true_eq fuel rest
      | jnum n =>
        by_cases hn : n < 0
        · have hsplit : jVal (.jnum n) ++ rest = '-' :: (natDigits n.natAbs ++ rest) := by
            show intDigits n ++ rest = _
            rw [intDigits, if_pos hn]
            rfl
          rw [hsplit, parseVal_other fuel '-' _ (by decide) (by decide) (by decide)
            (by decide) (by decide) (by decide) (by decide)]
          rw [← hsplit]
          exact parseNum_intDigits n rest hsafe
        · obtain ⟨d, tl, hdt, hd⟩ := natDigits_head n.natAbs
          obtain ⟨hws, _, hn', ht', hf', hq', hb', hl', _, _⟩ := digitChar_facts d hd
          have hsplit : jVal (.jnum n) ++ rest = digitChar d :: (tl ++ rest) := by
            show intDigits n ++ rest = _
            rw [intDigits, if_neg hn, hdt]
            rfl
          rw [hsplit, parseVal_other fuel _ _ hws hn' ht' hf' hq' hb' hl']
          rw [← hsplit]
          exact parseNum_intDigits n rest hsafe
      | jstr s =>
        have hsplit : jVal (.jstr s) ++ rest =
            '"' :: (concatMap escChar s.toList ++ '"' :: rest) := by
          show strLit s ++ rest = _
          rw [strLit]
          simp [List.append_assoc]
        rw [hsplit, parseVal_str_eq fuel _ _ _ (parseStrChars_escape s.toList rest)]
        rw [stringMk_toList]
      | jarr xs =>
        cases xs with
        | nil => exact parseVal_arr_nil_eq fuel rest
        | cons x xs =>
          obtain ⟨c, tl, hshape, hws, hcne⟩ := jVal_head_shape x
          have hsplit : jVal (.jarr (x :: xs)) ++ rest =
              '[' :: (jVal x ++ (jArrTail xs ++ ']' :: rest)) := by
            rw [jVal]
            simp [List.append_assoc]
          have hlen : (jVal (.jarr (x :: xs))).length =
              2 + (jVal x).length + (jArrTail xs).length := by
            rw [jVal]
            simp [List.length_append]
            omega
          have hdrop : (jVal x ++ (jArrTail xs ++ ']' :: rest)).dropWhile isJsonWs =
              c :: (tl ++ (jArrTail xs ++ ']' :: rest)) := by
            rw [hshape]
            exact dropWhile_cons_not c _ hws
          rw [hsplit, parseVal_arr_cons fuel _ c _ hdrop hcne]
          have hx : parseVal fuel (c :: (tl ++ (jArrTail xs ++ ']' :: rest))) =
              some (x, jArrTail xs ++ ']' :: rest) := by
            have h1 := ihP x (jArrTail xs ++ ']' :: rest) (by omega)
              (numSafe_arrTail xs rest)
            rw [hshape] at h1
            exact h1
          rw [hx]
          show (match parseElems fuel (jArrTail xs ++ ']' :: rest) with
                | some (xs2, rest2) => some (Json.jarr (x :: xs2), rest2)
                | none => none) = _
          rw [ihQ xs rest (by omega)]
      | jobj fs =>
        cases fs with
        | nil => exact parseVal_obj_nil_eq fuel rest
        | cons f fs =>
          obtain ⟨k, v⟩ := f
          have hsplit : jVal (.jobj ((k, v) :: fs)) ++ rest =
              lbrace :: (strLit k ++ ':' :: jVal v ++ (jObjTail fs ++ rbrace :: rest)) := by
            rw [jVal]
            simp [List.append_assoc]
          have hlen : (jVal (.jobj ((k, v) :: fs))).length =
              2 + (strLit k).length + 1 + (jVal v).length + (jObjTail fs).length := by
            rw [jVal]
            simp [List.length_append]
            omega
          have hinner : strLit k ++ ':' :: jVal v ++ (jObjTail fs ++ rbrace :: rest) =
              '"' :: (concatMap escChar k.toList ++
                '"' :: ':' :: (jVal v ++ (jObjTail fs ++ rbrace :: rest))) := by
            rw [strLit]
            simp [List.append_assoc]
          have hdrop : (strLit k ++ ':' :: jVal v ++
              (jObjTail fs ++ rbrace :: rest)).dropWhile isJsonWs =
              '"' :: (concatMap escChar k.toList ++
                '"' :: ':' :: (jVal v ++ (jObjTail fs ++ rbrace :: rest))) := by
            rw [hinner]
            exact dropWhile_cons_not _ _ (by decide)
          rw [hsplit, parseVal_obj_cons fuel _ '"' _ hdrop (by decide)]
          have hf : parseField fuel (strLit k ++ ':' :: jVal v ++
              (jObjTail fs ++ rbrace :: rest)) =
              some ((k, v), jObjTail fs ++ rbrace :: rest) :=
            ihR k v _ (by omega) (numSafe_objTail fs rest)
          rw [hinner] at hf
          rw [hf]
          show (match parseFields fuel (jObjTail fs ++ rbrace :: rest) with
                | some (fs2, rest2) => some (Json.jobj ((k, v) :: fs2), rest2)
                | none => none) = _
          rw [ihS fs rest (by omega)]
    · -- parseElems
      intro xs rest hfu
      cases xs with
      | nil =>
        exact parseElems_close fuel _ rest (dropWhile_cons_not ']' rest (by decide))
      | cons x xs =>
        have hsplit : jArrTail (x :: xs) ++ ']' :: rest =
            ',' :: (jVal x ++ (jArrTail xs ++ ']' :: rest)) := by
          rw [jArrTail]
          simp [List.append_assoc]
        have hlen : (jArrTail (x :: xs)).length =
            1 + (jVal x).length + (jArrTail xs).length := by
          rw [jArrTail]
          simp [List.length_append]
          omega
        rw [hsplit, parseElems_comma fuel _ _ (dropWhile_cons_not ',' _ (by decide))]
        rw [ihP x (jArrTail xs ++ ']' :: rest) (by omega) (numSafe_arrTail xs rest)]
        show (match parseElems fuel (jArrTail xs ++ ']' :: rest) with
              | some (xs2, rest2) => some (x :: xs2, rest2)
              | none => none) = _
        rw [ihQ xs rest (by omega)]
    · -- parseField
      intro k v rest hfu hsafe
      have hinner : strLit k ++ ':' :: jVal v ++ rest =
          '"' :: (concatMap escChar k.toList ++ '"' :: ':' :: (jVal v ++ rest)) := by
        rw [strLit]
        simp [List.append_assoc]
      rw [hinner, parseField_go fuel _ _ (dropWhile_cons_not '"' _ (by decide))]
      rw [show concatMap escChar k.toList ++ '"' :: ':' :: (jVal v ++ rest) =
        concatMap escChar k.toList ++ '"' :: (':' :: (jVal v ++ rest)) from rfl]
      rw [parseStrChars_escape k.toList (':' :: (jVal v ++ rest))]
      show (match (':' :: (jVal v ++ rest)).dropWhile isJsonWs with
            | ':' :: r3 =>
                match parseVal fuel r3 with
                | some (v2, rest2) => some ((String.mk k.toList, v2), rest2)
                | none => none
            | _ => none) = _
      rw [dropWhile_cons_not ':' _ (by decide)]
      show (match parseVal fuel (jVal v ++ rest) with
            | some (v2, rest2) => some ((String.mk k.toList, v2), rest2)
            | none => none) = _
      rw [ihP v rest (by omega) hsafe]
      rw [stringMk_toList]
    · -- parseFields
      intro fs rest hfu
      cases fs with
      | nil =>
        exact parseFields_close fuel _ rest (dropWhile_cons_not rbrace rest (by decide))
      | cons f fs =>
        obtain ⟨k, v⟩ := f
        have hsplit : jObjTail ((k, v) :: fs) ++ rbrace :: rest =
            ',' :: (strLit k ++ ':' :: jVal v ++ (jObjTail fs ++ rbrace :: rest)) := by
          rw [jObjTail]
          simp [List.append_assoc]
        have hlen : (jObjTail ((k, v) :: fs)).length =
            1 + (strLit k).length + 1 + (jVal v).length + (jObjTail fs).length := by
          rw [jObjTail]
          simp [List.length_append]
          omega
        rw [hsplit, parseFields_comma fuel _ _ (dropWhile_cons_not ',' _ (by decide))]
        rw [ihR k v (jObjTail fs ++ rbrace :: rest) (by omega) (numSafe_objTail fs rest)]
        show (match parseFields fuel (jObjTail fs ++ rbrace :: rest) with
              | some (fs2, rest2) => some ((k, v) :: fs2, rest2)
              | none => none) = _
        rw [ihS fs rest (by omega)]


theorem jsonParse_jsonStringify (j : Json) : jsonParse (jsonStringify j) = some j := by
  have hmain := (parse_roundtrip_main ((jVal j).length + 1)).1 j [] (le_refl _) numSafe_nil
  rw [List.append_nil] at hmain
  rw [jsonParse]
  have hlist : (jsonStringify j).toList = jVal j := rfl
  have hlen : (jsonStringify j).length = (jVal j).length := rfl
  rw [hlist, hlen, hmain]
  rfl


theorem hexDigitChar_ne_colon (n : Nat) (h : n < 16) : hexDigitChar n ≠ ':' := by
  interval_cases n <;> decide

theorem bytesToHex_ne_colon (bs : List Nat) (hb : ∀ b ∈ bs, b < 256) :
    ∀ c ∈ bytesToHex bs, c ≠ ':' := by
  intro c hc
  obtain ⟨b, hbmem, hcb⟩ := mem_concatMap hc
  have hblt : b < 256 := hb b hbmem
  simp only [List.mem_cons, List.not_mem_nil, or_false] at hcb
  rcases hcb with h | h
  · subst h
    exact hexDigitChar_ne_colon _ (by omega)
  · subst h
    exact hexDigitChar_ne_colon _ (Nat.mod_lt _ (by omega))


theorem splitOnChar_not_mem (sep : Char) :
    ∀ l : List Char, (∀ c ∈ l, c ≠ sep) → splitOnChar sep l = [l] := by
  intro l
  induction l with
  | nil => intro _; rfl
  | cons c r ih =>
    intro h
    rw [splitOnChar, if_neg (h c (List.mem_cons_self c r)),
      ih (fun x hx => h x (List.mem_cons_of_mem c hx))]

theorem splitOnChar_sep_append (sep : Char) :
    ∀ (l rest : List Char), (∀ c ∈ l, c ≠ sep) →
      splitOnChar sep (l ++ sep :: rest) = l :: splitOnChar sep rest := by
  intro l
  induction l with
  | nil =>
    intro rest _
    show splitOnChar sep (sep :: rest) = [] :: splitOnChar sep rest
    rw [splitOnChar, if_pos rfl]
  | cons c r ih =>
    intro rest h
    show splitOnChar sep (c :: (r ++ sep :: rest)) = (c :: r) :: splitOnChar sep rest
    rw [splitOnChar, if_neg (h c (List.mem_cons_self c r)),
      ih rest (fun x hx => h x (List.mem_cons_of_mem c hx))]


theorem sbox_entries_lt : ∀ b ∈ sbox, b < 256 := by decide

theorem getD_all_lt (l : List Nat) (hall : ∀ x ∈ l, x < 256) :
    ∀ b, l.getD b 0 < 256 := by
  induction l with
  | nil => intro b; simp [List.getD]
  | cons x xs ih =>
    intro b
    match b with
    | 0 => exact hall x (List.mem_cons_self x xs)
    | n + 1 =>
      show xs.getD n 0 < 256
      exact ih (fun y hy => hall y (List.mem_cons_of_mem x hy)) n

theorem sub1_lt (b : Nat) : sub1 b < 256 :=
  getD_all_lt sbox sbox_entries_lt b

theorem zipXor_lt : ∀ as ks : List Nat, (∀ a ∈ as, a < 256) →
    (∀ k ∈ ks, k < 256) → ∀ x ∈ zipXor as ks, x < 256 := by
  intro as
  induction as with
  | nil => intro ks _ _ x hx; exact absurd hx (by simp [zipXor])
  | cons a as ih =>
    intro ks ha hk x hx
    match ks with
    | [] => exact absurd hx (by simp [zipXor])
    | k :: ks =>
      rcases (by simpa [zipXor] using hx : x = a ^^^ k ∨ x ∈ zipXor as ks) with h | h
      · subst h
        have h1 : a < 2 ^ 8 := ha a (List.mem_cons_self a as)
        have h2 : k < 2 ^ 8 := hk k (List.mem_cons_self k ks)
        calc a ^^^ k < 2 ^ 8 := Nat.xor_lt_two_pow h1 h2
        _ = 256 := rfl
      · exact ih ks (fun y hy => ha y (List.mem_cons_of_mem a hy))
          (fun y hy => hk y (List.mem_cons_of_mem k hy)) x h


theorem xor_lt_256 {a b : Nat} (h1 : a < 256) (h2 : b < 256) : a ^^^ b < 256 := by
  have h1p : a < 2 ^ 8 := by omega
  have h2p : b < 2 ^ 8 := by omega
  have h := Nat.xor_lt_two_pow h1p h2p
  omega

theorem xtime_lt (b : Nat) : xtime b < 256 := by
  rw [xtime]
  exact xor_lt_256 (Nat.mod_lt _ (by omega)) (by split <;> omega)

theorem mul3_lt (b : Nat) (hb : b < 256) : mul3 b < 256 :=
  xor_lt_256 (xtime_lt b) hb

theorem mixCol_lt (c : List Nat) (hc : ∀ x ∈ c, x < 256) :
    ∀ x ∈ mixCol c, x < 256 := by
  intro x hx
  have g := getD_all_lt c hc
  rw [mixCol] at hx
  simp only [List.mem_cons, List.not_mem_nil, or_false] at hx
  rcases hx with h | h | h | h <;> subst h
  · exact xor_lt_256 (xor_lt_256 (xor_lt_256 (xtime_lt _) (mul3_lt _ (g 1))) (g 2)) (g 3)
  · exact xor_lt_256 (xor_lt_256 (xor_lt_256 (g 0) (xtime_lt _)) (mul3_lt _ (g 2))) (g 3)
  · exact xor_lt_256 (xor_lt_256 (xor_lt_256 (g 0) (g 1)) (xtime_lt _)) (mul3_lt _ (g 3))
  · exact xor_lt_256 (xor_lt_256 (xor_lt_256 (mul3_lt _ (g 0)) (g 1)) (g 2)) (xtime_lt _)

theorem all_lt_take (l : List Nat) (h : ∀ x ∈ l, x < 256) (n : Nat) :
    ∀ x ∈ l.take n, x < 256 :=
  fun x hx => h x (List.mem_of_mem_take hx)

theorem all_lt_drop (l : List Nat) (h : ∀ x ∈ l, x < 256) (n : Nat) :
    ∀ x ∈ l.drop n, x < 256 :=
  fun x hx => h x (List.mem_of_mem_drop hx)

theorem mixColumns_lt (st : List Nat) (h : ∀ x ∈ st, x < 256) :
    ∀ x ∈ mixColumns st, x < 256 := by
  intro x hx
  rw [mixColumns] at hx
  rcases List.mem_append.mp hx with hx | hx
  rcases List.mem_append.mp hx with hx | hx
  rcases List.mem_append.mp hx with hx | hx
  · exact mixCol_lt _ (all_lt_take st h 4) x hx
  · exact mixCol_lt _ (all_lt_take _ (all_lt_drop st h 4) 4) x hx
  · exact mixCol_lt _ (all_lt_take _ (all_lt_drop st h 8) 4) x hx
  · exact mixCol_lt _ (all_lt_drop st h 12) x hx

theorem subBytes_lt (st : List Nat) : ∀ x ∈ subBytes st, x < 256 := by
  intro x hx
  rw [subBytes] at hx
  obtain ⟨b, _, hb⟩ := List.mem_map.mp hx
  subst hb
  exact sub1_lt b

theorem shiftRows_lt (st : List Nat) (h : ∀ x ∈ st, x < 256) :
    ∀ x ∈ shiftRows st, x < 256 := by
  intro x hx
  rw [shiftRows] at hx
  obtain ⟨i, _, hb⟩ := List.mem_map.mp hx
  subst hb
  exact getD_all_lt st h i

theorem roundKey_lt (ws : List Nat) (r : Nat) : ∀ x ∈ roundKey ws r, x < 256 := by
  intro x hx
  rw [roundKey] at hx
  obtain ⟨w, _, hb⟩ := mem_concatMap hx
  exact wordBytes_lt w x hb

theorem foldl_inv {α β : Type} (P : β → Prop) (f : β → α → β)
    (hf : ∀ b a, P b → P (f b a)) :
    ∀ (l : List α) (b : β), P b → P (l.foldl f b) := by
  intro l
  induction l with
  | nil => intro b hb; exact hb
  | cons x xs ih => intro b hb; exact ih (f b x) (hf b x hb)

theorem aesEncryptBlock_lt (key block : List Nat) :
    ∀ x ∈ aesEncryptBlock key block, x < 256 := by
  rw [aesEncryptBlock]
  exact zipXor_lt _ _ (shiftRows_lt _ (subBytes_lt _)) (roundKey_lt _ _)


theorem ctrStream_lt (key : List Nat) (j0 n : Nat) :
    ∀ x ∈ ctrStream key j0 n, x < 256 := by
  intro x hx
  rw [ctrStream] at hx
  obtain ⟨i, _, hb⟩ := mem_concatMap hx
  exact aesEncryptBlock_lt key _ x hb

theorem gcmEncrypt_ct_lt (key iv pt : List Nat) (hpt : ∀ b ∈ pt, b < 256) :
    ∀ x ∈ (gcmEncrypt key iv pt).1, x < 256 := by
  intro x hx
  exact zipXor_lt pt _ hpt (ctrStream_lt key _ _) x hx

theorem gcmEncrypt_tag_lt (key iv pt : List Nat) :
    ∀ x ∈ (gcmEncrypt key iv pt).2, x < 256 := by
  intro x hx
  exact blockToBytes_lt _ x hx

theorem gcmEncrypt_tag_length (key iv pt : List Nat) :
    (gcmEncrypt key iv pt).2.length = 16 := by
  show (gcmTag key iv (gcmEncrypt key iv pt).1).length = 16
  rw [gcmTag]
  exact blockToBytes_length _


theorem decryptData_encryptData (key iv : List Nat) (j : Json)
    (hiv : ∀ b ∈ iv, b < 256) (hivlen : iv.length = 16) :
    decryptData key (encryptData key iv j) = .ok j := by
  rcases hgcm : gcmEncrypt key iv (utf8Encode (jsonStringify j)) with ⟨ct, tag⟩
  have hct : ∀ x ∈ ct, x < 256 := by
    have h := gcmEncrypt_ct_lt key iv (utf8Encode (jsonStringify j))
      (utf8Encode_lt (jsonStringify j))
    rw [hgcm] at h
    exact h
  have htag : ∀ x ∈ tag, x < 256 := by
    have h := gcmEncrypt_tag_lt key iv (utf8Encode (jsonStringify j))
    rw [hgcm] at h
    exact h
  have htlen : tag.length = 16 := by
    have h := gcmEncrypt_tag_length key iv (utf8Encode (jsonStringify j))
    rw [hgcm] at h
    exact h
  have hdec : gcmDecrypt key iv ct tag = some (utf8Encode (jsonStringify j)) := by
    have h := gcmDecrypt_gcmEncrypt key iv (utf8Encode (jsonStringify j))
    rw [hgcm] at h
    exact h
  have hform : (encryptData key iv j).toList =
      bytesToHex iv ++ ':' :: (bytesToHex tag ++ ':' :: bytesToHex ct) := by
    rw [encryptData, hgcm]
    simp
  rw [decryptData, hform]
  rw [splitOnChar_sep_append ':' _ _ (bytesToHex_ne_colon iv hiv),
    splitOnChar_sep_append ':' _ _ (bytesToHex_ne_colon _ htag),
    splitOnChar_not_mem ':' _ (bytesToHex_ne_colon _ hct)]
  show (match hexToBytes? (bytesToHex iv), hexToBytes? (bytesToHex tag),
          hexToBytes? (bytesToHex ct) with
        | some iv, some tag, some ct =>
          if iv.length ≠ 16 then Except.error DecErr.badIvLen
          else if tag.length ≠ 16 then Except.error DecErr.badTagLen
          else
            match gcmDecrypt key iv ct tag with
            | none => Except.error DecErr.authFail
            | some pt =>
              match utf8Decode? pt with
              | none => Except.error DecErr.badUtf8
              | some cs =>
                match jsonParse (String.mk cs) with
                | none => Except.error DecErr.badJson
                | some j => Except.ok j
        | _, _, _ => Except.error DecErr.badHex) = Except.ok j
  rw [hexToBytes?_bytesToHex iv hiv, hexToBytes?_bytesToHex _ htag,
    hexToBytes?_bytesToHex _ hct]
  show (if iv.length ≠ 16 then Except.error DecErr.badIvLen
        else if tag.length ≠ 16 then Except.error DecErr.badTagLen
        else
          match gcmDecrypt key iv ct tag with
          | none => Except.error DecErr.authFail
          | some pt =>
            match utf8Decode? pt with
            | none => Except.error DecErr.badUtf8
            | some cs =>
              match jsonParse (String.mk cs) with
              | none => Except.error DecErr.badJson
              | some j => Except.ok j) = Except.ok j
  rw [if_neg (by omega), if_neg (by omega), hdec]
  show (match utf8Decode? (utf8Encode (jsonStringify j)) with
        | none => Except.error DecErr.badUtf8
        | some cs =>
          match jsonParse (String.mk cs) with
          | none => Except.error DecErr.badJson
          | some j => Except.ok j) = Except.ok j
  rw [utf8Decode?_utf8Encode]
  show (match jsonParse (String.mk (jsonStringify j).toList) with
        | none => Except.error DecErr.badJson
        | some j2 => Except.ok j2) = Except.ok j
  rw [stringMk_toList, jsonParse_jsonStringify]


/-- C3: decryption after encryption under the same key is the identity:
decryptData recovers every JSON value from encryptData's output, and
decryptBuffer recovers every byte buffer from the iv, authTag and
ciphertext produced by encryptBuffer. -/
theorem encrypt_then_decrypt_identity (key iv : List Nat) (j : Json) (buf : List Nat)
    (hiv : ∀ b ∈ iv, b < 256) (hivlen : iv.length = 16) :
    decryptData key (encryptData key iv j) = .ok j ∧
    decryptBuffer key (encryptBuffer key iv buf).2.2 (encryptBuffer key iv buf).1
      (encryptBuffer key iv buf).2.1 = some buf :=
  ⟨decryptData_encryptData key iv j hiv hivlen,
   decryptBuffer_encryptBuffer key iv buf hiv⟩

theorem encrypt_then_decrypt_identity_witness :
    (∀ b ∈ ([0, 1, 2, 3, 4, 5, 6, 7, 8, 9, 10, 11, 12, 13, 14, 15] : List Nat), b < 256) ∧
    ([0, 1, 2, 3, 4, 5, 6, 7, 8, 9, 10, 11, 12, 13, 14, 15] : List Nat).length = 16 ∧
    (decryptData (List.range 32)
        (encryptData (List.range 32) [0, 1, 2, 3, 4, 5, 6, 7, 8, 9, 10, 11, 12, 13, 14, 15]
          (Json.jnum 7)) = .ok (Json.jnum 7) ∧
     decryptBuffer (List.range 32)
        (encryptBuffer (List.range 32)
          [0, 1, 2, 3, 4, 5, 6, 7, 8, 9, 10, 11, 12, 13, 14, 15] [1, 2, 3]).2.2
        (encryptBuffer (List.range 32)
          [0, 1, 2, 3, 4, 5, 6, 7, 8, 9, 10, 11, 12, 13, 14, 15] [1, 2, 3]).1
        (encryptBuffer (List.range 32)
          [0, 1, 2, 3, 4, 5, 6, 7, 8, 9, 10, 11, 12, 13, 14, 15] [1, 2, 3]).2.1 =
          some [1, 2, 3]) :=
  ⟨by decide, by decide,
   encrypt_then_decrypt_identity (List.range 32)
     [0, 1, 2, 3, 4, 5, 6, 7, 8, 9, 10, 11, 12, 13, 14, 15] (Json.jnum 7) [1, 2, 3]
     (by decide) (by decide)⟩


theorem mod_two_xor (a b : Nat) : (a ^^^ b) % 2 = a % 2 ^^^ b % 2 := by
  have hx := Nat.mod_two_eq_zero_or_one (a ^^^ b)
  have hiff := @Nat.xor_mod_two_eq_one a b
  rcases Nat.mod_two_eq_zero_or_one a with ha | ha
  · rcases Nat.mod_two_eq_zero_or_one b with hb | hb
    · rw [ha, hb]
      show (a ^^^ b) % 2 = 0
      rw [ha, hb] at hiff
      simp only [iff_self, not_true, iff_false] at hiff
      omega
    · rw [ha, hb]
      show (a ^^^ b) % 2 = 1
      rw [hiff, ha, hb]
      omega
  · rcases Nat.mod_two_eq_zero_or_one b with hb | hb
    · rw [ha, hb]
      show (a ^^^ b) % 2 = 1
      rw [hiff, ha, hb]
      omega
    · rw [ha, hb]
      show (a ^^^ b) % 2 = 0
      rw [ha, hb] at hiff
      simp only [iff_self, not_true, iff_false] at hiff
      omega

theorem two_mul_shiftLeft (a : Nat) : 2 * a = a <<< 1 := by
  rw [Nat.shiftLeft_eq]
  omega

theorem two_mul_xor (a b : Nat) : 2 * (a ^^^ b) = 2 * a ^^^ 2 * b := by
  rw [two_mul_shiftLeft, two_mul_shiftLeft, two_mul_shiftLeft]
  apply Nat.eq_of_testBit_eq
  intro i
  simp [Nat.testBit_shiftLeft, Nat.testBit_xor, Bool.and_xor_distrib_left]

theorem clmul_eq (a b : Nat) :
    clmul a b = (if a % 2 = 1 then b else 0) ^^^ 2 * clmul (a / 2) b := by
  by_cases h : a = 0
  · subst h
    rw [clmul]
    simp [clmul]
  · rw [clmul]
    rw [dif_neg h]

theorem clmul_zero_left (b : Nat) : clmul 0 b = 0 := by
  rw [clmul]
  simp

theorem clmul_zero_right (a : Nat) : clmul a 0 = 0 := by
  induction a using Nat.strong_induction_on with
  | _ a ih =>
    by_cases h : a = 0
    · subst h; exact clmul_zero_left 0
    · rw [clmul_eq, ih (a / 2) (Nat.div_lt_self (by omega) (by omega))]
      simp

theorem clmul_one_left (b : Nat) : clmul 1 b = b := by
  rw [clmul_eq]
  simp [clmul_zero_left]

theorem two_mul_xor_one (x : Nat) : 2 * x ^^^ 1 = 2 * x + 1 := by
  apply Nat.eq_of_testBit_eq
  intro i
  match i with
  | 0 =>
    rw [Nat.testBit_zero, Nat.testBit_zero]
    have h1 : (2 * x ^^^ 1) % 2 = 1 := by
      rw [mod_two_xor]
      have h2 : 2 * x % 2 = 0 := by omega
      rw [h2]
      rfl
    have h2 : (2 * x + 1) % 2 = 1 := by omega
    rw [h1, h2]
  | i + 1 =>
    have e1 : (2 * x ^^^ 1) / 2 = x := by
      rw [Nat.xor_div_two, show 2 * x / 2 = x from by omega,
        show (1 : Nat) / 2 = 0 from rfl, Nat.xor_zero]
    have e2 : (2 * x + 1) / 2 = x := by omega
    rw [Nat.testBit_add_one, Nat.testBit_add_one, e1, e2]

theorem clmul_one_right (a : Nat) : clmul a 1 = a := by
  induction a using Nat.strong_induction_on with
  | _ a ih =>
    by_cases h : a = 0
    · subst h; exact clmul_zero_left 1
    · rw [clmul_eq, ih (a / 2) (Nat.div_lt_self (by omega) (by omega))]
      rcases Nat.mod_two_eq_zero_or_one a with hm | hm
      · rw [if_neg (by omega), Nat.zero_xor]
        omega
      · rw [if_pos hm, Nat.xor_comm, two_mul_xor_one]
        omega

theorem clmul_two_mul_left (a b : Nat) : clmul (2 * a) b = 2 * clmul a b := by
  rw [clmul_eq]
  have h1 : 2 * a % 2 = 0 := by omega
  have h2 : 2 * a / 2 = a := by omega
  rw [h1, h2]
  simp

theorem xor_left_comm (a b c : Nat) : a ^^^ (b ^^^ c) = b ^^^ (a ^^^ c) := by
  rw [← Nat.xor_assoc, Nat.xor_comm a b, Nat.xor_assoc]

theorem clmul_xor_left : ∀ s a b c, a + b ≤ s →
    clmul (a ^^^ b) c = clmul a c ^^^ clmul b c := by
  intro s
  induction s using Nat.strong_induction_on with
  | _ s ih =>
    intro a b c hs
    by_cases ha : a = 0
    · subst ha
      rw [Nat.zero_xor, clmul_zero_left, Nat.zero_xor]
    · by_cases hb : b = 0
      · subst hb
        rw [Nat.xor_zero, clmul_zero_left, Nat.xor_zero]
      · rw [clmul_eq (a ^^^ b) c, mod_two_xor, Nat.xor_div_two,
          ih (s - 1) (by omega) (a / 2) (b / 2) c (by omega),
          clmul_eq a c, clmul_eq b c, two_mul_xor]
        rcases Nat.mod_two_eq_zero_or_one a with hma | hma <;>
          rcases Nat.mod_two_eq_zero_or_one b with hmb | hmb <;>
            rw [hma, hmb] <;>
              simp [Nat.xor_assoc, Nat.xor_comm, xor_left_comm, Nat.xor_cancel_left]


theorem clmul_two_mul_right : ∀ a b, clmul a (2 * b) = 2 * clmul a b := by
  intro a
  induction a using Nat.strong_induction_on with
  | _ a ih =>
    intro b
    by_cases h : a = 0
    · subst h
      rw [clmul_zero_left, clmul_zero_left]
    · rw [clmul_eq a (2 * b), clmul_eq a b,
        ih (a / 2) (Nat.div_lt_self (by omega) (by omega)) b, two_mul_xor]
      rcases Nat.mod_two_eq_zero_or_one a with hm | hm <;> rw [hm] <;> simp

theorem clmul_xor_right : ∀ a b c, clmul a (b ^^^ c) = clmul a b ^^^ clmul a c := by
  intro a
  induction a using Nat.strong_induction_on with
  | _ a ih =>
    intro b c
    by_cases h : a = 0
    · subst h
      rw [clmul_zero_left, clmul_zero_left, clmul_zero_left]
      rfl
    · rw [clmul_eq a (b ^^^ c), clmul_eq a b, clmul_eq a c,
        ih (a / 2) (Nat.div_lt_self (by omega) (by omega)) b c, two_mul_xor]
      rcases Nat.mod_two_eq_zero_or_one a with hm | hm <;> rw [hm] <;>
        simp [Nat.xor_assoc, Nat.xor_comm, xor_left_comm, Nat.xor_cancel_left]

theorem bit_decomp (a : Nat) : 2 * (a / 2) ^^^ a % 2 = a := by
  rcases Nat.mod_two_eq_zero_or_one a with hm | hm <;> rw [hm]
  · rw [Nat.xor_zero]
    omega
  · rw [two_mul_xor_one]
    omega

theorem clmul_comm : ∀ a b, clmul a b = clmul b a := by
  intro a
  induction a using Nat.strong_induction_on with
  | _ a ih =>
    intro b
    by_cases h : a = 0
    · subst h
      rw [clmul_zero_left, clmul_zero_right]
    · rw [clmul_eq a b, ih (a / 2) (Nat.div_lt_self (by omega) (by omega)) b]
      conv_rhs => rw [← bit_decomp a]
      rw [clmul_xor_right, clmul_two_mul_right]
      rcases Nat.mod_two_eq_zero_or_one a with hm | hm <;> rw [hm]
      · rw [clmul_zero_right, if_neg (by omega), Nat.zero_xor, Nat.xor_zero]
      · rw [clmul_one_right, if_pos rfl, Nat.xor_comm]

theorem clmul_assoc : ∀ a b c, clmul (clmul a b) c = clmul a (clmul b c) := by
  intro a
  induction a using Nat.strong_induction_on with
  | _ a ih =>
    intro b c
    by_cases h : a = 0
    · subst h
      rw [clmul_zero_left, clmul_zero_left, clmul_zero_left]
    · conv_lhs => rw [clmul_eq a b]
      conv_rhs => rw [clmul_eq a (clmul b c)]
      rw [clmul_xor_left (((if a % 2 = 1 then b else 0)) + 2 * clmul (a / 2) b)
        _ _ c (by omega)]
      rw [clmul_two_mul_left, ih (a / 2) (Nat.div_lt_self (by omega) (by omega)) b c]
      rcases Nat.mod_two_eq_zero_or_one a with hm | hm <;> rw [hm]
      · rw [if_neg (by omega), if_neg (by omega), clmul_zero_left]
      · rw [if_pos rfl, if_pos rfl]


theorem clmul_two_pow_left : ∀ k b, clmul (2 ^ k) b = 2 ^ k * b := by
  intro k
  induction k with
  | zero =>
    intro b
    rw [pow_zero, clmul_one_left, one_mul]
  | succ k ih =>
    intro b
    rw [show (2 : Nat) ^ (k + 1) = 2 * 2 ^ k from by ring, clmul_two_mul_left, ih]
    ring

theorem clmul_lt : ∀ m a b n, a < 2 ^ m → b < 2 ^ n → clmul a b < 2 ^ (m + n) := by
  intro m
  induction m with
  | zero =>
    intro a b n ha hb
    have : a = 0 := by omega
    subst this
    rw [clmul_zero_left]
    exact Nat.pos_pow_of_pos _ (by omega)
  | succ m ih =>
    intro a b n ha hb
    rw [clmul_eq]
    have h1 : clmul (a / 2) b < 2 ^ (m + n) := ih (a / 2) b n (by omega) hb
    have h2 : 2 * clmul (a / 2) b < 2 ^ (m + 1 + n) := by
      rw [show m + 1 + n = m + n + 1 from by ring, pow_succ]
      omega
    have h3 : (if a % 2 = 1 then b else 0) < 2 ^ (m + 1 + n) := by
      split
      · calc b < 2 ^ n := hb
          _ ≤ 2 ^ (m + 1 + n) := Nat.pow_le_pow_right (by omega) (by omega)
      · exact Nat.pos_pow_of_pos _ (by omega)
    calc (if a % 2 = 1 then b else 0) ^^^ 2 * clmul (a / 2) b < 2 ^ (m + 1 + n) :=
        Nat.xor_lt_two_pow h3 h2
      _ = 2 ^ (m + 1 + n) := rfl

theorem testBit_ge (x i : Nat) (h : x.testBit i = true) : 2 ^ i ≤ x := by
  by_contra hc
  rw [Nat.testBit_lt_two_pow (by omega)] at h
  cases h

theorem exists_high_bit (x n : Nat) (h : 2 ^ n ≤ x) : ∃ i, n ≤ i ∧ x.testBit i = true := by
  by_contra hc
  push_neg at hc
  have : x < 2 ^ n := Nat.lt_pow_two_of_testBit x (fun i hi => by
    rcases Bool.eq_false_or_eq_true (x.testBit i) with hb | hb
    · exact absurd hb (hc i hi)
    · exact hb)
  omega

theorem clmul_ge_of_ne_zero : ∀ w b, w ≠ 0 → 2 ^ 128 ≤ b → b < 2 ^ 129 →
    2 ^ 128 ≤ clmul w b := by
  intro w
  induction w using Nat.strong_induction_on with
  | _ w ih =>
    intro b hw hb hb2
    rw [clmul_eq]
    by_cases hw2 : w / 2 = 0
    · have hw1 : w = 1 := by omega
      subst hw1
      rw [if_pos (by omega), clmul_zero_left]
      simpa using hb
    · have hrec : 2 ^ 128 ≤ clmul (w / 2) b :=
        ih (w / 2) (Nat.div_lt_self (by omega) (by omega)) b hw2 hb hb2
      have h2c : 2 ^ 129 ≤ 2 * clmul (w / 2) b := by
        have : (2 : Nat) ^ 129 = 2 * 2 ^ 128 := by ring
        omega
      obtain ⟨i, hi, hbit⟩ := exists_high_bit (2 * clmul (w / 2) b) 129 h2c
      have hxbit : ((if w % 2 = 1 then b else 0) ^^^ 2 * clmul (w / 2) b).testBit i
          = true := by
        rw [Nat.testBit_xor]
        have hlow : (if w % 2 = 1 then b else 0).testBit i = false := by
          apply Nat.testBit_lt_two_pow
          split
          · calc b < 2 ^ 129 := hb2
              _ ≤ 2 ^ i := Nat.pow_le_pow_right (by omega) hi
          · exact Nat.pos_pow_of_pos _ (by omega)
        rw [hlow, hbit]
        rfl
      calc (2 : Nat) ^ 128 ≤ 2 ^ i := Nat.pow_le_pow_right (by omega) (by omega)
        _ ≤ _ := testBit_ge _ i hxbit


theorem xor_shiftLeft_distrib (a b w : Nat) : (a ^^^ b) <<< w = a <<< w ^^^ b <<< w := by
  apply Nat.eq_of_testBit_eq
  intro i
  simp [Nat.testBit_shiftLeft, Nat.testBit_xor, Bool.and_xor_distrib_left]

theorem shiftLeft_xor_low (p u w : Nat) (hu : u < 2 ^ w) : p <<< w ^^^ u = p <<< w + u := by
  apply Nat.eq_of_testBit_eq
  intro j
  have hmul : p <<< w + u = 2 ^ w * p + u := by rw [Nat.shiftLeft_eq]; ring_nf
  rw [hmul, Nat.testBit_mul_pow_two_add p hu j, Nat.testBit_xor, Nat.testBit_shiftLeft]
  by_cases hj : j < w
  · rw [if_pos hj]
    have : ¬(j ≥ w) := by omega
    simp [this]
  · rw [if_neg hj]
    have hge : j ≥ w := by omega
    have hub : u.testBit j = false := by
      apply Nat.testBit_lt_two_pow
      calc u < 2 ^ w := hu
        _ ≤ 2 ^ j := Nat.pow_le_pow_right (by omega) hge
    simp [hge, hub]

theorem revBits_lt : ∀ w x, revBits w x < 2 ^ w := by
  intro w
  induction w with
  | zero => intro x; rw [revBits]; omega
  | succ w ih =>
    intro x
    rw [revBits]
    have h1 := ih (x / 2)
    have h2 : x % 2 ≤ 1 := by omega
    have h3 : (2 : Nat) ^ (w + 1) = 2 * 2 ^ w := by ring
    have h4 : x % 2 * 2 ^ w ≤ 2 ^ w := by
      rcases Nat.mod_two_eq_zero_or_one x with h | h <;> rw [h] <;> omega
    omega

theorem mul_pow_shiftLeft (p w : Nat) : p * 2 ^ w = p <<< w := by
  rw [Nat.shiftLeft_eq]

theorem revBits_xor : ∀ w a b, revBits w (a ^^^ b) = revBits w a ^^^ revBits w b := by
  intro w
  induction w with
  | zero => intro a b; rw [revBits, revBits, revBits]; rfl
  | succ w ih =>
    intro a b
    rw [revBits, revBits, revBits, mod_two_xor, Nat.xor_div_two, ih (a / 2) (b / 2)]
    rw [mul_pow_shiftLeft, mul_pow_shiftLeft, mul_pow_shiftLeft]
    rw [← shiftLeft_xor_low _ _ _
        (Nat.xor_lt_two_pow (revBits_lt w (a / 2)) (revBits_lt w (b / 2))),
      ← shiftLeft_xor_low _ _ _ (revBits_lt w (a / 2)),
      ← shiftLeft_xor_low _ _ _ (revBits_lt w (b / 2))]
    rw [xor_shiftLeft_distrib]
    simp [Nat.xor_assoc, Nat.xor_comm, xor_left_comm]

theorem revBits_eq_zero : ∀ w x, x < 2 ^ w → revBits w x = 0 → x = 0 := by
  intro w
  induction w with
  | zero => intro x hx _; omega
  | succ w ih =>
    intro x hx h
    rw [revBits] at h
    have h1 : x % 2 * 2 ^ w = 0 ∧ revBits w (x / 2) = 0 := by omega
    have h2 : x % 2 = 0 := by
      have := h1.1
      have hp : (2 : Nat) ^ w > 0 := Nat.pos_pow_of_pos _ (by omega)
      rcases Nat.mod_two_eq_zero_or_one x with hh | hh
      · exact hh
      · rw [hh] at this; omega
    have h3 : x / 2 = 0 := by
      apply ih (x / 2) _ h1.2
      have : (2 : Nat) ^ (w + 1) = 2 * 2 ^ w := by ring
      omega
    omega


theorem gcmP_lt : gcmP < 2 ^ 129 := by
  rw [gcmP]
  have : (2 : Nat) ^ 129 = 2 * 2 ^ 128 := by ring
  omega

theorem gcmP_testBit_128 : gcmP.testBit 128 = true := by
  rw [gcmP, show (2 : Nat) ^ 128 + 135 = 2 ^ 128 * 1 + 135 from by ring,
    Nat.testBit_mul_pow_two_add 1 (show 135 < 2 ^ 128 from by norm_num) 128]
  simp

theorem pmodStep_congr (c k : Nat) : ∃ m, pmodStep c k = c ^^^ clmul m gcmP := by
  rw [pmodStep]
  split
  · exact ⟨2 ^ k, by
      rw [clmul_two_pow_left, Nat.shiftLeft_eq, Nat.mul_comm]⟩
  · exact ⟨0, by rw [clmul_zero_left, Nat.xor_zero]⟩


theorem pmodAux_congr : ∀ k c, ∃ m, pmodAux k c = c ^^^ clmul m gcmP := by
  intro k
  induction k with
  | zero => intro c; exact ⟨0, by rw [pmodAux, clmul_zero_left, Nat.xor_zero]⟩
  | succ k ih =>
    intro c
    rw [pmodAux]
    obtain ⟨m1, h1⟩ := ih (pmodStep c k)
    obtain ⟨m2, h2⟩ := pmodStep_congr c k
    refine ⟨m2 ^^^ m1, ?_⟩
    rw [h1, h2, Nat.xor_assoc, ← clmul_xor_left (m2 + m1) m2 m1 gcmP (by omega)]

theorem pmodP_congr (c : Nat) : ∃ m, pmodP c = c ^^^ clmul m gcmP :=
  pmodAux_congr 128 c

theorem pmodStep_lt (c k : Nat) (hc : c < 2 ^ (128 + k + 1)) :
    pmodStep c k < 2 ^ (128 + k) := by
  rw [pmodStep]
  split
  · rename_i ht
    apply Nat.lt_pow_two_of_testBit
    intro i hi
    rw [Nat.testBit_xor]
    by_cases hie : i = 128 + k
    · subst hie
      rw [ht, Nat.testBit_shiftLeft, show 128 + k - k = 128 from by omega,
        gcmP_testBit_128]
      simp
    · have hc1 : c.testBit i = false := by
        apply Nat.testBit_lt_two_pow
        calc c < 2 ^ (128 + k + 1) := hc
          _ ≤ 2 ^ i := Nat.pow_le_pow_right (by omega) (by omega)
      have hc2 : (gcmP <<< k).testBit i = false := by
        rw [Nat.testBit_shiftLeft]
        have : gcmP.testBit (i - k) = false := by
          apply Nat.testBit_lt_two_pow
          calc gcmP < 2 ^ 129 := gcmP_lt
            _ ≤ 2 ^ (i - k) := Nat.pow_le_pow_right (by omega) (by omega)
        simp [this]
      rw [hc1, hc2]
      rfl
  · rename_i ht
    apply Nat.lt_pow_two_of_testBit
    intro i hi
    by_cases hie : i = 128 + k
    · subst hie
      simpa using ht
    · apply Nat.testBit_lt_two_pow
      calc c < 2 ^ (128 + k + 1) := hc
        _ ≤ 2 ^ i := Nat.pow_le_pow_right (by omega) (by omega)


theorem pmodAux_lt : ∀ k c, c < 2 ^ (128 + k) → pmodAux k c < 2 ^ 128 := by
  intro k
  induction k with
  | zero => intro c hc; rw [pmodAux]; simpa using hc
  | succ k ih =>
    intro c hc
    rw [pmodAux]
    exact ih (pmodStep c k) (pmodStep_lt c k hc)

theorem pmodP_lt (c : Nat) (hc : c < 2 ^ 256) : pmodP c < 2 ^ 128 :=
  pmodAux_lt 128 c (by norm_num at hc ⊢; omega)

theorem congr_unique (x y m : Nat) (hx : x < 2 ^ 128) (hy : y < 2 ^ 128)
    (h : x ^^^ y = clmul m gcmP) : x = y := by
  by_cases hm : m = 0
  · subst hm
    rw [clmul_zero_left] at h
    have := Nat.xor_cancel_left x y
    rw [show x ^^^ (x ^^^ y) = (x ^^^ x) ^^^ y from by rw [Nat.xor_assoc]] at this
    rw [Nat.xor_self, Nat.zero_xor] at this
    calc x = x ^^^ 0 := by rw [Nat.xor_zero]
      _ = x ^^^ (x ^^^ y) := by rw [h]
      _ = y := Nat.xor_cancel_left x y
  · have hge : 2 ^ 128 ≤ clmul m gcmP :=
      clmul_ge_of_ne_zero m gcmP hm (by rw [gcmP]; omega) gcmP_lt
    have hlt : x ^^^ y < 2 ^ 128 := Nat.xor_lt_two_pow hx hy
    omega

theorem pmodP_xor (a b : Nat) (ha : a < 2 ^ 256) (hb : b < 2 ^ 256) :
    pmodP (a ^^^ b) = pmodP a ^^^ pmodP b := by
  obtain ⟨m1, h1⟩ := pmodP_congr (a ^^^ b)
  obtain ⟨m2, h2⟩ := pmodP_congr a
  obtain ⟨m3, h3⟩ := pmodP_congr b
  apply congr_unique _ _ (m1 ^^^ (m2 ^^^ m3))
    (pmodP_lt _ (Nat.xor_lt_two_pow ha hb))
    (Nat.xor_lt_two_pow (pmodP_lt _ ha) (pmodP_lt _ hb))
  rw [h1, h2, h3]
  rw [clmul_xor_left (m1 + (m2 ^^^ m3)) m1 (m2 ^^^ m3) gcmP (by omega),
    clmul_xor_left (m2 + m3) m2 m3 gcmP (by omega)]
  simp [Nat.xor_assoc, Nat.xor_comm, xor_left_comm, Nat.xor_cancel_left]


theorem rev128_lt (x : Nat) : rev128 x < 2 ^ 128 := revBits_lt 128 x

theorem rev128_xor (a b : Nat) : rev128 (a ^^^ b) = rev128 a ^^^ rev128 b :=
  revBits_xor 128 a b

theorem rev128_eq_zero (x : Nat) (hx : x < 2 ^ 128) (h : rev128 x = 0) : x = 0 :=
  revBits_eq_zero 128 x hx h

theorem gfmul_lt (x y : Nat) : gfmul x y < 2 ^ 128 := by
  rw [gfmul]
  exact rev128_lt _

theorem clmul_rev_lt (x y : Nat) : clmul (rev128 x) (rev128 y) < 2 ^ 256 := by
  have h := clmul_lt 128 (rev128 x) (rev128 y) 128 (rev128_lt x) (rev128_lt y)
  norm_num at h ⊢
  omega

theorem gfmul_xor_left (x1 x2 y : Nat) :
    gfmul (x1 ^^^ x2) y = gfmul x1 y ^^^ gfmul x2 y := by
  rw [gfmul, gfmul, gfmul, rev128_xor,
    clmul_xor_left (rev128 x1 + rev128 x2) _ _ _ (by omega),
    pmodP_xor _ _ (clmul_rev_lt x1 y) (clmul_rev_lt x2 y), rev128_xor]

theorem gfmul_ne_zero (e h : Nat) (he : e ≠ 0) (helt : e < 2 ^ 128)
    (hbez : ∃ u v, clmul u gcmP ^^^ clmul v (rev128 h) = 1) :
    gfmul e h ≠ 0 := by
  obtain ⟨u, v, huv⟩ := hbez
  intro hzero
  rw [gfmul] at hzero
  have hz : pmodP (clmul (rev128 e) (rev128 h)) = 0 :=
    rev128_eq_zero _ (pmodP_lt _ (clmul_rev_lt e h)) hzero
  obtain ⟨m, hm⟩ := pmodP_congr (clmul (rev128 e) (rev128 h))
  rw [hz] at hm
  have hzm : clmul (rev128 e) (rev128 h) = clmul m gcmP := by
    have h0 : clmul (rev128 e) (rev128 h) ^^^ clmul m gcmP = 0 := hm.symm
    calc clmul (rev128 e) (rev128 h)
        = clmul (rev128 e) (rev128 h) ^^^ 0 := (Nat.xor_zero _).symm
      _ = clmul (rev128 e) (rev128 h) ^^^
          (clmul (rev128 e) (rev128 h) ^^^ clmul m gcmP) := by
            rw [h0]
      _ = clmul m gcmP := Nat.xor_cancel_left _ _
  have hre : rev128 e ≠ 0 := fun h0 => he (rev128_eq_zero e helt h0)
  have key : rev128 e = clmul (clmul (rev128 e) u ^^^ clmul v m) gcmP := by
    calc rev128 e = clmul (rev128 e) 1 := by rw [clmul_one_right]
      _ = clmul (rev128 e) (clmul u gcmP ^^^ clmul v (rev128 h)) := by rw [huv]
      _ = clmul (rev128 e) (clmul u gcmP) ^^^ clmul (rev128 e) (clmul v (rev128 h)) :=
          clmul_xor_right _ _ _
      _ = clmul (clmul (rev128 e) u) gcmP ^^^ clmul v (clmul (rev128 e) (rev128 h)) := by
          rw [← clmul_assoc]
          rw [show clmul (rev128 e) (clmul v (rev128 h)) =
            clmul (clmul (rev128 e) v) (rev128 h) from (clmul_assoc _ _ _).symm]
          rw [show clmul (rev128 e) v = clmul v (rev128 e) from clmul_comm _ _]
          rw [clmul_assoc v (rev128 e) (rev128 h)]
      _ = clmul (clmul (rev128 e) u) gcmP ^^^ clmul (clmul v m) gcmP := by
          rw [hzm, ← clmul_assoc]
      _ = clmul (clmul (rev128 e) u ^^^ clmul v m) gcmP :=
          (clmul_xor_left (clmul (rev128 e) u + clmul v m) _ _ _ (by omega)).symm
  by_cases hw : clmul (rev128 e) u ^^^ clmul v m = 0
  · rw [hw, clmul_zero_left] at key
    exact hre key
  · have hge := clmul_ge_of_ne_zero _ gcmP hw (by rw [gcmP]; omega) gcmP_lt
    have hlt := rev128_lt e
    omega


theorem ghash_acc_lt (h : Nat) (blocks : List Nat) (y : Nat) (hy : y < 2 ^ 128) :
    blocks.foldl (fun y b => gfmul (y ^^^ b) h) y < 2 ^ 128 :=
  foldl_inv (· < 2 ^ 128) _ (fun y2 b _ => gfmul_lt (y2 ^^^ b) h) blocks y hy

theorem ghash_lt (h : Nat) (blocks : List Nat) : ghash h blocks < 2 ^ 128 :=
  ghash_acc_lt h blocks 0 (by norm_num)

theorem xor_pair_cancel (y b b' : Nat) : (y ^^^ b) ^^^ (y ^^^ b') = b ^^^ b' := by
  rw [Nat.xor_assoc, xor_left_comm b y b', Nat.xor_cancel_left]

theorem xor_pair_cancel_right (y y' c : Nat) : (y ^^^ c) ^^^ (y' ^^^ c) = y ^^^ y' := by
  rw [Nat.xor_comm y c, Nat.xor_comm y' c]
  exact xor_pair_cancel c y y'

theorem gfmul_step_ne (h y y' c : Nat) (hy : y < 2 ^ 128) (hy' : y' < 2 ^ 128)
    (hne : y ≠ y')
    (hbez : ∃ u v, clmul u gcmP ^^^ clmul v (rev128 h) = 1) :
    gfmul (y ^^^ c) h ≠ gfmul (y' ^^^ c) h := by
  intro heq
  have hx : gfmul (y ^^^ c) h ^^^ gfmul (y' ^^^ c) h = 0 := by
    rw [heq, Nat.xor_self]
  rw [← gfmul_xor_left, xor_pair_cancel_right] at hx
  exact gfmul_ne_zero (y ^^^ y') h (Nat.xor_ne_zero.2 hne)
    (Nat.xor_lt_two_pow hy hy') hbez hx

theorem fold_ne (h : Nat)
    (hbez : ∃ u v, clmul u gcmP ^^^ clmul v (rev128 h) = 1) :
    ∀ (post : List Nat) (y y' : Nat), y < 2 ^ 128 → y' < 2 ^ 128 → y ≠ y' →
      post.foldl (fun y b => gfmul (y ^^^ b) h) y ≠
        post.foldl (fun y b => gfmul (y ^^^ b) h) y' := by
  intro post
  induction post with
  | nil => intro y y' _ _ hne; exact hne
  | cons c post ih =>
    intro y y' hy hy' hne
    rw [List.foldl_cons, List.foldl_cons]
    exact ih (gfmul (y ^^^ c) h) (gfmul (y' ^^^ c) h) (gfmul_lt _ _) (gfmul_lt _ _)
      (gfmul_step_ne h y y' c hy hy' hne hbez)

theorem gfmul_step_ne_arg (h y b b' : Nat) (hb : b < 2 ^ 128) (hb' : b' < 2 ^ 128)
    (hne : b ≠ b')
    (hbez : ∃ u v, clmul u gcmP ^^^ clmul v (rev128 h) = 1) :
    gfmul (y ^^^ b) h ≠ gfmul (y ^^^ b') h := by
  intro heq
  have hx : gfmul (y ^^^ b) h ^^^ gfmul (y ^^^ b') h = 0 := by
    rw [heq, Nat.xor_self]
  rw [← gfmul_xor_left, xor_pair_cancel] at hx
  exact gfmul_ne_zero (b ^^^ b') h (Nat.xor_ne_zero.2 hne)
    (Nat.xor_lt_two_pow hb hb') hbez hx

theorem ghash_flip_ne (h : Nat) (pre post : List Nat) (b b' : Nat)
    (hb : b < 2 ^ 128) (hb' : b' < 2 ^ 128) (hne : b ≠ b')
    (hbez : ∃ u v, clmul u gcmP ^^^ clmul v (rev128 h) = 1) :
    ghash h (pre ++ b :: post) ≠ ghash h (pre ++ b' :: post) := by
  rw [ghash, ghash, List.foldl_append, List.foldl_append, List.foldl_cons,
    List.foldl_cons]
  exact fold_ne h hbez post _ _ (gfmul_lt _ _) (gfmul_lt _ _)
    (gfmul_step_ne_arg h _ b b' hb hb' hne hbez)


theorem bytesToBlock_acc : ∀ (bs : List Nat) (a : Nat),
    bs.foldl (fun a b => a * 256 + b) a = a * 256 ^ bs.length + bytesToBlock bs := by
  intro bs
  induction bs with
  | nil => intro a; simp [bytesToBlock]
  | cons b bs ih =>
    intro a
    rw [List.foldl_cons, ih (a * 256 + b)]
    rw [show bytesToBlock (b :: bs) = (b :: bs).foldl (fun a b => a * 256 + b) 0 from rfl]
    rw [List.foldl_cons, ih (0 * 256 + b)]
    simp [List.length_cons]
    ring

theorem bytesToBlock_cons (b : Nat) (bs : List Nat) :
    bytesToBlock (b :: bs) = b * 256 ^ bs.length + bytesToBlock bs := by
  rw [show bytesToBlock (b :: bs) = (b :: bs).foldl (fun a b => a * 256 + b) 0 from rfl,
    List.foldl_cons, bytesToBlock_acc]
  simp

theorem bytesToBlock_lt : ∀ bs : List Nat, (∀ b ∈ bs, b < 256) →
    bytesToBlock bs < 256 ^ bs.length := by
  intro bs
  induction bs with
  | nil => intro _; rw [show bytesToBlock [] = 0 from rfl]; simp
  | cons b bs ih =>
    intro h
    rw [bytesToBlock_cons]
    have h1 : b < 256 := h b (List.mem_cons_self b bs)
    have h2 := ih (fun x hx => h x (List.mem_cons_of_mem b hx))
    have h3 : (256 : Nat) ^ (b :: bs).length = 256 * 256 ^ bs.length := by
      rw [List.length_cons]
      ring
    have h4 : b * 256 ^ bs.length ≤ 255 * 256 ^ bs.length :=
      Nat.mul_le_mul_right _ (by omega)
    omega

theorem digit_split (P x y A B : Nat) (hP : 0 < P) (hA : A < P) (hB : B < P)
    (h : x * P + A = y * P + B) : x = y ∧ A = B := by
  have e1 : (P * x + A) / P = x := by
    rw [Nat.mul_add_div hP, Nat.div_eq_of_lt hA, Nat.add_zero]
  have e2 : (P * y + B) / P = y := by
    rw [Nat.mul_add_div hP, Nat.div_eq_of_lt hB, Nat.add_zero]
  rw [Nat.mul_comm x P, Nat.mul_comm y P] at h
  have h1 : x = y := by rw [← e1, ← e2, h]
  subst h1
  exact ⟨rfl, by omega⟩

theorem bytesToBlock_inj : ∀ (xs ys : List Nat), xs.length = ys.length →
    (∀ b ∈ xs, b < 256) → (∀ b ∈ ys, b < 256) →
    bytesToBlock xs = bytesToBlock ys → xs = ys := by
  intro xs
  induction xs with
  | nil =>
    intro ys hlen _ _ _
    cases ys with
    | nil => rfl
    | cons y ys => simp at hlen
  | cons x xs ih =>
    intro ys hlen hx hy heq
    cases ys with
    | nil => simp at hlen
    | cons y ys =>
      have hlen2 : xs.length = ys.length := by simpa using hlen
      rw [bytesToBlock_cons, bytesToBlock_cons, hlen2] at heq
      have hbx := bytesToBlock_lt xs (fun b hb => hx b (List.mem_cons_of_mem x hb))
      have hby := bytesToBlock_lt ys (fun b hb => hy b (List.mem_cons_of_mem y hb))
      rw [hlen2] at hbx
      obtain ⟨hxy, hab⟩ := digit_split (256 ^ ys.length) x y _ _
        (Nat.pos_pow_of_pos _ (by omega)) hbx hby heq
      subst hxy
      rw [ih ys hlen2 (fun b hb => hx b (List.mem_cons_of_mem x hb))
        (fun b hb => hy b (List.mem_cons_of_mem x hb)) hab]


theorem toBlocks_eq (l : List Nat) (hl : l ≠ []) :
    toBlocks l = bytesToBlock (l.take 16 ++ List.replicate (16 - (l.take 16).length) 0)
      :: toBlocks (l.drop 16) := by
  cases l with
  | nil => exact absurd rfl hl
  | cons b bs => rw [toBlocks]

theorem getD_take (l : List Nat) (i n : Nat) (hi : i < n) :
    (l.take n).getD i 0 = l.getD i 0 := by
  rw [List.getD_eq_getElem?_getD, List.getD_eq_getElem?_getD, List.getElem?_take]
  rw [if_pos hi]

theorem getD_drop (l : List Nat) (i n : Nat) :
    (l.drop n).getD i 0 = l.getD (n + i) 0 := by
  rw [List.getD_eq_getElem?_getD, List.getD_eq_getElem?_getD, List.getElem?_drop]

theorem set_ne_self (l : List Nat) (i : Nat) (v : Nat) (hi : i < l.length)
    (hv : v ≠ l.getD i 0) : l.set i v ≠ l := by
  intro h
  apply hv
  have h1 : (l.set i v).getD i 0 = l.getD i 0 := by rw [h]
  rw [List.getD_eq_getElem?_getD, List.getElem?_set_self hi] at h1
  simpa using h1


theorem all_lt_set (l : List Nat) (i v : Nat) (h : ∀ b ∈ l, b < 256) (hv : v < 256) :
    ∀ b ∈ l.set i v, b < 256 := by
  intro b hb
  rcases List.mem_or_eq_of_mem_set hb with h1 | h1
  · exact h b h1
  · subst h1; exact hv

theorem padded_lt (chunk : List Nat) (hlen : chunk.length ≤ 16)
    (hb : ∀ b ∈ chunk, b < 256) :
    bytesToBlock (chunk ++ List.replicate (16 - chunk.length) 0) < 2 ^ 128 := by
  have hl : (chunk ++ List.replicate (16 - chunk.length) 0).length = 16 := by
    simp [List.length_append, List.length_replicate]
    omega
  have hall : ∀ b ∈ chunk ++ List.replicate (16 - chunk.length) 0, b < 256 := by
    intro b hbm
    rcases List.mem_append.mp hbm with h1 | h1
    · exact hb b h1
    · rw [List.eq_of_mem_replicate h1]
      omega
  have := bytesToBlock_lt _ hall
  rw [hl] at this
  calc bytesToBlock _ < 256 ^ 16 := this
    _ = 2 ^ 128 := by norm_num

theorem toBlocks_set_flip : ∀ (n : Nat) (l : List Nat) (i v : Nat), l.length ≤ n →
    i < l.length → (∀ b ∈ l, b < 256) → v < 256 → v ≠ l.getD i 0 →
    ∃ pre b b' post, toBlocks l = pre ++ b :: post ∧
      toBlocks (l.set i v) = pre ++ b' :: post ∧ b ≠ b' ∧ b < 2 ^ 128 ∧ b' < 2 ^ 128 := by
  intro n
  induction n using Nat.strong_induction_on with
  | _ n ih =>
    intro l i v hn hi hb hv hne
    have hlnil : l ≠ [] := by
      intro h; subst h; simp at hi
    have hsnil : l.set i v ≠ [] := by
      intro h
      have h2 : (l.set i v).length = 0 := by rw [h]; rfl
      rw [List.length_set] at h2
      omega
    by_cases hc : i < 16
    · -- flip in the first chunk
      refine ⟨[],
        bytesToBlock (l.take 16 ++ List.replicate (16 - (l.take 16).length) 0),
        bytesToBlock ((l.take 16).set i v ++
          List.replicate (16 - ((l.take 16).set i v).length) 0),
        toBlocks (l.drop 16), ?_, ?_, ?_, ?_, ?_⟩
      · rw [toBlocks_eq l hlnil]
        rfl
      · rw [toBlocks_eq _ hsnil, List.set_take,
          List.drop_set, if_pos hc]
        rfl
      · intro heq
        have htl : (l.take 16).length ≤ 16 := by simp
        have hchl : ((l.take 16).set i v).length = (l.take 16).length := List.length_set _ _ _
        have hinj := bytesToBlock_inj _ _
          (by rw [List.length_append, List.length_append, hchl])
          (by
            intro b hb2
            rcases List.mem_append.mp hb2 with h1 | h1
            · exact all_lt_take l hb 16 b h1
            · rw [List.eq_of_mem_replicate h1]; omega)
          (by
            intro b hb2
            rcases List.mem_append.mp hb2 with h1 | h1
            · exact all_lt_set _ i v (all_lt_take l hb 16) hv b h1
            · rw [List.eq_of_mem_replicate h1]; omega)
          heq
        have happ := List.append_inj_left hinj (by rw [hchl])
        have hset : (l.take 16).set i v ≠ l.take 16 := by
          apply set_ne_self _ i v
          · rw [List.length_take]
            omega
          · rw [getD_take l i 16 hc]
            exact hne
        exact hset happ.symm
      · exact padded_lt _ (by simp) (all_lt_take l hb 16)
      · exact padded_lt _ (by rw [List.length_set]; simp)
          (all_lt_set _ i v (all_lt_take l hb 16) hv)
    · -- flip beyond the first chunk: recurse on the tail
      have hlen16 : 16 ≤ l.length := by omega
      obtain ⟨pre, b, b', post, h1, h2, h3, h4, h5⟩ :=
        ih (n - 16) (by omega) (l.drop 16) (i - 16) v
          (by rw [List.length_drop]; omega)
          (by rw [List.length_drop]; omega)
          (all_lt_drop l hb 16) (by omega)
          (by rw [getD_drop, show 16 + (i - 16) = i from by omega]; exact hne)
      refine ⟨bytesToBlock (l.take 16 ++ List.replicate (16 - (l.take 16).length) 0)
        :: pre, b, b', post, ?_, ?_, h3, h4, h5⟩
      · rw [toBlocks_eq l hlnil, h1]
        rfl
      · rw [toBlocks_eq _ hsnil, List.set_take, List.drop_set, if_neg hc,
          List.length_set]
        rw [show (l.take 16).set i v = l.take 16 from
          List.set_eq_of_length_le (by rw [List.length_take]; omega)]
        rw [h2]
        rfl


theorem bytesToBlock_blockToBytes (n : Nat) (h : n < 2 ^ 128) :
    bytesToBlock (blockToBytes n) = n := by
  show bytesToBlock ((List.range 16).map (fun i => n / 2 ^ (8 * (15 - i)) % 256)) = n
  rw [show List.range 16 = [0, 1, 2, 3, 4, 5, 6, 7, 8, 9, 10, 11, 12, 13, 14, 15] from rfl]
  simp only [List.map_cons, List.map_nil]
  show List.foldl (fun a b => a * 256 + b) 0 _ = n
  simp only [List.foldl_cons, List.foldl_nil]
  simp only [Nat.reduceSub, Nat.reduceMul]
  have g15 : 0 * 256 + n / 2 ^ 120 % 256 = n / 2 ^ 120 := by omega
  rw [g15]
  have c14 : n / 2 ^ 120 * 256 + n / 2 ^ 112 % 256 = n / 2 ^ 112 := by omega
  rw [c14]
  have c13 : n / 2 ^ 112 * 256 + n / 2 ^ 104 % 256 = n / 2 ^ 104 := by omega
  rw [c13]
  have c12 : n / 2 ^ 104 * 256 + n / 2 ^ 96 % 256 = n / 2 ^ 96 := by omega
  rw [c12]
  have c11 : n / 2 ^ 96 * 256 + n / 2 ^ 88 % 256 = n / 2 ^ 88 := by omega
  rw [c11]
  have c10 : n / 2 ^ 88 * 256 + n / 2 ^ 80 % 256 = n / 2 ^ 80 := by omega
  rw [c10]
  have c9 : n / 2 ^ 80 * 256 + n / 2 ^ 72 % 256 = n / 2 ^ 72 := by omega
  rw [c9]
  have c8 : n / 2 ^ 72 * 256 + n / 2 ^ 64 % 256 = n / 2 ^ 64 := by omega
  rw [c8]
  have c7 : n / 2 ^ 64 * 256 + n / 2 ^ 56 % 256 = n / 2 ^ 56 := by omega
  rw [c7]
  have c6 : n / 2 ^ 56 * 256 + n / 2 ^ 48 % 256 = n / 2 ^ 48 := by omega
  rw [c6]
  have c5 : n / 2 ^ 48 * 256 + n / 2 ^ 40 % 256 = n / 2 ^ 40 := by omega
  rw [c5]
  have c4 : n / 2 ^ 40 * 256 + n / 2 ^ 32 % 256 = n / 2 ^ 32 := by omega
  rw [c4]
  have c3 : n / 2 ^ 32 * 256 + n / 2 ^ 24 % 256 = n / 2 ^ 24 := by omega
  rw [c3]
  have c2 : n / 2 ^ 24 * 256 + n / 2 ^ 16 % 256 = n / 2 ^ 16 := by omega
  rw [c2]
  have c1 : n / 2 ^ 16 * 256 + n / 2 ^ 8 % 256 = n / 2 ^ 8 := by omega
  rw [c1]
  have c0 : n / 2 ^ 8 * 256 + n / 2 ^ 0 % 256 = n / 2 ^ 0 := by omega
  rw [c0]
  exact Nat.div_one n

theorem blockToBytes_inj (n m : Nat) (hn : n < 2 ^ 128) (hm : m < 2 ^ 128)
    (h : blockToBytes n = blockToBytes m) : n = m := by
  rw [← bytesToBlock_blockToBytes n hn, ← bytesToBlock_blockToBytes m hm, h]

theorem gcmTag_flip_ne (key iv ct : List Nat) (i k : Nat)
    (hi : i < ct.length) (hk : k < 8) (hct : ∀ b ∈ ct, b < 256)
    (hbez : ∃ u v, clmul u gcmP ^^^ clmul v (rev128 (gcmH key)) = 1) :
    gcmTag key iv (ct.set i (ct.getD i 0 ^^^ 2 ^ k)) ≠ gcmTag key iv ct := by
  have hgd : ct.getD i 0 < 256 := getD_all_lt ct hct i
  have h2k : (2 : Nat) ^ k < 256 := by
    calc (2 : Nat) ^ k < 2 ^ 8 := Nat.pow_lt_pow_right (by omega) hk
      _ = 256 := by norm_num
  have hvlt : ct.getD i 0 ^^^ 2 ^ k < 256 := xor_lt_256 hgd h2k
  have hvne : ct.getD i 0 ^^^ 2 ^ k ≠ ct.getD i 0 := by
    intro h
    have h1 : ct.getD i 0 ^^^ (ct.getD i 0 ^^^ 2 ^ k) = ct.getD i 0 ^^^ ct.getD i 0 := by
      rw [h]
    rw [Nat.xor_cancel_left, Nat.xor_self] at h1
    have : (2 : Nat) ^ k > 0 := Nat.pos_pow_of_pos _ (by omega)
    omega
  obtain ⟨pre, b, b', post, h1, h2, h3, h4, h5⟩ :=
    toBlocks_set_flip ct.length ct i (ct.getD i 0 ^^^ 2 ^ k) (le_refl _) hi hct hvlt hvne
  rw [gcmTag, gcmTag, List.length_set, h1, h2]
  intro heq
  have hgne : ghash (gcmH key) ((pre ++ b' :: post) ++ [lenBlock ct.length]) ≠
      ghash (gcmH key) ((pre ++ b :: post) ++ [lenBlock ct.length]) := by
    rw [List.append_assoc, List.append_assoc, List.cons_append, List.cons_append]
    exact ghash_flip_ne (gcmH key) pre (post ++ [lenBlock ct.length]) b' b h5 h4
      (fun hx => h3 hx.symm) hbez
  apply hgne
  have hx1 := blockToBytes_inj _ _
    (Nat.xor_lt_two_pow (ghash_lt _ _)
      (show bytesToBlock (aesEncryptBlock key (blockToBytes (gcmJ0 key iv))) < 2 ^ 128 from by
        have hlen := aesEncryptBlock_length key (blockToBytes (gcmJ0 key iv))
        have := bytesToBlock_lt (aesEncryptBlock key (blockToBytes (gcmJ0 key iv)))
          (aesEncryptBlock_lt key _)
        rw [hlen] at this
        calc bytesToBlock _ < 256 ^ 16 := this
          _ = 2 ^ 128 := by norm_num))
    (Nat.xor_lt_two_pow (ghash_lt _ _)
      (show bytesToBlock (aesEncryptBlock key (blockToBytes (gcmJ0 key iv))) < 2 ^ 128 from by
        have hlen := aesEncryptBlock_length key (blockToBytes (gcmJ0 key iv))
        have := bytesToBlock_lt (aesEncryptBlock key (blockToBytes (gcmJ0 key iv)))
          (aesEncryptBlock_lt key _)
        rw [hlen] at this
        calc bytesToBlock _ < 256 ^ 16 := this
          _ = 2 ^ 128 := by norm_num))
    heq
  calc ghash (gcmH key) ((pre ++ b' :: post) ++ [lenBlock ct.length])
      = (ghash (gcmH key) ((pre ++ b' :: post) ++ [lenBlock ct.length]) ^^^
          bytesToBlock (aesEncryptBlock key (blockToBytes (gcmJ0 key iv)))) ^^^
          bytesToBlock (aesEncryptBlock key (blockToBytes (gcmJ0 key iv))) := by
        rw [Nat.xor_cancel_right]
    _ = (ghash (gcmH key) ((pre ++ b :: post) ++ [lenBlock ct.length]) ^^^
          bytesToBlock (aesEncryptBlock key (blockToBytes (gcmJ0 key iv)))) ^^^
          bytesToBlock (aesEncryptBlock key (blockToBytes (gcmJ0 key iv))) := by
        rw [hx1]
    _ = ghash (gcmH key) ((pre ++ b :: post) ++ [lenBlock ct.length]) := by
        rw [Nat.xor_cancel_right]


theorem xor_pow_ne (x k : Nat) : x ^^^ 2 ^ k ≠ x := by
  intro h
  have h1 : x ^^^ (x ^^^ 2 ^ k) = x ^^^ x := by rw [h]
  rw [Nat.xor_cancel_left, Nat.xor_self] at h1
  have : (2 : Nat) ^ k > 0 := Nat.pos_pow_of_pos _ (by omega)
  omega

theorem gcmTag_length (key iv ct : List Nat) : (gcmTag key iv ct).length = 16 := by
  rw [gcmTag]
  exact blockToBytes_length _

theorem gcmTag_lt (key iv ct : List Nat) : ∀ b ∈ gcmTag key iv ct, b < 256 := by
  rw [gcmTag]
  exact blockToBytes_lt _

theorem gcmDecrypt_ct_flip (key iv pt : List Nat) (i k : Nat)
    (hi : i < (gcmEncrypt key iv pt).1.length) (hk : k < 8)
    (hpt : ∀ b ∈ pt, b < 256)
    (hbez : ∃ u v, clmul u gcmP ^^^ clmul v (rev128 (gcmH key)) = 1) :
    gcmDecrypt key iv
      ((gcmEncrypt key iv pt).1.set i ((gcmEncrypt key iv pt).1.getD i 0 ^^^ 2 ^ k))
      (gcmEncrypt key iv pt).2 = none := by
  rw [gcmDecrypt, if_neg]
  rw [show (gcmEncrypt key iv pt).2 = gcmTag key iv (gcmEncrypt key iv pt).1 from rfl]
  exact gcmTag_flip_ne key iv (gcmEncrypt key iv pt).1 i k hi hk
    (gcmEncrypt_ct_lt key iv pt hpt) hbez

theorem gcmDecrypt_tag_flip (key iv ct : List Nat) (t k : Nat)
    (ht : t < 16) (hk : k < 8) :
    gcmDecrypt key iv ct
      ((gcmTag key iv ct).set t ((gcmTag key iv ct).getD t 0 ^^^ 2 ^ k)) = none := by
  rw [gcmDecrypt, if_neg]
  intro h
  have := set_ne_self (gcmTag key iv ct) t ((gcmTag key iv ct).getD t 0 ^^^ 2 ^ k)
    (by rw [gcmTag_length]; omega) (xor_pow_ne _ k)
  exact this h.symm

theorem decryptData_parts (key iv tag ct : List Nat)
    (hiv : ∀ b ∈ iv, b < 256) (htag : ∀ b ∈ tag, b < 256) (hct : ∀ b ∈ ct, b < 256)
    (hivlen : iv.length = 16) (htlen : tag.length = 16) :
    decryptData key (String.mk (bytesToHex iv ++ ':' :: bytesToHex tag ++ ':' ::
        bytesToHex ct)) =
      match gcmDecrypt key iv ct tag with
      | none => .error .authFail
      | some pt =>
        match utf8Decode? pt with
        | none => .error .badUtf8
        | some cs =>
          match jsonParse (String.mk cs) with
          | none => .error .badJson
          | some j => .ok j := by
  have hl : (String.mk (bytesToHex iv ++ ':' :: bytesToHex tag ++ ':' ::
      bytesToHex ct)).toList =
      bytesToHex iv ++ ':' :: (bytesToHex tag ++ ':' :: bytesToHex ct) := by
    show bytesToHex iv ++ ':' :: bytesToHex tag ++ ':' :: bytesToHex ct = _
    simp [List.append_assoc]
  rw [decryptData, hl]
  rw [splitOnChar_sep_append ':' _ _ (bytesToHex_ne_colon iv hiv),
    splitOnChar_sep_append ':' _ _ (bytesToHex_ne_colon _ htag),
    splitOnChar_not_mem ':' _ (bytesToHex_ne_colon _ hct)]
  show (match hexToBytes? (bytesToHex iv), hexToBytes? (bytesToHex tag),
          hexToBytes? (bytesToHex ct) with
        | some iv, some tag, some ct =>
          if iv.length ≠ 16 then Except.error DecErr.badIvLen
          else if tag.length ≠ 16 then Except.error DecErr.badTagLen
          else
            match gcmDecrypt key iv ct tag with
            | none => Except.error DecErr.authFail
            | some pt =>
              match utf8Decode? pt with
              | none => Except.error DecErr.badUtf8
              | some cs =>
                match jsonParse (String.mk cs) with
                | none => Except.error DecErr.badJson
                | some j => Except.ok j
        | _, _, _ => Except.error DecErr.badHex) = _
  rw [hexToBytes?_bytesToHex iv hiv, hexToBytes?_bytesToHex _ htag,
    hexToBytes?_bytesToHex _ hct]
  show (if iv.length ≠ 16 then Except.error DecErr.badIvLen
        else if tag.length ≠ 16 then Except.error DecErr.badTagLen
        else
          match gcmDecrypt key iv ct tag with
          | none => Except.error DecErr.authFail
          | some pt =>
            match utf8Decode? pt with
            | none => Except.error DecErr.badUtf8
            | some cs =>
              match jsonParse (String.mk cs) with
              | none => Except.error DecErr.badJson
              | some j => Except.ok j) = _
  rw [if_neg (by omega), if_neg (by omega)]


/-- C4: a single-bit modification anywhere in the ciphertext or the
authentication tag of an encrypted output makes decryptData return the
authentication error and decryptBuffer fail, for any key whose GHASH
subkey admits a GF(2) Bezout certificate with the GCM modulus; decryption
never silently returns altered plaintext. -/
theorem tampered_decryption_fails
    (key iv : List Nat) (j : Json) (buf : List Nat) (i t i2 t2 k1 k2 k3 k4 : Nat)
    (hiv : ∀ b ∈ iv, b < 256) (hivlen : iv.length = 16)
    (hbuf : ∀ b ∈ buf, b < 256)
    (hbez : ∃ u v, clmul u gcmP ^^^ clmul v (rev128 (gcmH key)) = 1)
    (hk1 : k1 < 8) (hk2 : k2 < 8) (hk3 : k3 < 8) (hk4 : k4 < 8)
    (hi : i < (gcmEncrypt key iv (utf8Encode (jsonStringify j))).1.length)
    (ht : t < 16)
    (hi2 : i2 < (encryptBuffer key iv buf).2.2.length)
    (ht2 : t2 < 16) :
    decryptData key (String.mk (bytesToHex iv ++ ':' ::
        bytesToHex (gcmEncrypt key iv (utf8Encode (jsonStringify j))).2 ++ ':' ::
        bytesToHex ((gcmEncrypt key iv (utf8Encode (jsonStringify j))).1.set i
          ((gcmEncrypt key iv (utf8Encode (jsonStringify j))).1.getD i 0 ^^^ 2 ^ k1)))) =
      .error .authFail ∧
    decryptData key (String.mk (bytesToHex iv ++ ':' ::
        bytesToHex ((gcmEncrypt key iv (utf8Encode (jsonStringify j))).2.set t
          ((gcmEncrypt key iv (utf8Encode (jsonStringify j))).2.getD t 0 ^^^ 2 ^ k2))
        ++ ':' ::
        bytesToHex (gcmEncrypt key iv (utf8Encode (jsonStringify j))).1)) =
      .error .authFail ∧
    decryptBuffer key ((encryptBuffer key iv buf).2.2.set i2
        ((encryptBuffer key iv buf).2.2.getD i2 0 ^^^ 2 ^ k3))
      (encryptBuffer key iv buf).1 (encryptBuffer key iv buf).2.1 = none ∧
    decryptBuffer key (encryptBuffer key iv buf).2.2
      (encryptBuffer key iv buf).1
      (String.mk (bytesToHex ((gcmEncrypt key iv buf).2.set t2
        ((gcmEncrypt key iv buf).2.getD t2 0 ^^^ 2 ^ k4)))) = none := by
  have hctJ : ∀ b ∈ (gcmEncrypt key iv (utf8Encode (jsonStringify j))).1, b < 256 :=
    gcmEncrypt_ct_lt key iv _ (utf8Encode_lt _)
  have htagJ : ∀ b ∈ (gcmEncrypt key iv (utf8Encode (jsonStringify j))).2, b < 256 :=
    gcmEncrypt_tag_lt key iv _
  have hctB : ∀ b ∈ (gcmEncrypt key iv buf).1, b < 256 :=
    gcmEncrypt_ct_lt key iv _ hbuf
  have htagB : ∀ b ∈ (gcmEncrypt key iv buf).2, b < 256 :=
    gcmEncrypt_tag_lt key iv _
  have h2k : ∀ k : Nat, k < 8 → (2 : Nat) ^ k < 256 := by
    intro k hk
    calc (2 : Nat) ^ k < 2 ^ 8 := Nat.pow_lt_pow_right (by omega) hk
      _ = 256 := by norm_num
  refine ⟨?_, ?_, ?_, ?_⟩
  · rw [decryptData_parts key iv _ _ hiv htagJ
      (all_lt_set _ _ _ hctJ (xor_lt_256 (getD_all_lt _ hctJ i) (h2k k1 hk1)))
      hivlen (gcmEncrypt_tag_length key iv _)]
    rw [gcmDecrypt_ct_flip key iv _ i k1 hi hk1 (utf8Encode_lt _) hbez]
  · rw [decryptData_parts key iv _ _ hiv
      (all_lt_set _ _ _ htagJ (xor_lt_256 (getD_all_lt _ htagJ t) (h2k k2 hk2)))
      hctJ hivlen
      (by rw [List.length_set, gcmEncrypt_tag_length])]
    rw [show (gcmEncrypt key iv (utf8Encode (jsonStringify j))).2 =
      gcmTag key iv (gcmEncrypt key iv (utf8Encode (jsonStringify j))).1 from rfl]
    rw [gcmDecrypt_tag_flip key iv _ t k2 ht hk2]
  · show decryptBuffer key ((gcmEncrypt key iv buf).1.set i2
        ((gcmEncrypt key iv buf).1.getD i2 0 ^^^ 2 ^ k3))
      (String.mk (bytesToHex iv)) (String.mk (bytesToHex (gcmEncrypt key iv buf).2)) =
      none
    rw [decryptBuffer]
    rw [show (String.mk (bytesToHex iv)).toList = bytesToHex iv from rfl]
    rw [show (String.mk (bytesToHex (gcmEncrypt key iv buf).2)).toList =
        bytesToHex (gcmEncrypt key iv buf).2 from rfl]
    rw [hexToBytes?_bytesToHex iv hiv, hexToBytes?_bytesToHex _ htagB]
    show gcmDecrypt key iv ((gcmEncrypt key iv buf).1.set i2
        ((gcmEncrypt key iv buf).1.getD i2 0 ^^^ 2 ^ k3)) (gcmEncrypt key iv buf).2 =
      none
    exact gcmDecrypt_ct_flip key iv buf i2 k3 hi2 hk3 hbuf hbez
  · show decryptBuffer key (gcmEncrypt key iv buf).1
      (String.mk (bytesToHex iv))
      (String.mk (bytesToHex ((gcmEncrypt key iv buf).2.set t2
        ((gcmEncrypt key iv buf).2.getD t2 0 ^^^ 2 ^ k4)))) = none
    rw [decryptBuffer]
    rw [show (String.mk (bytesToHex iv)).toList = bytesToHex iv from rfl]
    rw [show (String.mk (bytesToHex ((gcmEncrypt key iv buf).2.set t2
        ((gcmEncrypt key iv buf).2.getD t2 0 ^^^ 2 ^ k4)))).toList =
        bytesToHex ((gcmEncrypt key iv buf).2.set t2
        ((gcmEncrypt key iv buf).2.getD t2 0 ^^^ 2 ^ k4)) from rfl]
    rw [hexToBytes?_bytesToHex iv hiv, hexToBytes?_bytesToHex _
      (all_lt_set _ _ _ htagB (xor_lt_256 (getD_all_lt _ htagB t2) (h2k k4 hk4)))]
    show gcmDecrypt key iv (gcmEncrypt key iv buf).1
      ((gcmEncrypt key iv buf).2.set t2
        ((gcmEncrypt key iv buf).2.getD t2 0 ^^^ 2 ^ k4)) = none
    rw [show (gcmEncrypt key iv buf).2 =
      gcmTag key iv (gcmEncrypt key iv buf).1 from rfl]
    rw [gcmDecrypt_tag_flip key iv _ t2 k4 ht2 hk4]


theorem clmulF_eq : ∀ fuel a b, a < 2 ^ fuel → clmulF fuel a b = clmul a b := by
  intro fuel
  induction fuel with
  | zero =>
    intro a b ha
    have : a = 0 := by omega
    subst this
    rw [clmulF, clmul_zero_left]
  | succ fuel ih =>
    intro a b ha
    rw [clmulF]
    by_cases h : a = 0
    · subst h
      rw [if_pos rfl, clmul_zero_left]
    · have hdiv : a / 2 < 2 ^ fuel := by
        have h2 : (2 : Nat) ^ (fuel + 1) = 2 * 2 ^ fuel := by ring
        omega
      rw [if_neg h, ih (a / 2) b hdiv]
      conv_rhs => rw [clmul_eq a b]

theorem bez_check :
    clmul 835675654814302835434868166784943152 gcmP ^^^
      clmul 329702742315880907680506132022298324419
        (rev128 (gcmH (List.range 32))) = 1 := by
  rw [← clmulF_eq 128 835675654814302835434868166784943152 gcmP (by norm_num),
    ← clmulF_eq 129 329702742315880907680506132022298324419 _ (by norm_num)]
  decide


theorem tampered_decryption_fails_witness :
    (∀ b ∈ ([0, 1, 2, 3, 4, 5, 6, 7, 8, 9, 10, 11, 12, 13, 14, 15] : List Nat), b < 256) ∧
    ([0, 1, 2, 3, 4, 5, 6, 7, 8, 9, 10, 11, 12, 13, 14, 15] : List Nat).length = 16 ∧
    (∀ b ∈ ([1, 2, 3] : List Nat), b < 256) ∧
    (∃ u v, clmul u gcmP ^^^ clmul v (rev128 (gcmH (List.range 32))) = 1) ∧
    0 < (gcmEncrypt (List.range 32) [0, 1, 2, 3, 4, 5, 6, 7, 8, 9, 10, 11, 12, 13, 14, 15] (utf8Encode (jsonStringify Json.jnull))).1.length ∧
    0 < (encryptBuffer (List.range 32) [0, 1, 2, 3, 4, 5, 6, 7, 8, 9, 10, 11, 12, 13, 14, 15] [1, 2, 3]).2.2.length ∧
    (decryptData (List.range 32) (String.mk (bytesToHex [0, 1, 2, 3, 4, 5, 6, 7, 8, 9, 10, 11, 12, 13, 14, 15] ++ ':' ::
        bytesToHex (gcmEncrypt (List.range 32) [0, 1, 2, 3, 4, 5, 6, 7, 8, 9, 10, 11, 12, 13, 14, 15] (utf8Encode (jsonStringify Json.jnull))).2 ++ ':' ::
        bytesToHex ((gcmEncrypt (List.range 32) [0, 1, 2, 3, 4, 5, 6, 7, 8, 9, 10, 11, 12, 13, 14, 15] (utf8Encode (jsonStringify Json.jnull))).1.set 0 ((gcmEncrypt (List.range 32) [0, 1, 2, 3, 4, 5, 6, 7, 8, 9, 10, 11, 12, 13, 14, 15] (utf8Encode (jsonStringify Json.jnull))).1.getD 0 0 ^^^ 2 ^ 0)))) =
      .error .authFail ∧
    decryptData (List.range 32) (String.mk (bytesToHex [0, 1, 2, 3, 4, 5, 6, 7, 8, 9, 10, 11, 12, 13, 14, 15] ++ ':' ::
        bytesToHex ((gcmEncrypt (List.range 32) [0, 1, 2, 3, 4, 5, 6, 7, 8, 9, 10, 11, 12, 13, 14, 15] (utf8Encode (jsonStringify Json.jnull))).2.set 0 ((gcmEncrypt (List.range 32) [0, 1, 2, 3, 4, 5, 6, 7, 8, 9, 10, 11, 12, 13, 14, 15] (utf8Encode (jsonStringify Json.jnull))).2.getD 0 0 ^^^ 2 ^ 1)) ++ ':' ::
        bytesToHex (gcmEncrypt (List.range 32) [0, 1, 2, 3, 4, 5, 6, 7, 8, 9, 10, 11, 12, 13, 14, 15] (utf8Encode (jsonStringify Json.jnull))).1)) =
      .error .authFail ∧
    decryptBuffer (List.range 32) ((encryptBuffer (List.range 32) [0, 1, 2, 3, 4, 5, 6, 7, 8, 9, 10, 11, 12, 13, 14, 15] [1, 2, 3]).2.2.set 0 ((encryptBuffer (List.range 32) [0, 1, 2, 3, 4, 5, 6, 7, 8, 9, 10, 11, 12, 13, 14, 15] [1, 2, 3]).2.2.getD 0 0 ^^^ 2 ^ 2))
      (encryptBuffer (List.range 32) [0, 1, 2, 3, 4, 5, 6, 7, 8, 9, 10, 11, 12, 13, 14, 15] [1, 2, 3]).1 (encryptBuffer (List.range 32) [0, 1, 2, 3, 4, 5, 6, 7, 8, 9, 10, 11, 12, 13, 14, 15] [1, 2, 3]).2.1 = none ∧
    decryptBuffer (List.range 32) (encryptBuffer (List.range 32) [0, 1, 2, 3, 4, 5, 6, 7, 8, 9, 10, 11, 12, 13, 14, 15] [1, 2, 3]).2.2 (encryptBuffer (List.range 32) [0, 1, 2, 3, 4, 5, 6, 7, 8, 9, 10, 11, 12, 13, 14, 15] [1, 2, 3]).1
      (String.mk (bytesToHex ((gcmEncrypt (List.range 32) [0, 1, 2, 3, 4, 5, 6, 7, 8, 9, 10, 11, 12, 13, 14, 15] [1, 2, 3]).2.set 0 ((gcmEncrypt (List.range 32) [0, 1, 2, 3, 4, 5, 6, 7, 8, 9, 10, 11, 12, 13, 14, 15] [1, 2, 3]).2.getD 0 0 ^^^ 2 ^ 3)))) = none) :=
  ⟨by decide, by decide, by decide,
   ⟨835675654814302835434868166784943152,
    329702742315880907680506132022298324419, bez_check⟩,
   by
     rw [gcmEncrypt_ct_length]
     rw [show jsonStringify Json.jnull = String.mk ['n', 'u', 'l', 'l'] from rfl]
     decide,
   by
     show 0 < (gcmEncrypt (List.range 32) [0, 1, 2, 3, 4, 5, 6, 7, 8, 9, 10, 11, 12, 13, 14, 15] [1, 2, 3]).1.length
     rw [gcmEncrypt_ct_length]
     decide,
   tampered_decryption_fails (List.range 32) [0, 1, 2, 3, 4, 5, 6, 7, 8, 9, 10, 11, 12, 13, 14, 15] Json.jnull [1, 2, 3] 0 0 0 0 0 1 2 3
     (by decide) (by decide) (by decide)
     ⟨835675654814302835434868166784943152,
      329702742315880907680506132022298324419, bez_check⟩
     (by decide) (by decide) (by decide) (by decide)
     (by
       rw [gcmEncrypt_ct_length]
       rw [show jsonStringify Json.jnull = String.mk ['n', 'u', 'l', 'l'] from rfl]
       decide)
     (by decide)
     (by
       show 0 < (gcmEncrypt (List.range 32) [0, 1, 2, 3, 4, 5, 6, 7, 8, 9, 10, 11, 12, 13, 14, 15] [1, 2, 3]).1.length
       rw [gcmEncrypt_ct_length]
       decide)
     (by decide)⟩

end DataGuardian
